import Mathlib

/-!
Shallow embedding of the rusty-graphs library (graph.rs, bfs.rs, dfs.rs,
dijkstra.rs, bellman_ford.rs, floyd_warshall.rs) and proofs about it.

Modelling conventions:
* Edge weights `f64` are idealized as `ℚ` (the spec describes weights as
  totally-ordered real numbers); path costs, which the code initializes to
  `f64::INFINITY`, live in `WithTop ℚ`, whose `⊤` behaves like the float
  infinity under addition of finite weights and under `<`.
* Rust's `HashMap<usize, Edge>` has an unspecified iteration order; it is
  modelled as an association list in insertion order, `insert` replacing the
  value of an existing key in place.  `get_edge_list` (`values()`) iterates in
  that order; `get_ordered_edge_list` sorts by key, as in the source.
* Rust's `BinaryHeap` pops a maximal element under the `Ord` of `State`
  (which reverses the cost comparison, so the popped element has minimal
  cost, with ties resolved toward the largest `position`).  Elements that
  compare equal under that `Ord` are identical, so popping is a function of
  the multiset of entries; the heap is modelled as a list with that pop.
* `&mut self` methods returning `Result<(), String>` become functions
  returning the `Except` outcome together with the state of `self` after the
  call (unchanged when the method returns early with an error).
* Loops are given explicit fuel large enough for the executions the claims
  are about; invariants are proved for every fuel.
-/

namespace RustyGraphs

/-- Costs: `ℚ` together with the infinity used by the algorithms. -/
abbrev Qi : Type := WithTop ℚ

/-- `Edge { from, to, weight }` from graph.rs (`from` is a Lean keyword,
hence `from'`). -/
structure Edge where
  from' : ℕ
  to' : ℕ
  weight : ℚ
deriving DecidableEq

/-- `Edge::new`. -/
def Edge.new (from' to' : ℕ) (weight : ℚ) : Edge :=
  { from' := from', to' := to', weight := weight }

/-- `Node { index, edges, label }`; the `HashMap` is an insertion-ordered
association list from neighbor index to edge. -/
structure Node where
  index : ℕ
  edges : List (ℕ × Edge)
  label : Option String
deriving DecidableEq

instance : Inhabited Node := ⟨{ index := 0, edges := [], label := none }⟩

/-- `Node::new`. -/
def Node.new (index : ℕ) (label : Option String) : Node :=
  { index := index, edges := [], label := label }

/-- `HashMap::insert`: replace the value of an existing key in place,
otherwise append the new binding. -/
def upsert : List (ℕ × Edge) → ℕ → Edge → List (ℕ × Edge)
  | [], k, e => [(k, e)]
  | (k', e') :: rest, k, e =>
      if k' = k then (k, e) :: rest else (k', e') :: upsert rest k e

/-- `Node::num_edges`. -/
def Node.num_edges (nd : Node) : ℕ := nd.edges.length

/-- `Node::get_edge` (`HashMap::get`): association-list lookup by key. -/
def Node.get_edge (nd : Node) (index : ℕ) : Option Edge :=
  nd.edges.lookup index

/-- `Node::add_edge`. -/
def Node.add_edge (nd : Node) (neighbor : ℕ) (weight : ℚ) : Node :=
  { nd with edges := upsert nd.edges neighbor (Edge.new nd.index neighbor weight) }

/-- `Node::remove_edge` (`HashMap::remove`). -/
def Node.remove_edge (nd : Node) (neighbor : ℕ) : Node :=
  { nd with edges := nd.edges.filter (fun p => p.1 ≠ neighbor) }

/-- `Node::get_edge_list`: the values in map iteration order. -/
def Node.get_edge_list (nd : Node) : List Edge := nd.edges.map (fun p => p.2)

/-- Insertion into a list of bindings sorted ascending by key. -/
def insertByKey (p : ℕ × Edge) : List (ℕ × Edge) → List (ℕ × Edge)
  | [] => [p]
  | q :: rest => if p.1 ≤ q.1 then p :: q :: rest else q :: insertByKey p rest

/-- Sort bindings ascending by key (insertion sort). -/
def sortByKey : List (ℕ × Edge) → List (ℕ × Edge)
  | [] => []
  | p :: rest => insertByKey p (sortByKey rest)

/-- `Node::get_ordered_edge_list`: values sorted ascending by neighbor key. -/
def Node.get_ordered_edge_list (nd : Node) : List Edge :=
  (sortByKey nd.edges).map (fun p => p.2)

/-- `GraphList { undirected, nodes }`. -/
structure GraphList where
  undirected : Bool
  nodes : List Node
deriving DecidableEq

/-- `GraphList::num_nodes`. -/
def GraphList.num_nodes (g : GraphList) : ℕ := g.nodes.length

/-- Indexing `self.nodes[i]` (claims only use it in range). -/
def GraphList.getNode (g : GraphList) (i : ℕ) : Node := g.nodes.getD i default

/-- `GraphList::valid_indices`. -/
def GraphList.valid_indices (g : GraphList) (from' to' : ℕ) : Bool :=
  decide (from' < g.num_nodes) && decide (to' < g.num_nodes)

/-- `GraphList::get_edge`. -/
def GraphList.get_edge (g : GraphList) (from' to' : ℕ) : Except String (Option Edge) :=
  if !(g.valid_indices from' to') then
    .error "Node out of range"
  else
    .ok ((g.getNode from').get_edge to')

/-- `GraphList::is_edge`. -/
def GraphList.is_edge (g : GraphList) (from' to' : ℕ) : Bool :=
  match g.get_edge from' to' with
  | .ok (some _) => true
  | _ => false

/-- `GraphList::make_edge_list`. -/
def GraphList.make_edge_list (g : GraphList) : List Edge :=
  g.nodes.flatMap Node.get_edge_list

/-- Update one node of the node vector in place. -/
def listModify (l : List Node) (i : ℕ) (f : Node → Node) : List Node :=
  match l[i]? with
  | some a => l.set i (f a)
  | none => l

/-- `GraphList::insert_edge`: the `Result` and the state of `self` after the
call (unchanged when the indices are rejected). -/
def GraphList.insert_edge (g : GraphList) (from' to' : ℕ) (weight : ℚ) :
    Except String Unit × GraphList :=
  if !(g.valid_indices from' to') then
    (.error "Node out of range", g)
  else
    let g1 : GraphList :=
      { g with nodes := listModify g.nodes from' (fun nd => nd.add_edge to' weight) }
    let g2 : GraphList :=
      if g.undirected then
        { g1 with nodes := listModify g1.nodes to' (fun nd => nd.add_edge from' weight) }
      else g1
    (.ok (), g2)

/-- `GraphList::remove_edge`: the `Result` and the state of `self` after the
call. -/
def GraphList.remove_edge (g : GraphList) (from' to' : ℕ) :
    Except String Unit × GraphList :=
  if !(g.valid_indices from' to') then
    (.error "Node out of range", g)
  else
    let g1 : GraphList :=
      { g with nodes := listModify g.nodes from' (fun nd => nd.remove_edge to') }
    let g2 : GraphList :=
      if g.undirected then
        { g1 with nodes := listModify g1.nodes to' (fun nd => nd.remove_edge from') }
      else g1
    (.ok (), g2)

/-- `GraphList::insert_node`: the new state together with the returned node. -/
def GraphList.insert_node (g : GraphList) (label : Option String) :
    GraphList × Node :=
  let nd := Node.new g.num_nodes label
  ({ g with nodes := g.nodes ++ [nd] }, nd)

/-- Well-formedness as maintained by the data model: each node's `index` is
its position, and every stored binding `(k, e)` at node `i` has `e.from' = i`,
`e.to' = k`, and `k` a valid index. -/
def WellFormed (g : GraphList) : Prop :=
  (∀ i ∈ List.range g.num_nodes, (g.getNode i).index = i) ∧
  (∀ nd ∈ g.nodes, ∀ p ∈ nd.edges,
    p.2.from' = nd.index ∧ p.2.to' = p.1 ∧ p.1 < g.num_nodes)

instance (g : GraphList) : Decidable (WellFormed g) := by
  unfold WellFormed; infer_instance


end RustyGraphs

namespace RustyGraphs

/-! ## bellman_ford.rs -/

/-- One relaxation of a single edge (the body of the inner loop; the `last`
vector the source also updates is discarded by the function and omitted). -/
def relaxEdge (cost : List Qi) (e : Edge) : List Qi :=
  let cost_through_node : Qi := cost.getD e.from' ⊤ + (e.weight : ℚ)
  if cost_through_node < cost.getD e.to' ⊤ then cost.set e.to' cost_through_node
  else cost

/-- One round: relax every edge of `make_edge_list` in order. -/
def relaxRound (all_edges : List Edge) (cost : List Qi) : List Qi :=
  all_edges.foldl relaxEdge cost

/-- `bellman_ford`: `num_nodes - 1` rounds, then one detection pass. -/
def bellman_ford (g : GraphList) (start : ℕ) : Option (List Qi) :=
  let all_edges := g.make_edge_list
  let cost0 : List Qi := (List.replicate g.num_nodes (⊤ : Qi)).set start 0
  let cost := (relaxRound all_edges)^[g.num_nodes - 1] cost0
  if all_edges.any (fun e => cost.getD e.from' ⊤ + (e.weight : ℚ) < cost.getD e.to' ⊤) then
    none
  else
    some cost

/-! ## dijkstra.rs -/

/-- `State { cost, position }`. -/
structure State where
  cost : Qi
  position : ℕ
deriving DecidableEq

/-- `b` pops strictly before `a` under the source's `Ord` for `State`
(reversed cost, then position): smaller cost first, larger position on ties. -/
def State.popsBefore (b a : State) : Prop :=
  b.cost < a.cost ∨ (b.cost = a.cost ∧ a.position < b.position)

instance (b a : State) : Decidable (b.popsBefore a) := by
  unfold State.popsBefore; infer_instance

/-- Fold step selecting the entry `BinaryHeap::pop` returns. -/
def betterState (a b : State) : State := if b.popsBefore a then b else a

/-- `BinaryHeap::pop`: remove and return the maximal entry under the
source's `Ord` (minimal cost, ties to the largest position). -/
def popMax : List State → Option (State × List State)
  | [] => none
  | s :: rest =>
      let m := rest.foldl betterState s
      some (m, (s :: rest).erase m)

/-- Dijkstra loop state: the `costs` vector and the heap contents. -/
structure DState where
  costs : List Qi
  queue : List State
deriving DecidableEq

/-- Body of the edge loop: relax `e.to'` if it still has a pending entry
(`node_not_visited` in the source). -/
def relaxNeighbor (position : ℕ) (st : DState) (e : Edge) : DState :=
  let neighbor := e.to'
  if st.queue.any (fun s => s.position = neighbor) then
    let new_cost : Qi := st.costs.getD position ⊤ + (e.weight : ℚ)
    if new_cost < st.costs.getD neighbor ⊤ then
      { costs := st.costs.set neighbor new_cost,
        queue := { cost := new_cost, position := neighbor } :: st.queue }
    else st
  else st

/-- One iteration of the `while let Some(...) = queue.pop()` loop. -/
def dijkstraStep (g : GraphList) (st : DState) : Option DState :=
  match popMax st.queue with
  | none => none
  | some (s, rest) =>
      some ((g.getNode s.position).get_edge_list.foldl (relaxNeighbor s.position)
        { costs := st.costs, queue := rest })

/-- Run the loop with explicit fuel; the loop exits when the heap is empty. -/
def dijkstraRun (g : GraphList) : ℕ → DState → DState
  | 0, st => st
  | fuel + 1, st =>
      match dijkstraStep g st with
      | none => st
      | some st' => dijkstraRun g fuel st'

/-- The initial state: `costs[start] = 0`, everything else infinite; the heap
seeded with `(0, start)` and `(∞, i)` for every other node. -/
def dijkstraInit (g : GraphList) (start : ℕ) : DState :=
  { costs := (List.replicate g.num_nodes (⊤ : Qi)).set start 0,
    queue := { cost := 0, position := start } ::
      ((List.range g.num_nodes).filter (fun i => i ≠ start)).map
        (fun i => { cost := (⊤ : Qi), position := i }) }

/-- Fuel: one iteration per heap entry ever pushed; `num_nodes` seeds plus at
most one push per edge (proved below for non-negative weights). -/
def dijkstraFuel (g : GraphList) : ℕ := g.num_nodes + g.make_edge_list.length

/-- `dijkstra`. -/
def dijkstra (g : GraphList) (start : ℕ) : List Qi :=
  (dijkstraRun g (dijkstraFuel g) (dijkstraInit g start)).costs

/-- The sequence of entries popped by the loop, in order (the same iterations
as `dijkstraRun`, observed). -/
def dijkstraPopsAux (g : GraphList) : ℕ → DState → List State
  | 0, _ => []
  | fuel + 1, st =>
      match popMax st.queue with
      | none => []
      | some (s, rest) =>
          s :: dijkstraPopsAux g fuel
            ((g.getNode s.position).get_edge_list.foldl (relaxNeighbor s.position)
              { costs := st.costs, queue := rest })

/-- Pop sequence of the full run. -/
def dijkstraPops (g : GraphList) (start : ℕ) : List State :=
  dijkstraPopsAux g (dijkstraFuel g) (dijkstraInit g start)

/-! ## bfs.rs -/

/-- BFS loop state: `seen`, `last` and the `VecDeque`. -/
structure BState where
  seen : List Bool
  last : List Int
  pending : List ℕ
deriving DecidableEq

/-- Body of the neighbor loop of `bfs`. -/
def bfsVisit (next : ℕ) (st : BState) (e : Edge) : BState :=
  let neighbour := e.to'
  if !(st.seen.getD neighbour false) then
    { seen := st.seen.set neighbour true,
      last := st.last.set neighbour (Int.ofNat next),
      pending := st.pending ++ [neighbour] }
  else st

/-- The `while !pending.is_empty()` loop with fuel. -/
def bfsAux (g : GraphList) : ℕ → BState → List Int
  | 0, st => st.last
  | fuel + 1, st =>
      match st.pending with
      | [] => st.last
      | next :: rest =>
          bfsAux g fuel
            ((g.getNode next).get_edge_list.foldl (bfsVisit next)
              { st with pending := rest })

/-- `bfs` (neighbors iterated through `get_edge_list`, the unordered view). -/
def bfs (g : GraphList) (start : ℕ) : List Int :=
  bfsAux g (g.num_nodes + g.make_edge_list.length + 1)
    { seen := (List.replicate g.num_nodes false).set start true,
      last := List.replicate g.num_nodes (-1),
      pending := [start] }

/-! ## dfs.rs -/

/-- `dfs_recursive`, with fuel standing in for the call stack; returns the
`seen` vector the source mutates. -/
def dfs_recursive (g : GraphList) : ℕ → ℕ → List Bool → List Bool
  | 0, _, seen => seen
  | fuel + 1, ind, seen =>
      let seen1 := seen.set ind true
      (g.getNode ind).get_edge_list.foldl
        (fun sn e => if !(sn.getD e.to' false) then dfs_recursive g fuel e.to' sn else sn)
        seen1

/-- `dfs`. -/
def dfs (g : GraphList) (start : ℕ) : List Bool :=
  dfs_recursive g (g.num_nodes + 1) start (List.replicate g.num_nodes false)

/-- `dfs_all`: run `dfs_recursive` from every still-unseen index; returns the
`seen` vector the source mutates. -/
def dfs_all (g : GraphList) : List Bool :=
  (List.range g.num_nodes).foldl
    (fun seen i =>
      if !(seen.getD i false) then dfs_recursive g (g.num_nodes + 1) i seen
      else seen)
    (List.replicate g.num_nodes false)

/-- DFS-stack loop state. -/
structure SState where
  seen : List Bool
  last : List Int
  to_explore : List ℕ
deriving DecidableEq

/-- Body of the neighbor loop of `dfs_stack` (predecessor written at push
time, overwriting any earlier value). -/
def dfsPush (ind : ℕ) (st : SState) (e : Edge) : SState :=
  let neighbor := e.to'
  if !(st.seen.getD neighbor false) then
    { st with last := st.last.set neighbor (Int.ofNat ind),
              to_explore := neighbor :: st.to_explore }
  else st

/-- The `while !to_explore.is_empty()` loop with fuel. -/
def dfsStackAux (g : GraphList) : ℕ → SState → List Int
  | 0, st => st.last
  | fuel + 1, st =>
      match st.to_explore with
      | [] => st.last
      | ind :: rest =>
          if st.seen.getD ind false then dfsStackAux g fuel { st with to_explore := rest }
          else
            dfsStackAux g fuel
              ((g.getNode ind).get_ordered_edge_list.reverse.foldl (dfsPush ind)
                { seen := st.seen.set ind true, last := st.last, to_explore := rest })

/-- `dfs_stack` (ordered edge list, reversed before pushing). -/
def dfs_stack (g : GraphList) (start : ℕ) : List Int :=
  dfsStackAux g (g.num_nodes + g.make_edge_list.length + 1)
    { seen := List.replicate g.num_nodes false,
      last := List.replicate g.num_nodes (-1),
      to_explore := [start] }

/-- `dfs_recursive_connected_componentes` (the `component` vector doubles as
the visited marker). -/
def dfs_recursive_connected_componentes (g : GraphList) :
    ℕ → ℕ → List Int → Int → List Int
  | 0, _, component, _ => component
  | fuel + 1, ind, component, curr_comp =>
      let component1 := component.set ind curr_comp
      (g.getNode ind).get_edge_list.foldl
        (fun comp e =>
          if comp.getD e.to' 0 = -1 then
            dfs_recursive_connected_componentes g fuel e.to' comp curr_comp
          else comp)
        component1

/-- `dfs_connected_componentes`. -/
def dfs_connected_componentes (g : GraphList) : List Int :=
  (List.range g.num_nodes).foldl
    (fun (acc : List Int × Int) ind =>
      if acc.1.getD ind 0 = -1 then
        (dfs_recursive_connected_componentes g (g.num_nodes + 1) ind acc.1 acc.2, acc.2 + 1)
      else acc)
    (List.replicate g.num_nodes (-1), 0) |>.1

/-! ## floyd_warshall.rs -/

/-- Matrix access `m[i][j]`. -/
def mget (m : List (List Qi)) (i j : ℕ) : Qi := (m.getD i []).getD j ⊤

/-- Matrix access for the predecessor matrix. -/
def lget (m : List (List Int)) (i j : ℕ) : Int := (m.getD i []).getD j (-1)

/-- Matrix update `m[i][j] = v`. -/
def mset (m : List (List Qi)) (i j : ℕ) (v : Qi) : List (List Qi) :=
  m.set i ((m.getD i []).set j v)

/-- Matrix update for the predecessor matrix. -/
def lset (m : List (List Int)) (i j : ℕ) (v : Int) : List (List Int) :=
  m.set i ((m.getD i []).set j v)

/-- Initialization of one `(i, j)` entry of the cost/predecessor matrices;
the source calls `g.get_edge(i, j).unwrap()`, which panics on an
out-of-range error — modelled here by treating the error as no edge (the
safety claim proves the error branch is never taken for `i, j < n`). -/
def fwInitEntry (g : GraphList) (mats : List (List Qi) × List (List Int))
    (i j : ℕ) : List (List Qi) × List (List Int) :=
  if i = j then (mset mats.1 i j 0, mats.2)
  else
    match g.get_edge i j with
    | .ok (some e) => (mset mats.1 i j (e.weight : ℚ), lset mats.2 i j (Int.ofNat i))
    | _ => mats

/-- One `(k, i, j)` update of the triple loop. -/
def fwUpdate (mats : List (List Qi) × List (List Int)) (k i j : ℕ) :
    List (List Qi) × List (List Int) :=
  if mget mats.1 i k + mget mats.1 k j < mget mats.1 i j then
    (mset mats.1 i j (mget mats.1 i k + mget mats.1 k j),
     lset mats.2 i j (lget mats.2 k j))
  else mats

/-- `floyd_warshall`: returns the predecessor matrix `last`. -/
def floyd_warshall (g : GraphList) : List (List Int) :=
  let n := g.num_nodes
  let cost0 : List (List Qi) := List.replicate n (List.replicate n ⊤)
  let last0 : List (List Int) := List.replicate n (List.replicate n (-1))
  let init := (List.range n).foldl
    (fun mats i => (List.range n).foldl (fun ms j => fwInitEntry g ms i j) mats)
    (cost0, last0)
  let final := (List.range n).foldl
    (fun mats k => (List.range n).foldl
      (fun ms i => (List.range n).foldl (fun ms' j => fwUpdate ms' k i j) ms)
      mats)
    init
  final.2


end RustyGraphs

namespace RustyGraphs

/-! ## Concrete graphs from the repository's tests -/

/-- `vec![Node::new(0, None), ...]`. -/
def mkNodes (n : ℕ) : List Node := (List.range n).map (fun i => Node.new i none)

/-- Build a graph by a sequence of `insert_edge` calls (ignoring results, as
the tests do via `unwrap`). -/
def addEdges (g : GraphList) (es : List (ℕ × ℕ × ℚ)) : GraphList :=
  es.foldl (fun h e => (h.insert_edge e.1 e.2.1 e.2.2).2) g

/-- The basic weighted test graph shared by the Bellman-Ford and Dijkstra
tests and by the spec's concrete scenario. -/
def gBasic : GraphList :=
  addEdges { undirected := false, nodes := mkNodes 4 }
    [(0, 1, 4), (0, 2, 1), (1, 3, 1), (2, 1, 2), (2, 3, 5)]

/-- The 3-cycle with total weight `-1` from `test_negative_cycle_detection`. -/
def gNegCycle : GraphList :=
  addEdges { undirected := false, nodes := mkNodes 3 }
    [(0, 1, 1), (1, 2, 1), (2, 0, -3)]

/-- The BFS test graph. -/
def gBfsTest : GraphList :=
  addEdges { undirected := false, nodes := mkNodes 4 }
    [(0, 1, 1), (0, 2, 1), (1, 3, 1), (2, 3, 1)]

/-- The BFS test graph with node 0's two edges inserted in the opposite
order, so the map order at node 0 is `[2, 1]` while the edge set is equal. -/
def gBfsSwapped : GraphList :=
  addEdges { undirected := false, nodes := mkNodes 4 }
    [(0, 2, 1), (0, 1, 1), (1, 3, 1), (2, 3, 1)]

/-- Graph on which node 3 is pushed by node 0 and later re-pushed by node 1
before `dfs_stack` first pops it. -/
def gRepush : GraphList :=
  addEdges { undirected := false, nodes := mkNodes 4 }
    [(0, 1, 1), (0, 3, 1), (1, 3, 1)]

/-- Three isolated nodes: exposes the heap's tie-breaking order. -/
def gThree : GraphList := { undirected := false, nodes := mkNodes 3 }

example : bellman_ford gBasic 0 = some [0, 3, 1, 4] := by with_unfolding_all decide
example : dijkstra gBasic 0 = [0, 3, 1, 4] := by with_unfolding_all decide
example : bellman_ford gNegCycle 0 = none := by with_unfolding_all decide
example : bfs gBfsTest 0 = [-1, 0, 0, 1] := by decide
example : bfs gBfsSwapped 0 = [-1, 0, 0, 2] := by decide
example : dfs_stack gRepush 0 = [-1, 0, -1, 1] := by decide
example : (dijkstraPops gThree 0).map State.position = [0, 2, 1] := by with_unfolding_all decide
example : WellFormed gBasic := by decide


end RustyGraphs

namespace RustyGraphs

/-! ## List helper lemmas -/

theorem getD_set_self {α : Type} {l : List α} {i : ℕ} {a d : α}
    (h : i < l.length) : (l.set i a).getD i d = a := by
  induction l generalizing i with
  | nil => simp at h
  | cons x xs ih =>
    cases i with
    | zero => simp [List.set, List.getD]
    | succ j => simpa [List.set, List.getD] using ih (by simpa using h)

theorem getD_set_ne {α : Type} {l : List α} {i j : ℕ} {a : α} (d : α)
    (h : i ≠ j) : (l.set i a).getD j d = l.getD j d := by
  induction l generalizing i j with
  | nil => simp [List.set]
  | cons x xs ih =>
    cases i with
    | zero =>
      cases j with
      | zero => exact absurd rfl h
      | succ j' => simp [List.set, List.getD]
    | succ i' =>
      cases j with
      | zero => simp [List.set, List.getD]
      | succ j' => simpa [List.set, List.getD] using ih (fun hc => h (by rw [hc]))

theorem getD_replicate {α : Type} {n i : ℕ} {x d : α} (h : i < n) :
    (List.replicate n x).getD i d = x := by
  induction n generalizing i with
  | zero => omega
  | succ m ih =>
    cases i with
    | zero => simp [List.getD]
    | succ j =>
      have hj : j < m := by omega
      simpa [List.replicate, List.getD] using ih hj

theorem getD_of_length_le {α : Type} {l : List α} {i : ℕ} {d : α}
    (h : l.length ≤ i) : l.getD i d = d := by
  induction l generalizing i with
  | nil => simp [List.getD]
  | cons x xs ih =>
    cases i with
    | zero => simp at h
    | succ j => simpa [List.getD] using ih (by simpa using h)

theorem set_of_getElem? {α : Type} {l : List α} {i : ℕ} {a : α}
    (h : l[i]? = some a) : l.set i a = l := by
  induction l generalizing i with
  | nil => simp at h
  | cons x xs ih =>
    cases i with
    | zero => simp_all
    | succ j => simp_all [List.set]

/-! ## C7 and C10: index validation in the edge accessors -/

theorem valid_indices_iff (g : GraphList) (f t : ℕ) :
    g.valid_indices f t = true ↔ (f < g.num_nodes ∧ t < g.num_nodes) := by
  simp [GraphList.valid_indices]

/-- C7: `get_edge(from, to)` returns an `IndexError` exactly when `from` or
`to` is outside `[0, node_count)` and otherwise `Ok` of the optional edge;
`remove_edge` validates identically, and removing an absent edge between
valid indices returns `Ok` and leaves the graph unchanged. -/
theorem c7_get_edge_remove_edge_validation (g : GraphList) (f t : ℕ) :
    ((∃ s, g.get_edge f t = Except.error s) ↔ ¬(f < g.num_nodes ∧ t < g.num_nodes)) ∧
    (f < g.num_nodes ∧ t < g.num_nodes →
      g.get_edge f t = Except.ok ((g.getNode f).get_edge t)) ∧
    ((∃ s, (g.remove_edge f t).1 = Except.error s) ↔
      ¬(f < g.num_nodes ∧ t < g.num_nodes)) ∧
    (f < g.num_nodes ∧ t < g.num_nodes → (g.remove_edge f t).1 = Except.ok ()) := by
  by_cases hv : f < g.num_nodes ∧ t < g.num_nodes
  · have hb : g.valid_indices f t = true := (valid_indices_iff g f t).mpr hv
    refine ⟨?_, fun _ => ?_, ?_, fun _ => ?_⟩
    · simp [GraphList.get_edge, hb, hv]
    · simp [GraphList.get_edge, hb]
    · simp [GraphList.remove_edge, hb, hv]
    · simp [GraphList.remove_edge, hb]
  · have hb : g.valid_indices f t = false := by
      rcases Bool.eq_false_or_eq_true (g.valid_indices f t) with h | h
      · exact absurd ((valid_indices_iff g f t).mp h) hv
      · exact h
    refine ⟨?_, fun hv' => absurd hv' hv, ?_, fun hv' => absurd hv' hv⟩
    · simp [GraphList.get_edge, hb, hv]
    · simp [GraphList.remove_edge, hb, hv]

/-- C7 witness: evaluated on the undirected test graph at valid and invalid
indices. -/
theorem c7_witness :
    ((0 < gBasic.num_nodes ∧ 9 < gBasic.num_nodes → False) ∧
      (∃ s, gBasic.get_edge 0 9 = Except.error s)) ∧
    ((0 < gBasic.num_nodes ∧ 3 < gBasic.num_nodes) ∧
      (gBasic.remove_edge 0 3).1 = Except.ok ()) := by
  refine ⟨⟨by decide, ?_⟩, by decide, ?_⟩
  · exact ((c7_get_edge_remove_edge_validation gBasic 0 9).1).mpr (by decide)
  · exact (c7_get_edge_remove_edge_validation gBasic 0 3).2.2.2 (by decide)

/-- C10: when `insert_edge` or `remove_edge` returns an error the graph is
left completely unchanged, and an error occurs exactly on invalid indices,
which are checked before any mutation. -/
theorem c10_error_leaves_graph_unchanged (g : GraphList) (f t : ℕ) (w : ℚ) :
    ((∃ s, (g.insert_edge f t w).1 = Except.error s) ↔
      ¬(f < g.num_nodes ∧ t < g.num_nodes)) ∧
    ((∃ s, (g.insert_edge f t w).1 = Except.error s) → (g.insert_edge f t w).2 = g) ∧
    ((∃ s, (g.remove_edge f t).1 = Except.error s) → (g.remove_edge f t).2 = g) := by
  by_cases hv : f < g.num_nodes ∧ t < g.num_nodes
  · have hb : g.valid_indices f t = true := (valid_indices_iff g f t).mpr hv
    refine ⟨?_, ?_, ?_⟩
    · simp [GraphList.insert_edge, hb, hv]
    · intro hs; exfalso
      rcases hs with ⟨s, hs⟩
      simp [GraphList.insert_edge, hb] at hs
    · intro hs; exfalso
      rcases hs with ⟨s, hs⟩
      simp [GraphList.remove_edge, hb] at hs
  · have hb : g.valid_indices f t = false := by
      rcases Bool.eq_false_or_eq_true (g.valid_indices f t) with h | h
      · exact absurd ((valid_indices_iff g f t).mp h) hv
      · exact h
    refine ⟨?_, ?_, ?_⟩
    · simp [GraphList.insert_edge, hb, hv]
    · intro _; simp [GraphList.insert_edge, hb]
    · intro _; simp [GraphList.remove_edge, hb]

/-- C10 witness: an out-of-range insertion on the test graph errors and
leaves it unchanged. -/
theorem c10_witness :
    (∃ s, (gBasic.insert_edge 0 9 (1 : ℚ)).1 = Except.error s) ∧
    (gBasic.insert_edge 0 9 (1 : ℚ)).2 = gBasic := by
  have h := c10_error_leaves_graph_unchanged gBasic 0 9 (1 : ℚ)
  have he : ∃ s, (gBasic.insert_edge 0 9 (1 : ℚ)).1 = Except.error s :=
    h.1.mpr (by decide)
  exact ⟨he, h.2.1 he⟩


end RustyGraphs

namespace RustyGraphs

/-! ## C8: the undirected symmetry invariant -/

/-- The mutating operations of the data model. -/
inductive Op where
  | insertEdge (from' to' : ℕ) (weight : ℚ)
  | removeEdge (from' to' : ℕ)
  | insertNode (label : Option String)

/-- The state of the graph after one operation (errors leave it unchanged). -/
def applyOp (g : GraphList) : Op → GraphList
  | .insertEdge f t w => (g.insert_edge f t w).2
  | .removeEdge f t => (g.remove_edge f t).2
  | .insertNode lbl => (g.insert_node lbl).1

/-- The state after a sequence of operations. -/
def applyOps (g : GraphList) (ops : List Op) : GraphList := ops.foldl applyOp g

/-- The weight of the edge `u → v`, if the indices are valid and the edge is
present. -/
def getWeight (g : GraphList) (u v : ℕ) : Option ℚ :=
  match g.get_edge u v with
  | .ok (some e) => some e.weight
  | _ => none

/-- The edge relation together with its weights is symmetric. -/
def SymWeights (g : GraphList) : Prop :=
  ∀ u v, getWeight g u v = getWeight g v u

/-- Every stored binding's key is a valid node index. -/
def EdgesBounded (g : GraphList) : Prop :=
  ∀ nd ∈ g.nodes, ∀ p ∈ nd.edges, p.1 < g.num_nodes

instance (g : GraphList) : Decidable (EdgesBounded g) := by
  unfold EdgesBounded; infer_instance

theorem lookup_upsert (l : List (ℕ × Edge)) (k : ℕ) (e : Edge) (j : ℕ) :
    (upsert l k e).lookup j = if j = k then some e else l.lookup j := by
  induction l with
  | nil =>
    by_cases hj : j = k
    · have hb : (j == k) = true := by simp [hj]
      simp [upsert, List.lookup, hb, hj]
    · have hb : (j == k) = false := by simp [hj]
      simp [upsert, List.lookup, hb, hj]
  | cons q rest ih =>
    rcases q with ⟨a, b⟩
    by_cases ha : a = k
    · subst ha
      by_cases hj : j = a
      · have hb : (j == a) = true := by simp [hj]
        simp [upsert, List.lookup, hb, hj]
      · have hb : (j == a) = false := by simp [hj]
        simp [upsert, List.lookup, hb, hj]
    · by_cases hj : j = a
      · have hb : (j == a) = true := by simp [hj]
        have hk : ¬(j = k) := by rw [hj]; exact ha
        simp [upsert, ha, List.lookup, hb, hk]
      · have hb : (j == a) = false := by simp [hj]
        simp [upsert, ha, List.lookup, hb, ih]

theorem lookup_filter_ne (l : List (ℕ × Edge)) (t j : ℕ) :
    (l.filter (fun p => p.1 ≠ t)).lookup j =
      if j = t then none else l.lookup j := by
  induction l with
  | nil => by_cases hj : j = t <;> simp [List.lookup, hj]
  | cons q rest ih =>
    rcases q with ⟨a, b⟩
    by_cases hat : a = t
    · subst hat
      have hdrop : List.filter (fun p => decide (p.1 ≠ a)) ((a, b) :: rest) =
          List.filter (fun p => decide (p.1 ≠ a)) rest := by
        simp [List.filter_cons]
      by_cases hj : j = a
      · subst hj
        rw [hdrop, ih]
        simp
      · rw [hdrop, ih]
        have hb : (j == a) = false := by simp [hj]
        simp [List.lookup, hb, hj]
    · have hf : (decide (a ≠ t)) = true := by simp [hat]
      by_cases hj : j = a
      · subst hj
        have hjt : ¬(j = t) := hat
        have hb : (j == j) = true := by simp
        simp only [List.filter_cons, hf, cond_true, List.lookup, hb, if_neg hjt]
      · have hb : (j == a) = false := by simp [hj]
        simp only [List.filter_cons, hf, cond_true, List.lookup, hb, ih]

theorem get_edge_add_edge (nd : Node) (k : ℕ) (w : ℚ) (j : ℕ) :
    (nd.add_edge k w).get_edge j =
      if j = k then some (Edge.new nd.index k w) else nd.get_edge j := by
  unfold Node.add_edge Node.get_edge
  simp only [lookup_upsert]

theorem get_edge_remove_edge (nd : Node) (t j : ℕ) :
    (nd.remove_edge t).get_edge j = if j = t then none else nd.get_edge j := by
  unfold Node.remove_edge Node.get_edge
  simp only [lookup_filter_ne]

theorem length_listModify (l : List Node) (i : ℕ) (f : Node → Node) :
    (listModify l i f).length = l.length := by
  unfold listModify
  cases h : l[i]? <;> simp

theorem getElem?_eq_some_getD {α : Type} [Inhabited α] {l : List α} {i : ℕ}
    (h : i < l.length) : l[i]? = some (l.getD i default) := by
  induction l generalizing i with
  | nil => simp at h
  | cons x xs ih =>
    cases i with
    | zero => simp [List.getD]
    | succ j => simpa [List.getD] using ih (by simpa using h)

theorem listModify_getD_self (l : List Node) (i : ℕ) (f : Node → Node)
    (h : i < l.length) : (listModify l i f).getD i default = f (l.getD i default) := by
  unfold listModify
  rw [getElem?_eq_some_getD h]
  exact getD_set_self (by simpa using h)

theorem listModify_getD_ne (l : List Node) (i j : ℕ) (f : Node → Node)
    (h : i ≠ j) : (listModify l i f).getD j default = l.getD j default := by
  unfold listModify
  cases hl : l[i]? with
  | none => rfl
  | some a => exact getD_set_ne default h

theorem getD_append_left {α : Type} {l₁ l₂ : List α} {i : ℕ} {d : α}
    (h : i < l₁.length) : (l₁ ++ l₂).getD i d = l₁.getD i d := by
  induction l₁ generalizing i with
  | nil => simp at h
  | cons x xs ih =>
    cases i with
    | zero => simp [List.getD]
    | succ j => simpa [List.getD] using ih (by simpa using h)

theorem num_nodes_insert_edge (g : GraphList) (f t : ℕ) (w : ℚ) :
    ((g.insert_edge f t w).2).num_nodes = g.num_nodes := by
  unfold GraphList.insert_edge GraphList.num_nodes
  by_cases hv : g.valid_indices f t <;>
    rcases hu : g.undirected <;> simp [hv, hu, length_listModify]

theorem num_nodes_remove_edge (g : GraphList) (f t : ℕ) :
    ((g.remove_edge f t).2).num_nodes = g.num_nodes := by
  unfold GraphList.remove_edge GraphList.num_nodes
  by_cases hv : g.valid_indices f t <;>
    rcases hu : g.undirected <;> simp [hv, hu, length_listModify]

theorem undirected_applyOp (g : GraphList) (op : Op) :
    (applyOp g op).undirected = g.undirected := by
  cases op with
  | insertEdge f t w =>
    unfold applyOp GraphList.insert_edge
    by_cases hv : g.valid_indices f t <;> rcases hu : g.undirected <;> simp [hv, hu]
  | removeEdge f t =>
    unfold applyOp GraphList.remove_edge
    by_cases hv : g.valid_indices f t <;> rcases hu : g.undirected <;> simp [hv, hu]
  | insertNode lbl => rfl


end RustyGraphs

namespace RustyGraphs

theorem index_add_edge (nd : Node) (k : ℕ) (w : ℚ) : (nd.add_edge k w).index = nd.index := rfl

theorem mem_upsert {l : List (ℕ × Edge)} {k : ℕ} {e : Edge} {p : ℕ × Edge}
    (h : p ∈ upsert l k e) : p = (k, e) ∨ p ∈ l := by
  induction l with
  | nil => simpa [upsert] using h
  | cons q rest ih =>
    rcases q with ⟨a, b⟩
    by_cases hq : a = k
    · rw [upsert, if_pos hq] at h
      rcases List.mem_cons.mp h with h | h
      · exact Or.inl h
      · exact Or.inr (List.mem_cons_of_mem _ h)
    · rw [upsert, if_neg hq] at h
      rcases List.mem_cons.mp h with h | h
      · exact Or.inr (by simp [h])
      · rcases ih h with h | h
        · exact Or.inl h
        · exact Or.inr (List.mem_cons_of_mem _ h)

theorem lookup_none_of_keys_lt {l : List (ℕ × Edge)} {n : ℕ}
    (h : ∀ p ∈ l, p.1 < n) : l.lookup n = none := by
  induction l with
  | nil => rfl
  | cons q rest ih =>
    have hq : q.1 < n := h q (List.mem_cons_self _ _)
    have hb : (n == q.1) = false := by
      simp only [beq_eq_false_iff_ne, ne_eq]
      omega
    rcases q with ⟨a, b⟩
    simp only [List.lookup, hb]
    exact ih (fun p hp => h p (List.mem_cons_of_mem _ hp))

theorem getD_append_length {α : Type} (l : List α) (x : α) (d : α) :
    (l ++ [x]).getD l.length d = x := by
  induction l with
  | nil => simp [List.getD]
  | cons y ys ih => simp [List.getD, ih]

/-- `getWeight` is `none` whenever either index is invalid. -/
theorem getWeight_of_invalid {g : GraphList} {u v : ℕ}
    (h : ¬(u < g.num_nodes ∧ v < g.num_nodes)) : getWeight g u v = none := by
  have hb : g.valid_indices u v = false := by
    rcases Bool.eq_false_or_eq_true (g.valid_indices u v) with h' | h'
    · exact absurd ((valid_indices_iff g u v).mp h') h
    · exact h'
  simp [getWeight, GraphList.get_edge, hb]

theorem getWeight_of_valid {g : GraphList} {u v : ℕ}
    (hu : u < g.num_nodes) (hv : v < g.num_nodes) :
    getWeight g u v = ((g.getNode u).get_edge v).map Edge.weight := by
  have hb : g.valid_indices u v = true := (valid_indices_iff g u v).mpr ⟨hu, hv⟩
  cases hg : (g.getNode u).get_edge v <;> simp [getWeight, GraphList.get_edge, hb, hg]

/-- The node vector of a valid undirected `insert_edge`. -/
theorem insert_edge_nodes_undir {g : GraphList} {f t : ℕ} {w : ℚ}
    (hund : g.undirected = true) (hb : g.valid_indices f t = true) :
    ((g.insert_edge f t w).2).nodes =
      listModify (listModify g.nodes f (fun nd => nd.add_edge t w)) t
        (fun nd => nd.add_edge f w) := by
  simp [GraphList.insert_edge, hb, hund]

/-- The `.map Edge.weight` view of `get_edge` after `add_edge`. -/
theorem map_weight_add_edge (nd : Node) (k : ℕ) (w : ℚ) (j : ℕ) :
    ((nd.add_edge k w).get_edge j).map Edge.weight =
      if j = k then some w else (nd.get_edge j).map Edge.weight := by
  rw [get_edge_add_edge]
  by_cases h : j = k <;> simp [h, Edge.new]

/-- `getWeight` after a valid undirected `insert_edge`. -/
theorem getWeight_insert_edge_undir {g : GraphList} {f t : ℕ} {w : ℚ}
    (hund : g.undirected = true) (hf : f < g.num_nodes) (ht : t < g.num_nodes)
    (u v : ℕ) :
    getWeight (g.insert_edge f t w).2 u v =
      if (u = f ∧ v = t) ∨ (u = t ∧ v = f) then some w else getWeight g u v := by
  have hb : g.valid_indices f t = true := (valid_indices_iff g f t).mpr ⟨hf, ht⟩
  have hn : ((g.insert_edge f t w).2).num_nodes = g.num_nodes :=
    num_nodes_insert_edge g f t w
  have hnodes := insert_edge_nodes_undir (w := w) hund hb
  have hflen : f < g.nodes.length := hf
  have htlen : t < (listModify g.nodes f (fun nd => nd.add_edge t w)).length := by
    rw [length_listModify]; exact ht
  by_cases hval : u < g.num_nodes ∧ v < g.num_nodes
  · have hu' : u < ((g.insert_edge f t w).2).num_nodes := by rw [hn]; exact hval.1
    have hv' : v < ((g.insert_edge f t w).2).num_nodes := by rw [hn]; exact hval.2
    rw [getWeight_of_valid hu' hv', getWeight_of_valid hval.1 hval.2]
    have hnode : ((g.insert_edge f t w).2).getNode u =
        (if u = t then
           (if u = f then ((g.getNode u).add_edge t w).add_edge f w
            else (g.getNode u).add_edge f w)
         else (if u = f then (g.getNode u).add_edge t w else g.getNode u)) := by
      show ((g.insert_edge f t w).2).nodes.getD u default = _
      rw [hnodes]
      by_cases hut : u = t
      · rw [if_pos hut]
        by_cases huf : u = f
        · rw [if_pos huf, hut, listModify_getD_self _ _ _ htlen, ← hut, huf,
            listModify_getD_self _ _ _ hflen]
          rfl
        · rw [if_neg huf, hut, listModify_getD_self _ _ _ htlen, ← hut,
            listModify_getD_ne _ _ _ _ (fun h => huf h.symm)]
          rfl
      · rw [if_neg hut, listModify_getD_ne _ _ _ _ (fun h => hut h.symm)]
        by_cases huf : u = f
        · rw [if_pos huf, huf, listModify_getD_self _ _ _ hflen]
          rfl
        · rw [if_neg huf, listModify_getD_ne _ _ _ _ (fun h => huf h.symm)]
          rfl
    rw [hnode]
    by_cases hut : u = t
    · rw [if_pos hut]
      by_cases huf : u = f
      · rw [if_pos huf, map_weight_add_edge]
        by_cases hvf : v = f
        · rw [if_pos hvf, if_pos (Or.inr ⟨hut, hvf⟩)]
        · rw [if_neg hvf, map_weight_add_edge]
          by_cases hvt : v = t
          · rw [if_pos hvt, if_pos (Or.inl ⟨huf, hvt⟩)]
          · rw [if_neg hvt, if_neg ?_]
            rintro (⟨_, h2⟩ | ⟨_, h2⟩)
            · exact hvt h2
            · exact hvf h2
      · rw [if_neg huf, map_weight_add_edge]
        by_cases hvf : v = f
        · rw [if_pos hvf, if_pos (Or.inr ⟨hut, hvf⟩)]
        · rw [if_neg hvf, if_neg ?_]
          rintro (⟨h1, _⟩ | ⟨_, h2⟩)
          · exact huf h1
          · exact hvf h2
    · rw [if_neg hut]
      by_cases huf : u = f
      · rw [if_pos huf, map_weight_add_edge]
        by_cases hvt : v = t
        · rw [if_pos hvt, if_pos (Or.inl ⟨huf, hvt⟩)]
        · rw [if_neg hvt, if_neg ?_]
          rintro (⟨_, h2⟩ | ⟨h1, _⟩)
          · exact hvt h2
          · exact hut h1
      · rw [if_neg huf, if_neg ?_]
        rintro (⟨h1, _⟩ | ⟨h1, _⟩)
        · exact huf h1
        · exact hut h1
  · have h1 : getWeight (g.insert_edge f t w).2 u v = none := by
      apply getWeight_of_invalid
      rw [hn]; exact hval
    have h2 : getWeight g u v = none := getWeight_of_invalid hval
    have hcond : ¬((u = f ∧ v = t) ∨ (u = t ∧ v = f)) := by
      rintro (⟨h1', h2'⟩ | ⟨h1', h2'⟩) <;> subst h1' <;> subst h2' <;>
        exact hval ⟨by assumption, by assumption⟩
    rw [h1, h2, if_neg hcond]


end RustyGraphs

namespace RustyGraphs

/-- The node vector of a valid undirected `remove_edge`. -/
theorem remove_edge_nodes_undir {g : GraphList} {f t : ℕ}
    (hund : g.undirected = true) (hb : g.valid_indices f t = true) :
    ((g.remove_edge f t).2).nodes =
      listModify (listModify g.nodes f (fun nd => nd.remove_edge t)) t
        (fun nd => nd.remove_edge f) := by
  simp [GraphList.remove_edge, hb, hund]

/-- The `.map Edge.weight` view of `get_edge` after `remove_edge`. -/
theorem map_weight_remove_edge (nd : Node) (k j : ℕ) :
    ((nd.remove_edge k).get_edge j).map Edge.weight =
      if j = k then none else (nd.get_edge j).map Edge.weight := by
  rw [get_edge_remove_edge]
  by_cases h : j = k <;> simp [h]

/-- `getWeight` after a valid undirected `remove_edge`. -/
theorem getWeight_remove_edge_undir {g : GraphList} {f t : ℕ}
    (hund : g.undirected = true) (hf : f < g.num_nodes) (ht : t < g.num_nodes)
    (u v : ℕ) :
    getWeight (g.remove_edge f t).2 u v =
      if (u = f ∧ v = t) ∨ (u = t ∧ v = f) then none else getWeight g u v := by
  have hb : g.valid_indices f t = true := (valid_indices_iff g f t).mpr ⟨hf, ht⟩
  have hn : ((g.remove_edge f t).2).num_nodes = g.num_nodes :=
    num_nodes_remove_edge g f t
  have hnodes := remove_edge_nodes_undir hund hb
  have hflen : f < g.nodes.length := hf
  have htlen : t < (listModify g.nodes f (fun nd => nd.remove_edge t)).length := by
    rw [length_listModify]; exact ht
  by_cases hval : u < g.num_nodes ∧ v < g.num_nodes
  · have hu' : u < ((g.remove_edge f t).2).num_nodes := by rw [hn]; exact hval.1
    have hv' : v < ((g.remove_edge f t).2).num_nodes := by rw [hn]; exact hval.2
    rw [getWeight_of_valid hu' hv', getWeight_of_valid hval.1 hval.2]
    have hnode : ((g.remove_edge f t).2).getNode u =
        (if u = t then
           (if u = f then ((g.getNode u).remove_edge t).remove_edge f
            else (g.getNode u).remove_edge f)
         else (if u = f then (g.getNode u).remove_edge t else g.getNode u)) := by
      show ((g.remove_edge f t).2).nodes.getD u default = _
      rw [hnodes]
      by_cases hut : u = t
      · rw [if_pos hut]
        by_cases huf : u = f
        · rw [if_pos huf, hut, listModify_getD_self _ _ _ htlen, ← hut, huf,
            listModify_getD_self _ _ _ hflen]
          rfl
        · rw [if_neg huf, hut, listModify_getD_self _ _ _ htlen, ← hut,
            listModify_getD_ne _ _ _ _ (fun h => huf h.symm)]
          rfl
      · rw [if_neg hut, listModify_getD_ne _ _ _ _ (fun h => hut h.symm)]
        by_cases huf : u = f
        · rw [if_pos huf, huf, listModify_getD_self _ _ _ hflen]
          rfl
        · rw [if_neg huf, listModify_getD_ne _ _ _ _ (fun h => huf h.symm)]
          rfl
    rw [hnode]
    by_cases hut : u = t
    · rw [if_pos hut]
      by_cases huf : u = f
      · rw [if_pos huf, map_weight_remove_edge]
        by_cases hvf : v = f
        · rw [if_pos hvf, if_pos (Or.inr ⟨hut, hvf⟩)]
        · rw [if_neg hvf, map_weight_remove_edge]
          by_cases hvt : v = t
          · rw [if_pos hvt, if_pos (Or.inl ⟨huf, hvt⟩)]
          · rw [if_neg hvt, if_neg ?_]
            rintro (⟨_, h2⟩ | ⟨_, h2⟩)
            · exact hvt h2
            · exact hvf h2
      · rw [if_neg huf, map_weight_remove_edge]
        by_cases hvf : v = f
        · rw [if_pos hvf, if_pos (Or.inr ⟨hut, hvf⟩)]
        · rw [if_neg hvf, if_neg ?_]
          rintro (⟨h1, _⟩ | ⟨_, h2⟩)
          · exact huf h1
          · exact hvf h2
    · rw [if_neg hut]
      by_cases huf : u = f
      · rw [if_pos huf, map_weight_remove_edge]
        by_cases hvt : v = t
        · rw [if_pos hvt, if_pos (Or.inl ⟨huf, hvt⟩)]
        · rw [if_neg hvt, if_neg ?_]
          rintro (⟨_, h2⟩ | ⟨h1, _⟩)
          · exact hvt h2
          · exact hut h1
      · rw [if_neg huf, if_neg ?_]
        rintro (⟨h1, _⟩ | ⟨h1, _⟩)
        · exact huf h1
        · exact hut h1
  · have h1 : getWeight (g.remove_edge f t).2 u v = none := by
      apply getWeight_of_invalid
      rw [hn]; exact hval
    have h2 : getWeight g u v = none := getWeight_of_invalid hval
    have hcond : ¬((u = f ∧ v = t) ∨ (u = t ∧ v = f)) := by
      rintro (⟨h1', h2'⟩ | ⟨h1', h2'⟩) <;> subst h1' <;> subst h2' <;>
        exact hval ⟨by assumption, by assumption⟩
    rw [h1, h2, if_neg hcond]

/-- `getWeight` is untouched by `insert_node` when all stored keys are valid. -/
theorem getWeight_insert_node {g : GraphList} (hbd : EdgesBounded g)
    (lbl : Option String) (u v : ℕ) :
    getWeight (g.insert_node lbl).1 u v = getWeight g u v := by
  have hn : ((g.insert_node lbl).1).num_nodes = g.num_nodes + 1 := by
    simp [GraphList.insert_node, GraphList.num_nodes]
  by_cases hval : u < g.num_nodes ∧ v < g.num_nodes
  · have hu' : u < ((g.insert_node lbl).1).num_nodes := by rw [hn]; omega
    have hv' : v < ((g.insert_node lbl).1).num_nodes := by rw [hn]; omega
    rw [getWeight_of_valid hu' hv', getWeight_of_valid hval.1 hval.2]
    have : ((g.insert_node lbl).1).getNode u = g.getNode u := by
      show ((g.insert_node lbl).1).nodes.getD u default = g.nodes.getD u default
      simp only [GraphList.insert_node]
      exact getD_append_left hval.1
    rw [this]
  · have h2 : getWeight g u v = none := getWeight_of_invalid hval
    rw [h2]
    by_cases hval' : u < g.num_nodes + 1 ∧ v < g.num_nodes + 1
    · have hu' : u < ((g.insert_node lbl).1).num_nodes := by rw [hn]; omega
      have hv' : v < ((g.insert_node lbl).1).num_nodes := by rw [hn]; omega
      rw [getWeight_of_valid hu' hv']
      by_cases hu : u = g.num_nodes
      · have : ((g.insert_node lbl).1).getNode u = Node.new g.num_nodes lbl := by
          show ((g.insert_node lbl).1).nodes.getD u default = _
          simp only [GraphList.insert_node]
          rw [hu]
          exact getD_append_length _ _ _
        rw [this]
        rfl
      · have hulen : u < g.num_nodes := by omega
        have hv : v = g.num_nodes := by omega
        have : ((g.insert_node lbl).1).getNode u = g.getNode u := by
          show ((g.insert_node lbl).1).nodes.getD u default = g.nodes.getD u default
          simp only [GraphList.insert_node]
          exact getD_append_left hulen
        rw [this, hv]
        have hkeys : ∀ p ∈ (g.getNode u).edges, p.1 < g.num_nodes := by
          intro p hp
          have hmem : g.getNode u ∈ g.nodes := by
            show g.nodes.getD u default ∈ g.nodes
            have := getElem?_eq_some_getD (l := g.nodes) (i := u) hulen
            exact List.getElem?_mem this
          exact hbd _ hmem p hp
        show ((g.getNode u).get_edge g.num_nodes).map Edge.weight = none
        unfold Node.get_edge
        rw [lookup_none_of_keys_lt hkeys]
        rfl
    · rw [getWeight_of_invalid (by rw [hn]; exact hval')]


end RustyGraphs

namespace RustyGraphs

theorem mem_listModify {l : List Node} {i : ℕ} {f : Node → Node} {nd : Node}
    (h : nd ∈ listModify l i f) : nd ∈ l ∨ ∃ nd' ∈ l, nd = f nd' := by
  unfold listModify at h
  cases hl : l[i]? with
  | none => rw [hl] at h; exact Or.inl h
  | some a =>
    rw [hl] at h
    rcases List.mem_or_eq_of_mem_set h with h' | h'
    · exact Or.inl h'
    · exact Or.inr ⟨a, List.getElem?_mem hl, h'⟩

theorem edgesBounded_insert_edge {g : GraphList} (hbd : EdgesBounded g)
    (f t : ℕ) (w : ℚ) : EdgesBounded (g.insert_edge f t w).2 := by
  intro nd hnd p hp
  rw [num_nodes_insert_edge]
  by_cases hb : g.valid_indices f t = true
  · have hft := (valid_indices_iff g f t).mp hb
    have hnodes : ((g.insert_edge f t w).2).nodes =
        (if g.undirected then
          listModify (listModify g.nodes f (fun nd => nd.add_edge t w)) t
            (fun nd => nd.add_edge f w)
         else listModify g.nodes f (fun nd => nd.add_edge t w)) := by
      rcases hu : g.undirected <;> simp [GraphList.insert_edge, hb, hu]
    rw [hnodes] at hnd
    have haux : ∀ (l : List Node), (∀ nd' ∈ l, ∀ q ∈ nd'.edges, q.1 < g.num_nodes) →
        ∀ (i k : ℕ), k < g.num_nodes →
        ∀ nd' ∈ listModify l i (fun x => x.add_edge k w), ∀ q ∈ nd'.edges,
          q.1 < g.num_nodes := by
      intro l hl i k hk nd' hnd' q hq
      rcases mem_listModify hnd' with h' | ⟨x, hx, rfl⟩
      · exact hl _ h' _ hq
      · rcases mem_upsert hq with h' | h'
        · rw [h']; exact hk
        · exact hl _ hx _ h'
    have hg : ∀ nd' ∈ g.nodes, ∀ q ∈ nd'.edges, q.1 < g.num_nodes := hbd
    rcases hu : g.undirected
    · rw [hu] at hnd
      simp only [if_neg (by simp : ¬(false = true))] at hnd
      exact haux g.nodes hg f t hft.2 nd hnd p hp
    · rw [hu] at hnd
      simp only [if_pos rfl] at hnd
      exact haux _ (haux g.nodes hg f t hft.2) t f hft.1 nd hnd p hp
  · have hb' : g.valid_indices f t = false := by
      rcases Bool.eq_false_or_eq_true (g.valid_indices f t) with h' | h'
      · exact absurd h' hb
      · exact h'
    have : ((g.insert_edge f t w).2) = g := by
      simp [GraphList.insert_edge, hb']
    rw [this] at hnd
    exact hbd nd hnd p hp

theorem edgesBounded_remove_edge {g : GraphList} (hbd : EdgesBounded g)
    (f t : ℕ) : EdgesBounded (g.remove_edge f t).2 := by
  intro nd hnd p hp
  rw [num_nodes_remove_edge]
  have haux : ∀ (l : List Node), (∀ nd' ∈ l, ∀ q ∈ nd'.edges, q.1 < g.num_nodes) →
      ∀ (i k : ℕ),
      ∀ nd' ∈ listModify l i (fun x => x.remove_edge k), ∀ q ∈ nd'.edges,
        q.1 < g.num_nodes := by
    intro l hl i k nd' hnd' q hq
    rcases mem_listModify hnd' with h' | ⟨x, hx, rfl⟩
    · exact hl _ h' _ hq
    · exact hl _ hx _ (List.mem_of_mem_filter hq)
  by_cases hb : g.valid_indices f t = true
  · have hnodes : ((g.remove_edge f t).2).nodes =
        (if g.undirected then
          listModify (listModify g.nodes f (fun nd => nd.remove_edge t)) t
            (fun nd => nd.remove_edge f)
         else listModify g.nodes f (fun nd => nd.remove_edge t)) := by
      rcases hu : g.undirected <;> simp [GraphList.remove_edge, hb, hu]
    rw [hnodes] at hnd
    rcases hu : g.undirected
    · rw [hu] at hnd
      simp only [if_neg (by simp : ¬(false = true))] at hnd
      exact haux g.nodes hbd f t nd hnd p hp
    · rw [hu] at hnd
      simp only [if_pos rfl] at hnd
      exact haux _ (haux g.nodes hbd f t) t f nd hnd p hp
  · have hb' : g.valid_indices f t = false := by
      rcases Bool.eq_false_or_eq_true (g.valid_indices f t) with h' | h'
      · exact absurd h' hb
      · exact h'
    have : ((g.remove_edge f t).2) = g := by
      simp [GraphList.remove_edge, hb']
    rw [this] at hnd
    exact hbd nd hnd p hp

theorem edgesBounded_insert_node {g : GraphList} (hbd : EdgesBounded g)
    (lbl : Option String) : EdgesBounded (g.insert_node lbl).1 := by
  intro nd hnd p hp
  have hn : ((g.insert_node lbl).1).num_nodes = g.num_nodes + 1 := by
    simp [GraphList.insert_node, GraphList.num_nodes]
  rw [hn]
  simp only [GraphList.insert_node] at hnd
  rcases List.mem_append.mp hnd with h' | h'
  · exact Nat.lt_succ_of_lt (hbd nd h' p hp)
  · have : nd = Node.new g.num_nodes lbl := by simpa using h'
    rw [this] at hp
    simp [Node.new] at hp

/-- C8: for an undirected graph in a well-formed symmetric state, every
sequence of `insert_edge`, `remove_edge` and `insert_node` calls keeps the
edge relation symmetric with equal weights (hence `has_edge` symmetric). -/
theorem c8_undirected_symmetry_invariant (g : GraphList)
    (hund : g.undirected = true) (hbd : EdgesBounded g) (hsym : SymWeights g)
    (ops : List Op) :
    SymWeights (applyOps g ops) ∧
      (∀ u v, (applyOps g ops).is_edge u v = (applyOps g ops).is_edge v u) := by
  have hstep : ∀ (h : GraphList), h.undirected = true → EdgesBounded h →
      SymWeights h → ∀ op : Op,
      (applyOp h op).undirected = true ∧ EdgesBounded (applyOp h op) ∧
        SymWeights (applyOp h op) := by
    intro h hu hb hs op
    refine ⟨by rw [undirected_applyOp]; exact hu, ?_, ?_⟩
    · cases op with
      | insertEdge f t w => exact edgesBounded_insert_edge hb f t w
      | removeEdge f t => exact edgesBounded_remove_edge hb f t
      | insertNode lbl => exact edgesBounded_insert_node hb lbl
    · cases op with
      | insertEdge f t w =>
        by_cases hv : f < h.num_nodes ∧ t < h.num_nodes
        · intro u v
          show getWeight (h.insert_edge f t w).2 u v = getWeight (h.insert_edge f t w).2 v u
          rw [getWeight_insert_edge_undir hu hv.1 hv.2,
            getWeight_insert_edge_undir hu hv.1 hv.2]
          by_cases hc : (u = f ∧ v = t) ∨ (u = t ∧ v = f)
          · rw [if_pos hc, if_pos (by tauto)]
          · rw [if_neg hc, if_neg (by tauto), hs u v]
        · have hb' : h.valid_indices f t = false := by
            rcases Bool.eq_false_or_eq_true (h.valid_indices f t) with h' | h'
            · exact absurd ((valid_indices_iff h f t).mp h') hv
            · exact h'
          have : applyOp h (.insertEdge f t w) = h := by
            simp [applyOp, GraphList.insert_edge, hb']
          rw [this]; exact hs
      | removeEdge f t =>
        by_cases hv : f < h.num_nodes ∧ t < h.num_nodes
        · intro u v
          show getWeight (h.remove_edge f t).2 u v = getWeight (h.remove_edge f t).2 v u
          rw [getWeight_remove_edge_undir hu hv.1 hv.2,
            getWeight_remove_edge_undir hu hv.1 hv.2]
          by_cases hc : (u = f ∧ v = t) ∨ (u = t ∧ v = f)
          · rw [if_pos hc, if_pos (by tauto)]
          · rw [if_neg hc, if_neg (by tauto), hs u v]
        · have hb' : h.valid_indices f t = false := by
            rcases Bool.eq_false_or_eq_true (h.valid_indices f t) with h' | h'
            · exact absurd ((valid_indices_iff h f t).mp h') hv
            · exact h'
          have : applyOp h (.removeEdge f t) = h := by
            simp [applyOp, GraphList.remove_edge, hb']
          rw [this]; exact hs
      | insertNode lbl =>
        intro u v
        show getWeight (h.insert_node lbl).1 u v = getWeight (h.insert_node lbl).1 v u
        rw [getWeight_insert_node hb, getWeight_insert_node hb]
        exact hs u v
  have hmain : ∀ (ops : List Op) (h : GraphList), h.undirected = true →
      EdgesBounded h → SymWeights h → SymWeights (applyOps h ops) := by
    intro ops
    induction ops with
    | nil => intro h _ _ hs; exact hs
    | cons op rest ih =>
      intro h hu hb hs
      have h1 := hstep h hu hb hs op
      exact ih (applyOp h op) h1.1 h1.2.1 h1.2.2
  have hsym' := hmain ops g hund hbd hsym
  refine ⟨hsym', fun u v => ?_⟩
  have hie : ∀ (h : GraphList) (a b : ℕ),
      h.is_edge a b = (getWeight h a b).isSome := by
    intro h a b
    unfold GraphList.is_edge getWeight
    cases h.get_edge a b with
    | error s => rfl
    | ok o => cases o <;> rfl
  rw [hie, hie, hsym' u v]

/-- Bounded symmetry check suffices for `SymWeights`. -/
theorem symWeights_of_check {g : GraphList}
    (h : ∀ u ∈ List.range g.num_nodes, ∀ v ∈ List.range g.num_nodes,
      getWeight g u v = getWeight g v u) : SymWeights g := by
  intro u v
  by_cases hu : u < g.num_nodes
  · by_cases hv : v < g.num_nodes
    · exact h u (List.mem_range.mpr hu) v (List.mem_range.mpr hv)
    · rw [getWeight_of_invalid (fun hc => hv hc.2),
        getWeight_of_invalid (fun hc => hv hc.1)]
  · rw [getWeight_of_invalid (fun hc => hu hc.1),
      getWeight_of_invalid (fun hc => hu hc.2)]

/-- The 2-node undirected graph of the concrete scenario. -/
def gUndir : GraphList := { undirected := true, nodes := mkNodes 2 }

/-- C8 witness: on the undirected 2-node graph, after inserting the edge
`(0,1)` both directions are present with the inserted weight; after removing
it both are absent; symmetry holds after each operation sequence. -/
theorem c8_witness :
    (gUndir.undirected = true ∧
      SymWeights (applyOps gUndir [Op.insertEdge 0 1 1])) ∧
    ((applyOps gUndir [Op.insertEdge 0 1 1]).is_edge 0 1 = true ∧
      (applyOps gUndir [Op.insertEdge 0 1 1]).is_edge 1 0 = true) ∧
    ((applyOps gUndir [Op.insertEdge 0 1 1, Op.removeEdge 0 1]).is_edge 0 1 = false ∧
      (applyOps gUndir [Op.insertEdge 0 1 1, Op.removeEdge 0 1]).is_edge 1 0 = false) :=
  ⟨⟨by decide,
    (c8_undirected_symmetry_invariant gUndir (by decide) (by decide)
      (symWeights_of_check (by decide)) [Op.insertEdge 0 1 1]).1⟩,
   ⟨by decide, by decide⟩, ⟨by decide, by decide⟩⟩


end RustyGraphs

namespace RustyGraphs

/-! ## C5: BFS neighbor iteration order -/

/-- Modelled from the spec: BFS exactly as in the source except that it
iterates each dequeued node's edges through the ordered edge view, as the
claim asserts the source does. -/
def bfsOrderedAux (g : GraphList) : ℕ → BState → List Int
  | 0, st => st.last
  | fuel + 1, st =>
      match st.pending with
      | [] => st.last
      | next :: rest =>
          bfsOrderedAux g fuel
            ((g.getNode next).get_ordered_edge_list.foldl (bfsVisit next)
              { st with pending := rest })

/-- Modelled from the spec: the ordered-view BFS. -/
def bfsOrderedView (g : GraphList) (start : ℕ) : List Int :=
  bfsOrderedAux g (g.num_nodes + g.make_edge_list.length + 1)
    { seen := (List.replicate g.num_nodes false).set start true,
      last := List.replicate g.num_nodes (-1),
      pending := [start] }

/-- Two graphs with the same flag, node count and edge relation. -/
def SameGraph (g1 g2 : GraphList) : Prop :=
  g1.undirected = g2.undirected ∧ g1.num_nodes = g2.num_nodes ∧
    ∀ u v, getWeight g1 u v = getWeight g2 u v

theorem sameGraph_of_check {g1 g2 : GraphList}
    (hu : g1.undirected = g2.undirected) (hn : g1.num_nodes = g2.num_nodes)
    (h : ∀ u ∈ List.range g1.num_nodes, ∀ v ∈ List.range g1.num_nodes,
      getWeight g1 u v = getWeight g2 u v) : SameGraph g1 g2 := by
  refine ⟨hu, hn, fun u v => ?_⟩
  by_cases huv : u < g1.num_nodes ∧ v < g1.num_nodes
  · exact h u (List.mem_range.mpr huv.1) v (List.mem_range.mpr huv.2)
  · rw [getWeight_of_invalid huv, getWeight_of_invalid (by rw [← hn]; exact huv)]

/-- C5 counterexample: `gBfsTest` and `gBfsSwapped` carry the same nodes and
edges (only the map's insertion order differs, which the claim says is
irrelevant), yet `bfs` returns different predecessor arrays, and on
`gBfsSwapped` the result differs from the ordered-edge-view BFS: `bfs` does
not iterate the ordered view, and its output is not uniquely determined by
the graph's nodes and edges. -/
theorem c5_counterexample :
    SameGraph gBfsTest gBfsSwapped ∧
    bfs gBfsTest 0 ≠ bfs gBfsSwapped 0 ∧
    bfs gBfsSwapped 0 ≠ bfsOrderedView gBfsSwapped 0 := by
  refine ⟨sameGraph_of_check (by decide) (by decide) (by decide), ?_, ?_⟩ <;> decide

/-- Keys strictly ascending in the stored association list. -/
def KeysSorted (nd : Node) : Prop :=
  nd.edges.Pairwise (fun p q => p.1 < q.1)

instance (nd : Node) : Decidable (KeysSorted nd) := by
  unfold KeysSorted; infer_instance

theorem sortByKey_of_sorted {l : List (ℕ × Edge)}
    (h : l.Pairwise (fun p q => p.1 < q.1)) : sortByKey l = l := by
  induction l with
  | nil => rfl
  | cons p rest ih =>
    have hrest := ih (List.Pairwise.sublist (List.sublist_cons_self p rest) h)
    show insertByKey p (sortByKey rest) = p :: rest
    rw [hrest]
    cases rest with
    | nil => rfl
    | cons q rest' =>
      have hpq : p.1 ≤ q.1 :=
        le_of_lt ((List.pairwise_cons.mp h).1 q (List.mem_cons_self _ _))
      simp [insertByKey, hpq]

theorem ordered_eq_unordered_of_sorted {nd : Node} (h : KeysSorted nd) :
    nd.get_ordered_edge_list = nd.get_edge_list := by
  unfold Node.get_ordered_edge_list Node.get_edge_list
  rw [sortByKey_of_sorted h]

theorem getNode_mem_or_default (g : GraphList) (i : ℕ) :
    g.getNode i ∈ g.nodes ∨ g.getNode i = default := by
  unfold GraphList.getNode
  by_cases h : i < g.nodes.length
  · exact Or.inl (List.getElem?_mem (getElem?_eq_some_getD h))
  · right
    exact getD_of_length_le (le_of_not_lt h)

/-- C5 amended: `bfs` iterates the unordered map view; whenever every node's
stored edge list is already ascending by neighbor index (so the map view and
the ordered view coincide), `bfs` equals the ordered-view BFS. -/
theorem c5_amended_bfs_unordered_view (g : GraphList)
    (h : ∀ nd ∈ g.nodes, KeysSorted nd) (start : ℕ) :
    bfs g start = bfsOrderedView g start := by
  have hview : ∀ i, (g.getNode i).get_ordered_edge_list = (g.getNode i).get_edge_list := by
    intro i
    rcases getNode_mem_or_default g i with hm | hd
    · exact ordered_eq_unordered_of_sorted (h _ hm)
    · rw [hd]; rfl
  have haux : ∀ fuel st, bfsAux g fuel st = bfsOrderedAux g fuel st := by
    intro fuel
    induction fuel with
    | zero => intro st; rfl
    | succ n ih =>
      intro st
      show bfsAux g (n + 1) st = bfsOrderedAux g (n + 1) st
      unfold bfsAux bfsOrderedAux
      cases st.pending with
      | nil => rfl
      | cons next rest =>
        simp only [hview]
        exact ih _
  exact haux _ _

/-- C5 amended witness: on the BFS test graph, whose maps are stored in
ascending order, the two traversals agree. -/
theorem c5_amended_witness :
    (∀ nd ∈ gBfsTest.nodes, KeysSorted nd) ∧
      bfs gBfsTest 0 = bfsOrderedView gBfsTest 0 ∧ bfs gBfsTest 0 = [-1, 0, 0, 1] :=
  ⟨by decide, c5_amended_bfs_unordered_view gBfsTest (by decide) 0, by decide⟩

/-! ## C6: dfs_stack predecessor recording -/

/-- Modelled from the spec: the push step as the claim describes it — the
predecessor is fixed at the node's first encounter and not overwritten by
later pushes (the node is still pushed again). -/
def dfsPushFirst (ind : ℕ) (st : SState) (e : Edge) : SState :=
  let neighbor := e.to'
  if !(st.seen.getD neighbor false) then
    { st with
      last := if st.last.getD neighbor 0 = -1 then
          st.last.set neighbor (Int.ofNat ind)
        else st.last,
      to_explore := neighbor :: st.to_explore }
  else st

/-- Modelled from the spec: `dfs_stack` with first-encounter-fixed
predecessors. -/
def dfsStackFirstAux (g : GraphList) : ℕ → SState → List Int
  | 0, st => st.last
  | fuel + 1, st =>
      match st.to_explore with
      | [] => st.last
      | ind :: rest =>
          if st.seen.getD ind false then
            dfsStackFirstAux g fuel { st with to_explore := rest }
          else
            dfsStackFirstAux g fuel
              ((g.getNode ind).get_ordered_edge_list.reverse.foldl (dfsPushFirst ind)
                { seen := st.seen.set ind true, last := st.last, to_explore := rest })

/-- Modelled from the spec: entry point of the first-encounter variant. -/
def dfs_stack_first (g : GraphList) (start : ℕ) : List Int :=
  dfsStackFirstAux g (g.num_nodes + g.make_edge_list.length + 1)
    { seen := List.replicate g.num_nodes false,
      last := List.replicate g.num_nodes (-1),
      to_explore := [start] }

/-- C6 counterexample: on the graph with edges 0→1, 0→3, 1→3, node 3 is
pushed first by 0 and re-pushed by 1 before being popped; the source records
predecessor 1 (the latest push), while the claimed first-encounter rule
would record 0. -/
theorem c6_counterexample :
    dfs_stack gRepush 0 = [-1, 0, -1, 1] ∧
      dfs_stack_first gRepush 0 = [-1, 0, -1, 0] ∧
      dfs_stack gRepush 0 ≠ dfs_stack_first gRepush 0 := by
  refine ⟨by decide, by decide, by decide⟩

theorem mem_insertByKey {l : List (ℕ × Edge)} {p b : ℕ × Edge}
    (h : b ∈ insertByKey p l) : b = p ∨ b ∈ l := by
  induction l with
  | nil => simpa [insertByKey] using h
  | cons q rest ih =>
    by_cases hpq : p.1 ≤ q.1
    · rw [insertByKey, if_pos hpq] at h
      rcases List.mem_cons.mp h with rfl | h'
      · exact Or.inl rfl
      · exact Or.inr h'
    · rw [insertByKey, if_neg hpq] at h
      rcases List.mem_cons.mp h with rfl | h'
      · exact Or.inr (List.mem_cons_self _ _)
      · rcases ih h' with h'' | h''
        · exact Or.inl h''
        · exact Or.inr (List.mem_cons_of_mem _ h'')

theorem insertByKey_sorted {l : List (ℕ × Edge)} (p : ℕ × Edge)
    (h : l.Pairwise (fun a b => a.1 ≤ b.1)) :
    (insertByKey p l).Pairwise (fun a b => a.1 ≤ b.1) := by
  induction l with
  | nil => simp [insertByKey]
  | cons q rest ih =>
    rcases List.pairwise_cons.mp h with ⟨hq, hrest⟩
    by_cases hpq : p.1 ≤ q.1
    · rw [insertByKey, if_pos hpq]
      refine List.pairwise_cons.mpr ⟨?_, h⟩
      intro b hb
      rcases List.mem_cons.mp hb with rfl | hb
      · exact hpq
      · exact le_trans hpq (hq b hb)
    · rw [insertByKey, if_neg hpq]
      refine List.pairwise_cons.mpr ⟨?_, ih hrest⟩
      intro b hb
      rcases mem_insertByKey hb with rfl | hb'
      · exact le_of_not_le hpq
      · exact hq b hb'

theorem sortByKey_sorted (l : List (ℕ × Edge)) :
    (sortByKey l).Pairwise (fun a b => a.1 ≤ b.1) := by
  induction l with
  | nil => simp [sortByKey]
  | cons p rest ih => exact insertByKey_sorted p ih

/-- C6 amended: the ordered edge list is ascending by neighbor key, so its
reversal — the push order of `dfs_stack` — is descending and pops come
ascending; the predecessor is overwritten at every push of a still-unvisited
node, so the recorded predecessor is the source of the most recent push
before the node is first popped: on the re-push graph the result is
`[-1, 0, -1, 1]`, the latest pusher winning, and visited duplicates are
skipped on pop. -/
theorem c6_amended_dfs_stack_push_order :
    (∀ nd : Node, ((sortByKey nd.edges).reverse.map (fun p => p.1)).Pairwise
      (fun a b => b ≤ a)) ∧
    dfs_stack gRepush 0 = [-1, 0, -1, 1] := by
  refine ⟨fun nd => ?_, by decide⟩
  rw [List.pairwise_map, List.pairwise_reverse]
  exact sortByKey_sorted nd.edges


end RustyGraphs

namespace RustyGraphs

/-! ## C4: heap extraction order -/

/-- `a` is popped no later than `b`: smaller cost, or equal cost and a
position at least as large. -/
def State.wins (a b : State) : Prop :=
  a.cost < b.cost ∨ (a.cost = b.cost ∧ b.position ≤ a.position)

theorem wins_iff_not_popsBefore (a b : State) :
    a.wins b ↔ ¬ b.popsBefore a := by
  unfold State.wins State.popsBefore
  constructor
  · rintro (h | ⟨he, hp⟩)
    · rintro (h' | ⟨he', _⟩)
      · exact absurd h' (not_lt_of_lt h)
      · exact absurd h (by rw [he']; exact lt_irrefl _)
    · rintro (h' | ⟨he', hp'⟩)
      · exact absurd h' (by rw [he]; exact lt_irrefl _)
      · exact absurd hp (not_le_of_lt hp')
  · intro h
    rcases lt_trichotomy a.cost b.cost with hlt | heq | hgt
    · exact Or.inl hlt
    · refine Or.inr ⟨heq, ?_⟩
      by_contra hp
      exact h (Or.inr ⟨heq.symm, lt_of_not_le hp⟩)
    · exact absurd (Or.inl hgt) h

theorem wins_refl (a : State) : a.wins a := Or.inr ⟨rfl, le_refl _⟩

theorem wins_trans {a b c : State} (h1 : a.wins b) (h2 : b.wins c) : a.wins c := by
  unfold State.wins at *
  rcases h1 with h1 | ⟨he1, hp1⟩
  · rcases h2 with h2 | ⟨he2, hp2⟩
    · exact Or.inl (lt_trans h1 h2)
    · exact Or.inl (he2 ▸ h1)
  · rcases h2 with h2 | ⟨he2, hp2⟩
    · exact Or.inl (he1 ▸ h2)
    · exact Or.inr ⟨he1.trans he2, le_trans hp2 hp1⟩

theorem foldl_betterState_spec (l : List State) (s : State) :
    (l.foldl betterState s ∈ s :: l) ∧
      ∀ x ∈ s :: l, (l.foldl betterState s).wins x := by
  induction l generalizing s with
  | nil =>
    refine ⟨List.mem_cons_self _ _, ?_⟩
    intro x hx
    rcases List.mem_cons.mp hx with rfl | hx
    · exact wins_refl x
    · simp at hx
  | cons y l ih =>
    have hfold : (y :: l).foldl betterState s = l.foldl betterState (betterState s y) := rfl
    have hwin : (betterState s y).wins s ∧ (betterState s y).wins y := by
      unfold betterState
      by_cases hp : y.popsBefore s
      · rw [if_pos hp]
        constructor
        · rw [wins_iff_not_popsBefore]
          intro hsp
          rcases hp with hp | ⟨hpe, hpp⟩ <;> rcases hsp with hsp | ⟨hse, hsp⟩
          · exact absurd hsp (not_lt_of_lt hp)
          · exact absurd hp (by rw [hse]; exact lt_irrefl _)
          · exact absurd hsp (by rw [hpe]; exact lt_irrefl _)
          · omega
        · exact wins_refl y
      · rw [if_neg hp]
        exact ⟨wins_refl s, (wins_iff_not_popsBefore s y).mpr hp⟩
    rcases ih (betterState s y) with ⟨hmem, hall⟩
    constructor
    · rw [hfold]
      rcases List.mem_cons.mp hmem with hm | hm
      · rw [hm]
        unfold betterState
        by_cases hp : y.popsBefore s
        · rw [if_pos hp]; exact List.mem_cons_of_mem _ (List.mem_cons_self _ _)
        · rw [if_neg hp]; exact List.mem_cons_self _ _
      · exact List.mem_cons_of_mem _ (List.mem_cons_of_mem _ hm)
    · intro x hx
      rw [hfold]
      have hm' : (l.foldl betterState (betterState s y)).wins (betterState s y) :=
        hall _ (List.mem_cons_self _ _)
      rcases List.mem_cons.mp hx with rfl | hx
      · exact wins_trans hm' hwin.1
      · rcases List.mem_cons.mp hx with rfl | hx
        · exact wins_trans hm' hwin.2
        · exact hall _ (List.mem_cons_of_mem _ hx)

theorem popMax_spec (q : List State) (m : State)
    (l' : List State) (h : popMax q = some (m, l')) :
    m ∈ q ∧
      (∀ x ∈ q, m.cost ≤ x.cost ∧ (m.cost = x.cost → x.position ≤ m.position)) ∧
      l' = q.erase m := by
  cases q with
  | nil => simp [popMax] at h
  | cons s rest =>
    simp only [popMax, Option.some.injEq, Prod.mk.injEq] at h
    obtain ⟨h1, h2⟩ := h
    subst h1
    subst h2
    rcases foldl_betterState_spec rest s with ⟨hmem, hall⟩
    refine ⟨hmem, ?_, rfl⟩
    intro x hx
    have hw := hall x hx
    rcases hw with hw | ⟨he, hp⟩
    · exact ⟨le_of_lt hw, fun he => absurd hw (by rw [he]; exact lt_irrefl _)⟩
    · exact ⟨le_of_eq he, fun _ => hp⟩

/-- C4 amended: the heap pop returns an entry of minimal cost, breaking cost
ties toward the largest (not smallest) node index, and removes one copy of
it from the pending entries. -/
theorem c4_amended_pop_min_cost_max_position (q : List State) (m : State)
    (l' : List State) (h : popMax q = some (m, l')) :
    m ∈ q ∧
      (∀ x ∈ q, m.cost ≤ x.cost ∧ (m.cost = x.cost → x.position ≤ m.position)) ∧
      l' = q.erase m :=
  popMax_spec q m l' h

/-- Two equal-cost pending entries for positions 1 and 2. -/
def qTie : List State :=
  [{ cost := (⊤ : Qi), position := 1 }, { cost := (⊤ : Qi), position := 2 }]

/-- The entry `popMax` extracts from `qTie`. -/
def sTie : State := { cost := (⊤ : Qi), position := 2 }

/-- C4 amended witness: popping from two equal-cost entries returns the one
with the larger index. -/
theorem c4_amended_witness :
    popMax qTie = some (sTie, [{ cost := (⊤ : Qi), position := 1 }]) ∧
    sTie ∈ qTie ∧
    (∀ x ∈ qTie, sTie.cost ≤ x.cost ∧ (sTie.cost = x.cost → x.position ≤ sTie.position)) := by
  have h : popMax qTie = some (sTie, [{ cost := (⊤ : Qi), position := 1 }]) := by decide
  have hs := c4_amended_pop_min_cost_max_position _ _ _ h
  exact ⟨h, hs.1, hs.2.1⟩

/-- C4 counterexample: on three isolated nodes, the pop sequence from start 0
is positions `[0, 2, 1]` — the two infinite-cost entries tie and pop in
descending position order, refuting the claimed ascending tie-break. -/
theorem c4_counterexample :
    (dijkstraPops gThree 0).map State.position = [0, 2, 1] ∧
      ¬ (dijkstraPops gThree 0).Pairwise
        (fun a b => a.cost < b.cost ∨ (a.cost = b.cost ∧ a.position ≤ b.position)) := by
  constructor
  · decide
  · intro hpair
    have hlist : dijkstraPops gThree 0 =
        [{ cost := 0, position := 0 }, { cost := (⊤ : Qi), position := 2 },
          { cost := (⊤ : Qi), position := 1 }] := by decide
    rw [hlist] at hpair
    rcases List.pairwise_cons.mp hpair with ⟨_, hpair'⟩
    rcases List.pairwise_cons.mp hpair' with ⟨h21, _⟩
    rcases h21 _ (List.mem_cons_self _ _) with h | ⟨_, hp⟩
    · exact absurd h (lt_irrefl _)
    · simp at hp


end RustyGraphs

namespace RustyGraphs

/-! ## Walks and reachability -/

/-- A walk from `u` to `v` along edges of the graph's edge list. -/
inductive IsWalk (g : GraphList) : ℕ → List Edge → ℕ → Prop
  | nil (u : ℕ) : IsWalk g u [] u
  | cons {u v : ℕ} {e : Edge} {es : List Edge} :
      e ∈ g.make_edge_list → e.from' = u → IsWalk g e.to' es v →
      IsWalk g u (e :: es) v

/-- Total weight of a walk. -/
def walkWeight (es : List Edge) : ℚ := (es.map Edge.weight).sum

/-- Reachability by a walk. -/
def Reachable (g : GraphList) (u v : ℕ) : Prop := ∃ es, IsWalk g u es v

/-- A negative-weight cycle whose base vertex is reachable from `start`. -/
def NegCycleReachable (g : GraphList) (start : ℕ) : Prop :=
  ∃ u es, es ≠ [] ∧ IsWalk g u es u ∧ walkWeight es < 0 ∧ Reachable g start u

theorem walkWeight_nil : walkWeight [] = 0 := rfl

theorem walkWeight_cons (e : Edge) (es : List Edge) :
    walkWeight (e :: es) = e.weight + walkWeight es := by
  simp [walkWeight]

theorem walkWeight_append (es1 es2 : List Edge) :
    walkWeight (es1 ++ es2) = walkWeight es1 + walkWeight es2 := by
  simp [walkWeight]

theorem IsWalk.append {g : GraphList} {u v w : ℕ} {es1 es2 : List Edge}
    (h1 : IsWalk g u es1 v) (h2 : IsWalk g v es2 w) :
    IsWalk g u (es1 ++ es2) w := by
  induction h1 with
  | nil => simpa using h2
  | cons he hf hw ih => exact IsWalk.cons he hf (ih h2)

theorem IsWalk.single {g : GraphList} {e : Edge}
    (he : e ∈ g.make_edge_list) : IsWalk g e.from' [e] e.to' :=
  IsWalk.cons he rfl (IsWalk.nil _)

theorem IsWalk.edges_mem {g : GraphList} {u v : ℕ} {es : List Edge}
    (h : IsWalk g u es v) : ∀ e ∈ es, e ∈ g.make_edge_list := by
  induction h with
  | nil => intro e he; simp at he
  | cons he hf hw ih =>
    intro e' he'
    rcases List.mem_cons.mp he' with rfl | he'
    · exact he
    · exact ih e' he'

/-- The vertex reached after the first `i` edges of a walk from `u`. -/
def vertAt (u : ℕ) (es : List Edge) (i : ℕ) : ℕ :=
  (u :: es.map Edge.to').getD i u

theorem vertAt_zero (u : ℕ) (es : List Edge) : vertAt u es 0 = u := rfl

theorem getD_default_irrel {α : Type} {l : List α} {i : ℕ} (d1 d2 : α)
    (h : i < l.length) : l.getD i d1 = l.getD i d2 := by
  induction l generalizing i with
  | nil => simp at h
  | cons x xs ih =>
    cases i with
    | zero => rfl
    | succ j => simpa [List.getD] using ih (by simpa using h)

theorem vertAt_succ (u : ℕ) (e : Edge) (es : List Edge) (k : ℕ)
    (hk : k ≤ es.length) :
    vertAt u (e :: es) (k + 1) = vertAt e.to' es k := by
  unfold vertAt
  show (List.map Edge.to' (e :: es)).getD k u = _
  rw [List.map_cons]
  cases Nat.lt_or_ge k (es.length + 1) with
  | inl h =>
    cases Nat.lt_or_ge k es.length with
    | inl h' =>
      have h1 : (e.to' :: List.map Edge.to' es).getD k u =
          (e.to' :: List.map Edge.to' es).getD k e.to' :=
        getD_default_irrel _ _ (by simpa using Nat.lt_succ_of_lt h')
      rw [h1]
    | inr h' =>
      have hk' : k = es.length := by omega
      subst hk'
      cases es with
      | nil => rfl
      | cons e2 es2 =>
        have h1 : (e.to' :: List.map Edge.to' (e2 :: es2)).getD (e2 :: es2).length u =
            (e.to' :: List.map Edge.to' (e2 :: es2)).getD (e2 :: es2).length e.to' :=
          getD_default_irrel _ _ (by simp)
        rw [h1]
  | inr h => omega

theorem IsWalk.take_drop {g : GraphList} {u v : ℕ} {es : List Edge}
    (h : IsWalk g u es v) :
    ∀ i, i ≤ es.length →
      IsWalk g u (es.take i) (vertAt u es i) ∧
        IsWalk g (vertAt u es i) (es.drop i) v := by
  induction h with
  | nil =>
    intro i hi
    have : i = 0 := by simpa using hi
    subst this
    exact ⟨IsWalk.nil _, IsWalk.nil _⟩
  | @cons u' v' e es' he hf hw ih =>
    intro i hi
    cases i with
    | zero => exact ⟨IsWalk.nil _, IsWalk.cons he hf hw⟩
    | succ k =>
      have hk : k ≤ es'.length := by simpa using hi
      rcases ih k hk with ⟨h1, h2⟩
      rw [vertAt_succ u' e es' k hk]
      exact ⟨IsWalk.cons he hf h1, h2⟩

theorem vertAt_last {g : GraphList} {u v : ℕ} {es : List Edge}
    (h : IsWalk g u es v) : vertAt u es es.length = v := by
  induction h with
  | nil => rfl
  | @cons u' v' e es' he hf hw ih =>
    show vertAt u' (e :: es') (es'.length + 1) = v'
    rw [vertAt_succ u' e es' es'.length (le_refl _)]
    exact ih

theorem getD_drop {α : Type} (l : List α) (i k : ℕ) (d : α) :
    (l.drop i).getD k d = l.getD (i + k) d := by
  induction l generalizing i with
  | nil => simp
  | cons x xs ih =>
    cases i with
    | zero => simp
    | succ j =>
      show (xs.drop j).getD k d = (x :: xs).getD (j + 1 + k) d
      rw [ih j]
      have : j + 1 + k = (j + k) + 1 := by omega
      rw [this]
      simp [List.getD]

theorem vertAt_drop (u : ℕ) (es : List Edge) (i k : ℕ) (hk : 1 ≤ k)
    (hik : i + k ≤ es.length) :
    vertAt (vertAt u es i) (es.drop i) k = vertAt u es (i + k) := by
  unfold vertAt
  rcases Nat.exists_eq_add_of_le hk with ⟨k', rfl⟩
  have h1 : ∀ (w : ℕ), (w :: (es.drop i).map Edge.to').getD (1 + k') w =
      ((es.drop i).map Edge.to').getD k' w := by
    intro w
    have : 1 + k' = k' + 1 := by omega
    rw [this]
    simp [List.getD]
  rw [h1]
  rw [List.map_drop, getD_drop]
  have h2 : (u :: es.map Edge.to').getD (i + (1 + k')) u =
      (es.map Edge.to').getD (i + k') u := by
    have : i + (1 + k') = (i + k') + 1 := by omega
    rw [this]
    simp [List.getD]
  rw [h2]
  exact getD_default_irrel _ _ (by simp; omega)


end RustyGraphs

namespace RustyGraphs

theorem getNode_of_mem {g : GraphList} {nd : Node} (h : nd ∈ g.nodes) :
    ∃ i, i < g.num_nodes ∧ g.getNode i = nd := by
  rcases List.getElem_of_mem h with ⟨i, hi, hget⟩
  refine ⟨i, hi, ?_⟩
  unfold GraphList.getNode
  have h1 := getElem?_eq_some_getD (l := g.nodes) (i := i) hi
  have h2 : g.nodes[i]? = some g.nodes[i] := List.getElem?_eq_getElem hi
  rw [h1] at h2
  rw [← hget]
  exact Option.some.inj h2

theorem wf_edge_mem_bounds {g : GraphList} (hwf : WellFormed g) :
    ∀ e ∈ g.make_edge_list, e.from' < g.num_nodes ∧ e.to' < g.num_nodes := by
  intro e he
  rcases List.mem_flatMap.mp he with ⟨nd, hnd, hemem⟩
  rcases List.mem_map.mp hemem with ⟨p, hp, rfl⟩
  rcases getNode_of_mem hnd with ⟨i, hi, hget⟩
  have hidx : nd.index = i := by
    rw [← hget]
    exact hwf.1 i (List.mem_range.mpr hi)
  rcases hwf.2 nd hnd p hp with ⟨hfrom, hto, hk⟩
  refine ⟨?_, ?_⟩
  · rw [hfrom, hidx]; exact hi
  · rw [hto]; exact hk

theorem node_edges_sub_make_edge_list {g : GraphList} {i : ℕ}
    (hi : i < g.num_nodes) : ∀ e ∈ (g.getNode i).get_edge_list, e ∈ g.make_edge_list := by
  intro e he
  have hmem : g.getNode i ∈ g.nodes := by
    show g.nodes.getD i default ∈ g.nodes
    exact List.getElem?_mem (getElem?_eq_some_getD hi)
  exact List.mem_flatMap.mpr ⟨g.getNode i, hmem, he⟩

theorem exists_dup_split {l : List ℕ} (h : ¬ l.Nodup) :
    ∃ a l1 l2 l3, l = l1 ++ a :: (l2 ++ a :: l3) := by
  induction l with
  | nil => exact absurd List.nodup_nil h
  | cons x t ih =>
    by_cases hx : x ∈ t
    · rcases List.append_of_mem hx with ⟨s, r, rfl⟩
      exact ⟨x, [], s, r, rfl⟩
    · have hnt : ¬ t.Nodup := by
        intro hnd
        exact h (List.nodup_cons.mpr ⟨hx, hnd⟩)
      rcases ih hnt with ⟨a, l1, l2, l3, rfl⟩
      exact ⟨a, x :: l1, l2, l3, rfl⟩

theorem not_nodup_of_bounded {l : List ℕ} {n : ℕ}
    (hb : ∀ x ∈ l, x < n) (hl : n < l.length) : ¬ l.Nodup := by
  intro hnd
  have hsub : l.toFinset ⊆ Finset.range n := by
    intro x hx
    exact Finset.mem_range.mpr (hb x (List.mem_toFinset.mp hx))
  have h1 : l.toFinset.card = l.length := List.toFinset_card_of_nodup hnd
  have h2 := Finset.card_le_card hsub
  rw [h1, Finset.card_range] at h2
  omega

theorem getD_append_at {α : Type} (l1 : List α) (a : α) (rest : List α) (d : α) :
    (l1 ++ a :: rest).getD l1.length d = a := by
  induction l1 with
  | nil => rfl
  | cons x xs ih => simpa [List.getD] using ih

/-- Every walk from `start` can be shortened to at most `num_nodes - 1`
edges; when no negative cycle is reachable from `start`, without increasing
its weight. -/
theorem walk_shorten {g : GraphList} {start : ℕ} (hwf : WellFormed g)
    (hstart : start < g.num_nodes) :
    ∀ N es v, es.length ≤ N → IsWalk g start es v →
      ∃ es', IsWalk g start es' v ∧ es'.length ≤ g.num_nodes - 1 ∧
        (¬ NegCycleReachable g start → walkWeight es' ≤ walkWeight es) := by
  intro N
  induction N with
  | zero =>
    intro es v hlen hw
    have : es = [] := List.length_eq_zero.mp (by omega)
    subst this
    exact ⟨[], hw, by omega, fun _ => le_refl _⟩
  | succ N ih =>
    intro es v hlen hw
    by_cases hle : es.length ≤ g.num_nodes - 1
    · exact ⟨es, hw, hle, fun _ => le_refl _⟩
    · have hn1 : 1 ≤ g.num_nodes := by omega
      have hgt : g.num_nodes ≤ es.length := by omega
      set verts : List ℕ := start :: es.map Edge.to' with hverts
      have hbound : ∀ x ∈ verts, x < g.num_nodes := by
        intro x hx
        rcases List.mem_cons.mp hx with rfl | hx
        · exact hstart
        · rcases List.mem_map.mp hx with ⟨e, he, rfl⟩
          exact (wf_edge_mem_bounds hwf e (hw.edges_mem e he)).2
      have hvlen : verts.length = es.length + 1 := by simp [hverts]
      have hnn : ¬ verts.Nodup :=
        not_nodup_of_bounded hbound (by omega)
      rcases exists_dup_split hnn with ⟨a, l1, l2, l3, hsplit⟩
      set i := l1.length with hi_def
      set j := l1.length + l2.length + 1 with hj_def
      have hassoc : l1 ++ a :: (l2 ++ a :: l3) = (l1 ++ a :: l2) ++ (a :: l3) := by
        simp
      have hgi : ∀ d, verts.getD i d = a := by
        intro d; rw [hsplit]; exact getD_append_at l1 a _ d
      have hgj : ∀ d, verts.getD j d = a := by
        intro d
        rw [hsplit, hassoc]
        have hlen2 : (l1 ++ a :: l2).length = j := by
          simp [hj_def]; omega
        rw [← hlen2]
        exact getD_append_at _ a _ d
      have hlen_split : verts.length = l1.length + l2.length + l3.length + 2 := by
        rw [hsplit]; simp; omega
      have hij : i < j := by omega
      have hjlen : j ≤ es.length := by omega
      have hilen : i ≤ es.length := by omega
      have hvi : vertAt start es i = a := hgi start
      have hvj : vertAt start es j = a := hgj start
      rcases hw.take_drop i hilen with ⟨w1, w2⟩
      rw [hvi] at w1 w2
      have hkk : 1 ≤ j - i := by omega
      have hdroplen : i + (j - i) ≤ es.length := by omega
      have hvd : vertAt a (es.drop i) (j - i) = a := by
        have := vertAt_drop start es i (j - i) hkk hdroplen
        rw [hvi] at this
        rw [this]
        have hji : i + (j - i) = j := by omega
        rw [hji]
        exact hvj
      have hdlen : j - i ≤ (es.drop i).length := by
        rw [List.length_drop]; omega
      rcases w2.take_drop (j - i) hdlen with ⟨wm, w3⟩
      rw [hvd] at wm w3
      have hdropdrop : (es.drop i).drop (j - i) = es.drop j := by
        rw [List.drop_drop]
        congr 1
        omega
      rw [hdropdrop] at w3
      set middle := (es.drop i).take (j - i) with hmid
      have hmidlen : middle.length = j - i := by
        rw [hmid, List.length_take]
        omega
      have hmidne : middle ≠ [] := by
        intro hc
        rw [hc] at hmidlen
        simp at hmidlen
        omega
      set es2 := es.take i ++ es.drop j with hes2
      have hw2 : IsWalk g start es2 v := w1.append w3
      have hlen2 : es2.length = i + (es.length - j) := by
        rw [hes2]
        simp [List.length_take, List.length_drop]
        omega
      have hlt : es2.length ≤ N := by omega
      rcases ih es2 v hlt hw2 with ⟨es3, hw3, hlen3, hwt3⟩
      refine ⟨es3, hw3, hlen3, fun hnc => ?_⟩
      have hmid_nonneg : 0 ≤ walkWeight middle := by
        by_contra hneg
        exact hnc ⟨a, middle, hmidne, wm, by linarith, ⟨es.take i, w1⟩⟩
      have hdecomp : walkWeight es = walkWeight (es.take i) + walkWeight middle +
          walkWeight (es.drop j) := by
        have h1 : es = es.take i ++ es.drop i := (List.take_append_drop i es).symm
        have h2 : es.drop i = middle ++ es.drop j := by
          rw [hmid, ← hdropdrop]
          exact (List.take_append_drop (j - i) (es.drop i)).symm
        calc walkWeight es = walkWeight (es.take i ++ es.drop i) := by rw [← h1]
          _ = walkWeight (es.take i) + walkWeight (es.drop i) := walkWeight_append _ _
          _ = walkWeight (es.take i) + (walkWeight middle + walkWeight (es.drop j)) := by
              rw [h2, walkWeight_append]
          _ = _ := by ring
      have hwes2 : walkWeight es2 = walkWeight (es.take i) + walkWeight (es.drop j) :=
        walkWeight_append _ _
      have := hwt3 hnc
      rw [hwes2] at this
      linarith [hdecomp]


end RustyGraphs

namespace RustyGraphs

/-! ## Bellman-Ford invariants -/

/-- The cost vector after the `num_nodes - 1` relaxation rounds. -/
def bfFinal (g : GraphList) (start : ℕ) : List Qi :=
  (relaxRound g.make_edge_list)^[g.num_nodes - 1]
    ((List.replicate g.num_nodes (⊤ : Qi)).set start 0)

theorem bellman_ford_eq (g : GraphList) (start : ℕ) :
    bellman_ford g start =
      if g.make_edge_list.any (fun e =>
          (bfFinal g start).getD e.from' ⊤ + (e.weight : ℚ) <
            (bfFinal g start).getD e.to' ⊤) then none
      else some (bfFinal g start) := rfl

theorem set_of_length_le {α : Type} {l : List α} {i : ℕ} {a : α}
    (h : l.length ≤ i) : l.set i a = l := by
  induction l generalizing i with
  | nil => rfl
  | cons x xs ih =>
    cases i with
    | zero => simp at h
    | succ j => simp [List.set, ih (by simpa using h)]

theorem length_relaxEdge (c : List Qi) (e : Edge) :
    (relaxEdge c e).length = c.length := by
  unfold relaxEdge
  dsimp only
  split
  · rw [List.length_set]
  · rfl

theorem length_foldl_relaxEdge (l : List Edge) (c : List Qi) :
    (l.foldl relaxEdge c).length = c.length := by
  induction l generalizing c with
  | nil => rfl
  | cons e l ih => rw [List.foldl_cons, ih, length_relaxEdge]

theorem length_bfFinal (g : GraphList) (start : ℕ) :
    (bfFinal g start).length = g.num_nodes := by
  unfold bfFinal
  generalize g.num_nodes - 1 = k
  induction k with
  | zero => simp
  | succ m ih =>
    rw [Function.iterate_succ_apply']
    show (relaxRound _ _).length = _
    unfold relaxRound
    rw [length_foldl_relaxEdge]
    exact ih

theorem relaxEdge_le (c : List Qi) (e : Edge) (v : ℕ) :
    (relaxEdge c e).getD v ⊤ ≤ c.getD v ⊤ := by
  unfold relaxEdge
  by_cases h : c.getD e.from' ⊤ + (e.weight : ℚ) < c.getD e.to' ⊤
  · rw [if_pos h]
    by_cases hlen : e.to' < c.length
    · by_cases hv : e.to' = v
      · subst hv
        rw [getD_set_self hlen]
        exact le_of_lt h
      · rw [getD_set_ne _ hv]
    · rw [set_of_length_le (by omega)]
  · rw [if_neg h]

theorem foldl_relaxEdge_le (l : List Edge) (c : List Qi) (v : ℕ) :
    (l.foldl relaxEdge c).getD v ⊤ ≤ c.getD v ⊤ := by
  induction l generalizing c with
  | nil => exact le_refl _
  | cons e l ih =>
    rw [List.foldl_cons]
    exact le_trans (ih _) (relaxEdge_le c e v)

theorem relaxEdge_bound (c : List Qi) (e : Edge) (hto : e.to' < c.length) :
    (relaxEdge c e).getD e.to' ⊤ ≤ c.getD e.from' ⊤ + (e.weight : ℚ) := by
  unfold relaxEdge
  by_cases h : c.getD e.from' ⊤ + (e.weight : ℚ) < c.getD e.to' ⊤
  · rw [if_pos h, getD_set_self hto]
  · rw [if_neg h]
    exact le_of_not_lt h

theorem foldl_relaxEdge_bound (l : List Edge) (c : List Qi) (e : Edge)
    (he : e ∈ l) (hto : e.to' < c.length) :
    (l.foldl relaxEdge c).getD e.to' ⊤ ≤ c.getD e.from' ⊤ + (e.weight : ℚ) := by
  induction l generalizing c with
  | nil => simp at he
  | cons e1 l ih =>
    rw [List.foldl_cons]
    rcases List.mem_cons.mp he with rfl | he'
    · exact le_trans (foldl_relaxEdge_le l _ e.to')
        (relaxEdge_bound c e hto)
    · have h1 := ih (relaxEdge c e1) he' (by rw [length_relaxEdge]; exact hto)
      refine le_trans h1 ?_
      exact add_le_add_right (relaxEdge_le c e1 e.from') _

/-- Every finite entry of the cost vector is the weight of a walk from
`start`. -/
def BFSound (g : GraphList) (start : ℕ) (c : List Qi) : Prop :=
  ∀ v, c.getD v ⊤ = ⊤ ∨
    ∃ es, IsWalk g start es v ∧ c.getD v ⊤ = ((walkWeight es : ℚ) : Qi)

theorem bfSound_init (g : GraphList) (start : ℕ) :
    BFSound g start ((List.replicate g.num_nodes (⊤ : Qi)).set start 0) := by
  intro v
  by_cases hv : v = start
  · subst hv
    by_cases hlt : v < g.num_nodes
    · right
      refine ⟨[], IsWalk.nil v, ?_⟩
      rw [getD_set_self (by simpa using hlt)]
      simp [walkWeight]
    · left
      rw [set_of_length_le (by simpa using Nat.le_of_not_lt hlt)]
      exact getD_of_length_le (by simpa using Nat.le_of_not_lt hlt)
  · left
    rw [getD_set_ne _ (fun h => hv h.symm)]
    by_cases hlt : v < g.num_nodes
    · exact getD_replicate hlt
    · exact getD_of_length_le (by simpa using Nat.le_of_not_lt hlt)

theorem bfSound_relaxEdge {g : GraphList} {start : ℕ} {c : List Qi} {e : Edge}
    (he : e ∈ g.make_edge_list) (hs : BFSound g start c) :
    BFSound g start (relaxEdge c e) := by
  intro v
  unfold relaxEdge
  by_cases h : c.getD e.from' ⊤ + (e.weight : ℚ) < c.getD e.to' ⊤
  · rw [if_pos h]
    by_cases hlen : e.to' < c.length
    · by_cases hv : e.to' = v
      · subst hv
        rw [getD_set_self hlen]
        rcases hs e.from' with hf | ⟨es, hwk, hval⟩
        · rw [hf] at h
          exact absurd h (by simp)
        · right
          refine ⟨es ++ [e], ?_, ?_⟩
          · exact hwk.append (IsWalk.single he)
          · rw [hval, walkWeight_append, walkWeight_cons, walkWeight_nil, add_zero]
            push_cast
            ring_nf
      · rw [getD_set_ne _ hv]
        exact hs v
    · rw [set_of_length_le (by omega)]
      exact hs v
  · rw [if_neg h]
    exact hs v

theorem bfSound_foldl {g : GraphList} {start : ℕ} (l : List Edge)
    (hl : ∀ e ∈ l, e ∈ g.make_edge_list) :
    ∀ c, BFSound g start c → BFSound g start (l.foldl relaxEdge c) := by
  induction l with
  | nil => intro c hc; exact hc
  | cons e l ih =>
    intro c hc
    rw [List.foldl_cons]
    exact ih (fun e' he' => hl e' (List.mem_cons_of_mem _ he'))
      (relaxEdge c e) (bfSound_relaxEdge (hl e (List.mem_cons_self _ _)) hc)

theorem bfSound_bfFinal (g : GraphList) (start : ℕ) :
    BFSound g start (bfFinal g start) := by
  unfold bfFinal
  generalize g.num_nodes - 1 = k
  induction k with
  | zero => exact bfSound_init g start
  | succ m ih =>
    rw [Function.iterate_succ_apply']
    exact bfSound_foldl _ (fun e he => he) _ ih

theorem snoc_walk_elim {g : GraphList} {u v : ℕ} {es0 : List Edge} {e : Edge}
    (h : IsWalk g u (es0 ++ [e]) v) :
    IsWalk g u es0 e.from' ∧ e ∈ g.make_edge_list ∧ v = e.to' := by
  induction es0 generalizing u with
  | nil =>
    cases h with
    | cons he hf hw =>
      cases hw with
      | nil =>
        refine ⟨?_, he, rfl⟩
        rw [← hf]
        exact IsWalk.nil e.from'
  | cons e1 es ih =>
    cases h with
    | cons he hf hw =>
      rcases ih hw with ⟨h1, h2, h3⟩
      exact ⟨IsWalk.cons he hf h1, h2, h3⟩

theorem length_iterate_relaxRound (g : GraphList) (start k : ℕ) :
    ((relaxRound g.make_edge_list)^[k]
      ((List.replicate g.num_nodes (⊤ : Qi)).set start 0)).length = g.num_nodes := by
  induction k with
  | zero => simp
  | succ p ihp =>
    rw [Function.iterate_succ_apply']
    show (relaxRound _ _).length = _
    unfold relaxRound
    rw [length_foldl_relaxEdge]
    exact ihp

theorem bf_completeness {g : GraphList} {start : ℕ} (hwf : WellFormed g)
    (hstart : start < g.num_nodes) :
    ∀ k es v, IsWalk g start es v → es.length ≤ k →
      ((relaxRound g.make_edge_list)^[k]
        ((List.replicate g.num_nodes (⊤ : Qi)).set start 0)).getD v ⊤ ≤
        ((walkWeight es : ℚ) : Qi) := by
  intro k
  induction k with
  | zero =>
    intro es v hw hlen
    have : es = [] := List.length_eq_zero.mp (by omega)
    subst this
    cases hw
    rw [Function.iterate_zero_apply, getD_set_self (by simpa using hstart)]
    simp [walkWeight]
  | succ m ih =>
    intro es v hw hlen
    rw [Function.iterate_succ_apply']
    by_cases hle : es.length ≤ m
    · exact le_trans (foldl_relaxEdge_le _ _ v) (ih es v hw hle)
    · rcases es.eq_nil_or_concat with rfl | ⟨es0, e, rfl⟩
      · simp at hle
      · rw [List.concat_eq_append] at hw hlen ⊢
        rcases snoc_walk_elim hw with ⟨hw0, he, rfl⟩
        have hlen0 : es0.length ≤ m := by
          rw [List.length_append] at hlen
          simpa using hlen
        have hto : e.to' <
            ((relaxRound g.make_edge_list)^[m]
              ((List.replicate g.num_nodes (⊤ : Qi)).set start 0)).length := by
          rw [length_iterate_relaxRound]
          exact (wf_edge_mem_bounds hwf e he).2
        refine le_trans (foldl_relaxEdge_bound _ _ e he hto) ?_
        have h2 := ih es0 e.from' hw0 hlen0
        refine le_trans (add_le_add_right h2 _) ?_
        rw [walkWeight_append, walkWeight_cons, walkWeight_nil]
        push_cast
        rw [add_zero]

/-- No edge still admits an improvement. -/
def BFNoImp (g : GraphList) (c : List Qi) : Prop :=
  ∀ e ∈ g.make_edge_list, c.getD e.to' ⊤ ≤ c.getD e.from' ⊤ + (e.weight : ℚ)

theorem bf_telescope {g : GraphList} {c : List Qi} (hni : BFNoImp g c)
    {u v : ℕ} {es : List Edge} (hw : IsWalk g u es v) :
    c.getD v ⊤ ≤ c.getD u ⊤ + ((walkWeight es : ℚ) : Qi) := by
  induction hw with
  | nil =>
    simp [walkWeight]
  | @cons u' v' e es' he hf hw' ih =>
    have h1 := hni e he
    rw [hf] at h1
    calc c.getD v' ⊤ ≤ c.getD e.to' ⊤ + ((walkWeight es' : ℚ) : Qi) := ih
      _ ≤ (c.getD u' ⊤ + (e.weight : ℚ)) + ((walkWeight es' : ℚ) : Qi) :=
          add_le_add_right h1 _
      _ = c.getD u' ⊤ + ((walkWeight (e :: es') : ℚ) : Qi) := by
          rw [walkWeight_cons, add_assoc]
          push_cast
          ring_nf

theorem bellman_ford_some_iff (g : GraphList) (start : ℕ) :
    (∃ c, bellman_ford g start = some c) ↔ BFNoImp g (bfFinal g start) := by
  rw [bellman_ford_eq]
  by_cases h : g.make_edge_list.any (fun e =>
      (bfFinal g start).getD e.from' ⊤ + (e.weight : ℚ) <
        (bfFinal g start).getD e.to' ⊤)
  · rw [if_pos h]
    constructor
    · rintro ⟨c, hc⟩
      simp at hc
    · intro hni
      rcases List.any_eq_true.mp h with ⟨e, he, hlt⟩
      exact absurd (hni e he) (not_le_of_lt (by simpa using hlt))
  · rw [if_neg h]
    constructor
    · intro _
      intro e he
      by_contra hc
      exact h (List.any_eq_true.mpr ⟨e, he, by simpa using lt_of_not_le hc⟩)
    · intro _
      exact ⟨bfFinal g start, rfl⟩

theorem bellman_ford_none_iff (g : GraphList) (start : ℕ) :
    bellman_ford g start = none ↔ ¬ BFNoImp g (bfFinal g start) := by
  constructor
  · intro hn hni
    rcases (bellman_ford_some_iff g start).mpr hni with ⟨c, hc⟩
    rw [hn] at hc
    exact Option.noConfusion hc
  · intro hni
    cases hb : bellman_ford g start with
    | none => rfl
    | some c => exact absurd ((bellman_ford_some_iff g start).mp ⟨c, hb⟩) hni


end RustyGraphs

namespace RustyGraphs

theorem bellman_ford_some_eq {g : GraphList} {start : ℕ} {c : List Qi}
    (h : bellman_ford g start = some c) :
    c = bfFinal g start ∧ BFNoImp g c := by
  have hni : BFNoImp g (bfFinal g start) :=
    (bellman_ford_some_iff g start).mp ⟨c, h⟩
  rw [bellman_ford_eq] at h
  split at h
  · exact Option.noConfusion h
  · have := Option.some.inj h
    exact ⟨this.symm, this ▸ hni⟩

/-- Without a reachable negative cycle, no edge still admits an improvement
after the `num_nodes - 1` rounds. -/
theorem bf_noImp_of_no_negcycle {g : GraphList} {start : ℕ}
    (hwf : WellFormed g) (hstart : start < g.num_nodes)
    (hnc : ¬ NegCycleReachable g start) : BFNoImp g (bfFinal g start) := by
  intro e he
  rcases bfSound_bfFinal g start e.from' with htop | ⟨es, hw, hval⟩
  · rw [htop, WithTop.top_add]
    exact le_top
  · have hwalk2 : IsWalk g start (es ++ [e]) e.to' := hw.append (IsWalk.single he)
    rcases walk_shorten hwf hstart (es ++ [e]).length (es ++ [e]) e.to'
        (le_refl _) hwalk2 with ⟨es2, hw2, hlen2, hwt2⟩
    have hcomp := bf_completeness hwf hstart (g.num_nodes - 1) es2 e.to' hw2 hlen2
    have hle : (walkWeight es2 : ℚ) ≤ walkWeight es + e.weight := by
      have := hwt2 hnc
      rw [walkWeight_append, walkWeight_cons, walkWeight_nil, add_zero] at this
      exact this
    refine le_trans hcomp ?_
    rw [hval]
    have : ((walkWeight es2 : ℚ) : Qi) ≤ ((walkWeight es + e.weight : ℚ) : Qi) := by
      exact_mod_cast hle
    refine le_trans this ?_
    push_cast
    exact le_refl _

/-- C1: for a well-formed graph and a valid start, Bellman-Ford returns no
result exactly when a negative-weight cycle is reachable from `start`; the
detection is the final relaxation pass (`none` exactly when some edge still
admits an improvement, by `bellman_ford_none_iff`). -/
theorem c1_bellman_ford_none_iff_negcycle (g : GraphList) (start : ℕ)
    (hwf : WellFormed g) (hstart : start < g.num_nodes) :
    bellman_ford g start = none ↔ NegCycleReachable g start := by
  rw [bellman_ford_none_iff]
  constructor
  · -- an edge still improves: a reachable negative cycle exists
    intro hni
    by_contra hnc
    exact hni (bf_noImp_of_no_negcycle hwf hstart hnc)
  · -- a reachable negative cycle forces a still-improving edge
    intro hcyc hni
    rcases hcyc with ⟨u, cyc, hne, hcw, hneg, ⟨es, hw⟩⟩
    rcases walk_shorten hwf hstart es.length es u (le_refl _) hw with
      ⟨es', hw', hlen', _⟩
    have hfin : (bfFinal g start).getD u ⊤ ≤ ((walkWeight es' : ℚ) : Qi) :=
      bf_completeness hwf hstart (g.num_nodes - 1) es' u hw' hlen'
    have htel := bf_telescope hni hcw
    cases hcu : (bfFinal g start).getD u ⊤ with
    | none =>
      rw [hcu] at hfin
      exact WithTop.coe_ne_top (top_le_iff.mp hfin)
    | some q =>
      rw [hcu] at htel
      have : (q : Qi) ≤ ((q + walkWeight cyc : ℚ) : Qi) := by
        refine le_trans htel ?_
        push_cast
        exact le_refl _
      have hq : q ≤ q + walkWeight cyc := by exact_mod_cast this
      linarith

/-- C1 witness: the 3-cycle of total weight `-1` is detected. -/
theorem c1_witness :
    (WellFormed gNegCycle ∧ 0 < gNegCycle.num_nodes) ∧
      (bellman_ford gNegCycle 0 = none ↔ NegCycleReachable gNegCycle 0) ∧
      bellman_ford gNegCycle 0 = none :=
  ⟨⟨by decide, by decide⟩,
    c1_bellman_ford_none_iff_negcycle gNegCycle 0 (by decide) (by decide),
    by with_unfolding_all decide⟩

/-! ## Bellman-Ford half of C3 -/

theorem bf_start_zero {g : GraphList} {start : ℕ} {c : List Qi}
    (hwf : WellFormed g) (hstart : start < g.num_nodes)
    (h : bellman_ford g start = some c) : c.getD start ⊤ = 0 := by
  rcases bellman_ford_some_eq h with ⟨rfl, hni⟩
  have hle : (bfFinal g start).getD start ⊤ ≤ 0 := by
    have h0 : (bfFinal g start).getD start ⊤ ≤ ((walkWeight [] : ℚ) : Qi) :=
      bf_completeness hwf hstart (g.num_nodes - 1) [] start (IsWalk.nil start)
        (by simp)
    simpa [walkWeight] using h0
  refine le_antisymm hle ?_
  by_contra hlt
  have hlt' : (bfFinal g start).getD start ⊤ < 0 := lt_of_not_le hlt
  rcases bfSound_bfFinal g start start with htop | ⟨es, hw, hval⟩
  · rw [htop] at hlt'
    exact absurd hlt' (by simp)
  · have htel := bf_telescope hni hw
    rw [hval] at htel hlt'
    have hwneg : walkWeight es < 0 := by exact_mod_cast hlt'
    have : ((walkWeight es : ℚ) : Qi) ≤ ((walkWeight es + walkWeight es : ℚ) : Qi) := by
      refine le_trans htel ?_
      push_cast
      exact le_refl _
    have h2 : walkWeight es ≤ walkWeight es + walkWeight es := by exact_mod_cast this
    linarith

theorem bf_unreachable_top {g : GraphList} {start : ℕ} {c : List Qi}
    (h : bellman_ford g start = some c) :
    ∀ v, ¬ Reachable g start v → c.getD v ⊤ = ⊤ := by
  rcases bellman_ford_some_eq h with ⟨rfl, _⟩
  intro v hv
  rcases bfSound_bfFinal g start v with htop | ⟨es, hw, _⟩
  · exact htop
  · exact absurd ⟨es, hw⟩ hv


end RustyGraphs

namespace RustyGraphs

/-! ## Dijkstra: general invariants (any weights, any fuel) -/

/-- Soundness: every finite entry of the cost vector is a walk weight. -/
def DSound (g : GraphList) (start : ℕ) (st : DState) : Prop :=
  ∀ v, st.costs.getD v ⊤ = ⊤ ∨
    ∃ es, IsWalk g start es v ∧ st.costs.getD v ⊤ = ((walkWeight es : ℚ) : Qi)

/-- After the initial pop of `start`, the source keeps cost 0 and never
reappears in the queue. -/
def DStartInv (start : ℕ) (st : DState) : Prop :=
  st.costs.getD start ⊤ = 0 ∧ ∀ s ∈ st.queue, s.position ≠ start

theorem length_relaxNeighbor (pos : ℕ) (st : DState) (e : Edge) :
    (relaxNeighbor pos st e).costs.length = st.costs.length := by
  unfold relaxNeighbor
  dsimp only
  split
  · split
    · rw [List.length_set]
    · rfl
  · rfl

theorem length_foldl_relaxNeighbor (pos : ℕ) (l : List Edge) (st : DState) :
    (l.foldl (relaxNeighbor pos) st).costs.length = st.costs.length := by
  induction l generalizing st with
  | nil => rfl
  | cons e l ih => rw [List.foldl_cons, ih, length_relaxNeighbor]

theorem length_dijkstraRun (g : GraphList) (fuel : ℕ) (st : DState) :
    (dijkstraRun g fuel st).costs.length = st.costs.length := by
  induction fuel generalizing st with
  | zero => rfl
  | succ m ih =>
    show (match dijkstraStep g st with
      | none => st
      | some st' => dijkstraRun g m st').costs.length = st.costs.length
    cases hstep : dijkstraStep g st with
    | none => rfl
    | some st' =>
      rw [ih st']
      unfold dijkstraStep at hstep
      cases hp : popMax st.queue with
      | none => rw [hp] at hstep; exact Option.noConfusion hstep
      | some pr =>
        rw [hp] at hstep
        have := Option.some.inj hstep
        rw [← this, length_foldl_relaxNeighbor]

/-- C3, length part for Dijkstra. -/
theorem dijkstra_length (g : GraphList) (start : ℕ) :
    (dijkstra g start).length = g.num_nodes := by
  unfold dijkstra
  rw [length_dijkstraRun]
  show ((List.replicate g.num_nodes (⊤ : Qi)).set start 0).length = _
  simp

theorem relaxNeighbor_sound {g : GraphList} {start pos : ℕ} {st : DState}
    (hwf : WellFormed g) (hpos : pos < g.num_nodes)
    (hs : DSound g start st) {e : Edge}
    (he : e ∈ (g.getNode pos).get_edge_list) :
    DSound g start (relaxNeighbor pos st e) := by
  have hmem : e ∈ g.make_edge_list := node_edges_sub_make_edge_list hpos e he
  have hfrom : e.from' = pos := by
    rcases List.mem_map.mp he with ⟨p, hp, rfl⟩
    have hnd : g.getNode pos ∈ g.nodes := by
      show g.nodes.getD pos default ∈ g.nodes
      exact List.getElem?_mem (getElem?_eq_some_getD hpos)
    have h1 := (hwf.2 (g.getNode pos) hnd p hp).1
    have h2 : (g.getNode pos).index = pos := hwf.1 pos (List.mem_range.mpr hpos)
    rw [h1, h2]
  intro v
  unfold relaxNeighbor
  dsimp only
  split
  · split
    · rename_i hguard hfire
      by_cases hlen : e.to' < st.costs.length
      · by_cases hv : e.to' = v
        · subst hv
          show (st.costs.set e.to' _).getD e.to' ⊤ = ⊤ ∨ _
          rw [getD_set_self hlen]
          rcases hs pos with htop | ⟨es, hw, hval⟩
          · rw [htop] at hfire
            rw [WithTop.top_add] at hfire
            exact absurd hfire (by simp)
          · right
            refine ⟨es ++ [e], ?_, ?_⟩
            · have hsingle : IsWalk g pos [e] e.to' := by
                rw [← hfrom]
                exact IsWalk.single hmem
              exact hw.append hsingle
            · rw [hval, walkWeight_append, walkWeight_cons, walkWeight_nil, add_zero]
              push_cast
              ring_nf
        · show (st.costs.set e.to' _).getD v ⊤ = ⊤ ∨ _
          rw [getD_set_ne _ hv]
          exact hs v
      · show (st.costs.set e.to' _).getD v ⊤ = ⊤ ∨ _
        rw [set_of_length_le (by omega)]
        exact hs v
    · exact hs v
  · exact hs v

theorem foldl_relaxNeighbor_sound {g : GraphList} {start pos : ℕ}
    (hwf : WellFormed g) (hpos : pos < g.num_nodes) :
    ∀ (l : List Edge), (∀ e ∈ l, e ∈ (g.getNode pos).get_edge_list) →
      ∀ st, DSound g start st → DSound g start (l.foldl (relaxNeighbor pos) st) := by
  intro l
  induction l with
  | nil => intro _ st hs; exact hs
  | cons e l ih =>
    intro hl st hs
    rw [List.foldl_cons]
    exact ih (fun e' he' => hl e' (List.mem_cons_of_mem _ he'))
      _ (relaxNeighbor_sound hwf hpos hs (hl e (List.mem_cons_self _ _)))

theorem dstep_sound {g : GraphList} {start : ℕ} {st st' : DState}
    (hwf : WellFormed g) (hs : DSound g start st)
    (hstep : dijkstraStep g st = some st') : DSound g start st' := by
  unfold dijkstraStep at hstep
  cases hp : popMax st.queue with
  | none => rw [hp] at hstep; exact Option.noConfusion hstep
  | some pr =>
    rw [hp] at hstep
    rcases pr with ⟨s, rest⟩
    have hst' := Option.some.inj hstep
    rw [← hst']
    by_cases hpos : s.position < g.num_nodes
    · exact foldl_relaxNeighbor_sound hwf hpos _ (fun e he => he) _ hs
    · have hd : g.getNode s.position = default := by
        unfold GraphList.getNode
        exact getD_of_length_le (le_of_not_lt hpos)
      rw [hd]
      exact hs
  
theorem drun_sound {g : GraphList} {start : ℕ} (hwf : WellFormed g) :
    ∀ (fuel : ℕ) (st : DState), DSound g start st →
      DSound g start (dijkstraRun g fuel st) := by
  intro fuel
  induction fuel with
  | zero => intro st hs; exact hs
  | succ m ih =>
    intro st hs
    show DSound g start (match dijkstraStep g st with
      | none => st
      | some st' => dijkstraRun g m st')
    cases hstep : dijkstraStep g st with
    | none => exact hs
    | some st' => exact ih st' (dstep_sound hwf hs hstep)

theorem dinit_sound (g : GraphList) (start : ℕ) :
    DSound g start (dijkstraInit g start) := by
  intro v
  have hcosts : (dijkstraInit g start).costs =
      (List.replicate g.num_nodes (⊤ : Qi)).set start 0 := rfl
  rw [hcosts]
  by_cases hv : v = start
  · subst hv
    by_cases hlt : v < g.num_nodes
    · right
      refine ⟨[], IsWalk.nil v, ?_⟩
      rw [getD_set_self (by simpa using hlt)]
      simp [walkWeight]
    · left
      rw [set_of_length_le (by simpa using Nat.le_of_not_lt hlt)]
      exact getD_of_length_le (by simpa using Nat.le_of_not_lt hlt)
  · left
    rw [getD_set_ne _ (fun h => hv h.symm)]
    by_cases hlt : v < g.num_nodes
    · exact getD_replicate hlt
    · exact getD_of_length_le (by simpa using Nat.le_of_not_lt hlt)

/-- C3, unreachable part for Dijkstra. -/
theorem dijkstra_unreachable_top {g : GraphList} {start : ℕ}
    (hwf : WellFormed g) :
    ∀ v, ¬ Reachable g start v → (dijkstra g start).getD v ⊤ = ⊤ := by
  intro v hv
  have hs := drun_sound hwf (dijkstraFuel g) (dijkstraInit g start)
    (dinit_sound g start)
  rcases hs v with htop | ⟨es, hw, _⟩
  · exact htop
  · exact absurd ⟨es, hw⟩ hv


end RustyGraphs

namespace RustyGraphs

theorem foldl_betterState_eq_self {l : List State} {s : State}
    (h : ∀ x ∈ l, ¬ x.popsBefore s) : l.foldl betterState s = s := by
  induction l with
  | nil => rfl
  | cons y l ih =>
    rw [List.foldl_cons]
    have hy : betterState s y = s := by
      unfold betterState
      rw [if_neg (h y (List.mem_cons_self _ _))]
    rw [hy]
    exact ih (fun x hx => h x (List.mem_cons_of_mem _ hx))

/-- The seed entries of the initial queue. -/
def seedEntries (g : GraphList) (start : ℕ) : List State :=
  ((List.range g.num_nodes).filter (fun i => i ≠ start)).map
    (fun i => { cost := (⊤ : Qi), position := i })

theorem seed_not_popsBefore (g : GraphList) (start : ℕ) :
    ∀ x ∈ seedEntries g start,
      ¬ x.popsBefore { cost := 0, position := start } := by
  intro x hx
  rcases List.mem_map.mp hx with ⟨i, _, rfl⟩
  rintro (h | ⟨h, _⟩)
  · exact absurd h (by simp)
  · exact absurd h (by
      show ¬ ((⊤ : Qi) = (0 : Qi))
      simp)

theorem popMax_init (g : GraphList) (start : ℕ) :
    popMax (dijkstraInit g start).queue =
      some ({ cost := 0, position := start }, seedEntries g start) := by
  show popMax ({ cost := 0, position := start } :: seedEntries g start) = _
  unfold popMax
  dsimp only
  rw [foldl_betterState_eq_self (seed_not_popsBefore g start)]
  rw [List.erase_cons_head]

theorem relaxNeighbor_startInv {start pos : ℕ} {st : DState}
    (hs : DStartInv start st) (e : Edge) :
    DStartInv start (relaxNeighbor pos st e) := by
  unfold relaxNeighbor
  dsimp only
  split
  · split
    · rename_i hguard hfire
      have hany := List.any_eq_true.mp hguard
      rcases hany with ⟨s, hs', hp⟩
      have hne : e.to' ≠ start := by
        have := hs.2 s hs'
        intro hc
        rw [← hc] at this
        exact this (by simpa using hp)
      constructor
      · show (st.costs.set e.to' _).getD start ⊤ = 0
        rw [getD_set_ne _ hne]
        exact hs.1
      · intro s' hs''
        rcases List.mem_cons.mp hs'' with rfl | hs''
        · exact hne
        · exact hs.2 s' hs''
    · exact hs
  · exact hs

theorem foldl_relaxNeighbor_startInv {start pos : ℕ} (l : List Edge) :
    ∀ st, DStartInv start st → DStartInv start (l.foldl (relaxNeighbor pos) st) := by
  induction l with
  | nil => intro st hs; exact hs
  | cons e l ih =>
    intro st hs
    rw [List.foldl_cons]
    exact ih _ (relaxNeighbor_startInv hs e)

theorem dstep_startInv {g : GraphList} {start : ℕ} {st st' : DState}
    (hs : DStartInv start st) (hstep : dijkstraStep g st = some st') :
    DStartInv start st' := by
  unfold dijkstraStep at hstep
  cases hp : popMax st.queue with
  | none => rw [hp] at hstep; exact Option.noConfusion hstep
  | some pr =>
    rw [hp] at hstep
    rcases pr with ⟨s, rest⟩
    have hst' := Option.some.inj hstep
    rw [← hst']
    have hrest : DStartInv start { costs := st.costs, queue := rest } := by
      refine ⟨hs.1, fun s' hs' => ?_⟩
      rcases popMax_spec st.queue s rest hp with ⟨_, _, hr⟩
      rw [hr] at hs'
      have hs2 : s' ∈ st.queue.erase s := hs'
      exact hs.2 s' (List.erase_subset _ _ hs2)
    exact foldl_relaxNeighbor_startInv _ _ hrest

theorem drun_startInv {g : GraphList} {start : ℕ} :
    ∀ (fuel : ℕ) (st : DState), DStartInv start st →
      DStartInv start (dijkstraRun g fuel st) := by
  intro fuel
  induction fuel with
  | zero => intro st hs; exact hs
  | succ m ih =>
    intro st hs
    show DStartInv start (match dijkstraStep g st with
      | none => st
      | some st' => dijkstraRun g m st')
    cases hstep : dijkstraStep g st with
    | none => exact hs
    | some st' => exact ih st' (dstep_startInv hs hstep)

/-- C3, `distance[start] = 0` for Dijkstra. -/
theorem dijkstra_start_zero (g : GraphList) (start : ℕ)
    (hstart : start < g.num_nodes) :
    (dijkstra g start).getD start ⊤ = 0 := by
  have hfuel : ∃ k, dijkstraFuel g = k + 1 := by
    refine ⟨dijkstraFuel g - 1, ?_⟩
    unfold dijkstraFuel
    omega
  rcases hfuel with ⟨k, hk⟩
  unfold dijkstra
  rw [hk]
  have hstep : dijkstraStep g (dijkstraInit g start) =
      some (((g.getNode start).get_edge_list).foldl (relaxNeighbor start)
        { costs := (dijkstraInit g start).costs, queue := seedEntries g start }) := by
    unfold dijkstraStep
    rw [popMax_init]
  have hrun : dijkstraRun g (k + 1) (dijkstraInit g start) =
      dijkstraRun g k (((g.getNode start).get_edge_list).foldl (relaxNeighbor start)
        { costs := (dijkstraInit g start).costs, queue := seedEntries g start }) := by
    show (match dijkstraStep g (dijkstraInit g start) with
      | none => dijkstraInit g start
      | some st' => dijkstraRun g k st') = _
    rw [hstep]
  rw [hrun]
  have hinv1 : DStartInv start
      { costs := (dijkstraInit g start).costs, queue := seedEntries g start } := by
    constructor
    · show ((List.replicate g.num_nodes (⊤ : Qi)).set start 0).getD start ⊤ = 0
      rw [getD_set_self (by simpa using hstart)]
    · intro s hs
      rcases List.mem_map.mp hs with ⟨i, hi, rfl⟩
      exact by simpa using (List.mem_filter.mp hi).2
  exact (drun_startInv k _ (foldl_relaxNeighbor_startInv _ _ hinv1)).1


end RustyGraphs

namespace RustyGraphs

/-- C3: for a well-formed graph and valid start, the Dijkstra result — and
the Bellman-Ford result whenever one is returned — has length `num_nodes`,
carries distance 0 at `start`, and assigns `⊤` (infinity) to every node
unreachable from `start`. -/
theorem c3_distance_vector_shape (g : GraphList) (start : ℕ)
    (hwf : WellFormed g) (hstart : start < g.num_nodes) :
    ((dijkstra g start).length = g.num_nodes ∧
      (dijkstra g start).getD start ⊤ = 0 ∧
      (∀ v, ¬ Reachable g start v → (dijkstra g start).getD v ⊤ = ⊤)) ∧
    (∀ cost, bellman_ford g start = some cost →
      cost.length = g.num_nodes ∧ cost.getD start ⊤ = 0 ∧
        (∀ v, ¬ Reachable g start v → cost.getD v ⊤ = ⊤)) := by
  refine ⟨⟨dijkstra_length g start, dijkstra_start_zero g start hstart,
    dijkstra_unreachable_top hwf⟩, fun cost hc => ⟨?_, ?_, ?_⟩⟩
  · rw [(bellman_ford_some_eq hc).1]
    exact length_bfFinal g start
  · exact bf_start_zero hwf hstart hc
  · exact bf_unreachable_top hc

/-- C3 witness: evaluated on the shared weighted test graph from node 1,
where nodes 0 and 2 are unreachable. -/
theorem c3_witness :
    (WellFormed gBasic ∧ 1 < gBasic.num_nodes) ∧
    (((dijkstra gBasic 1).length = gBasic.num_nodes ∧
        (dijkstra gBasic 1).getD 1 ⊤ = 0 ∧
        (∀ v, ¬ Reachable gBasic 1 v → (dijkstra gBasic 1).getD v ⊤ = ⊤)) ∧
      (∀ cost, bellman_ford gBasic 1 = some cost →
        cost.length = gBasic.num_nodes ∧ cost.getD 1 ⊤ = 0 ∧
          (∀ v, ¬ Reachable gBasic 1 v → cost.getD v ⊤ = ⊤))) ∧
    bellman_ford gBasic 1 = some [⊤, 0, ⊤, 1] :=
  ⟨⟨by decide, by decide⟩,
    c3_distance_vector_shape gBasic 1 (by decide) (by decide),
    by with_unfolding_all decide⟩


end RustyGraphs

namespace RustyGraphs

/-! ## C2: nonnegative-weight machinery -/

theorem walkWeight_nonneg {es : List Edge} (h : ∀ e ∈ es, 0 ≤ e.weight) :
    0 ≤ walkWeight es := by
  unfold walkWeight
  apply List.sum_nonneg
  intro x hx
  rcases List.mem_map.mp hx with ⟨e, he, rfl⟩
  exact h e he

theorem no_negcycle_of_nonneg {g : GraphList} {start : ℕ}
    (hnn : ∀ e ∈ g.make_edge_list, 0 ≤ e.weight) :
    ¬ NegCycleReachable g start := by
  rintro ⟨u, es, _, hw, hneg, _⟩
  have h0 : 0 ≤ walkWeight es :=
    walkWeight_nonneg (fun e he => hnn e (hw.edges_mem e he))
  linarith

theorem le_add_coe_of_nonneg {b : Qi} {w : ℚ} (hw : 0 ≤ w) : b ≤ b + (w : Qi) := by
  cases b with
  | none =>
    show (⊤ : Qi) ≤ (⊤ : Qi) + (w : Qi)
    rw [WithTop.top_add]
  | some q =>
    show ((q : ℚ) : Qi) ≤ ((q : ℚ) : Qi) + (w : Qi)
    have h1 : ((q : ℚ) : Qi) + (w : Qi) = ((q + w : ℚ) : Qi) := by push_cast; ring_nf
    rw [h1]
    exact_mod_cast by linarith

theorem list_eq_of_getD {l1 l2 : List Qi} (hlen : l1.length = l2.length)
    (h : ∀ v, l1.getD v ⊤ = l2.getD v ⊤) : l1 = l2 := by
  induction l1 generalizing l2 with
  | nil =>
    cases l2 with
    | nil => rfl
    | cons y ys => simp at hlen
  | cons x xs ih =>
    cases l2 with
    | nil => simp at hlen
    | cons y ys =>
      have hx : x = y := h 0
      have htail : xs = ys :=
        ih (by simpa using hlen) (fun v => h (v + 1))
      rw [hx, htail]

theorem bellman_ford_eq_some_of_noImp {g : GraphList} {start : ℕ}
    (hni : BFNoImp g (bfFinal g start)) :
    bellman_ford g start = some (bfFinal g start) := by
  rw [bellman_ford_eq]
  rw [if_neg]
  intro hany
  rcases List.any_eq_true.mp hany with ⟨e, he, hlt⟩
  exact absurd (hni e he) (not_le_of_lt (by simpa using hlt))

/-- A node is fresh in a state when some pending entry carries its current
cost. -/
def fresh (st : DState) (x : ℕ) : Prop :=
  ∃ s ∈ st.queue, s.position = x ∧ s.cost = st.costs.getD x ⊤

instance (st : DState) (x : ℕ) : Decidable (fresh st x) := by
  unfold fresh; infer_instance

/-- Out-degree of a node. -/
def outdeg (g : GraphList) (x : ℕ) : ℕ := (g.getNode x).get_edge_list.length

/-- Decreasing measure of the Dijkstra loop (for non-negative weights):
pending entries plus the out-degrees of the nodes that still hold a fresh
entry. -/
def dmeasure (g : GraphList) (st : DState) : ℕ :=
  st.queue.length +
    ∑ x ∈ (Finset.range g.num_nodes).filter (fun x => fresh st x), outdeg g x

theorem node_edge_facts {g : GraphList} {pos : ℕ} (hwf : WellFormed g)
    (hpos : pos < g.num_nodes) {e : Edge}
    (he : e ∈ (g.getNode pos).get_edge_list) :
    e ∈ g.make_edge_list ∧ e.from' = pos ∧ e.to' < g.num_nodes := by
  have hmem : e ∈ g.make_edge_list := node_edges_sub_make_edge_list hpos e he
  refine ⟨hmem, ?_, (wf_edge_mem_bounds hwf e hmem).2⟩
  rcases List.mem_map.mp he with ⟨p, hp, rfl⟩
  have hnd : g.getNode pos ∈ g.nodes := by
    show g.nodes.getD pos default ∈ g.nodes
    exact List.getElem?_mem (getElem?_eq_some_getD hpos)
  have h1 := (hwf.2 (g.getNode pos) hnd p hp).1
  have h2 : (g.getNode pos).index = pos := hwf.1 pos (List.mem_range.mpr hpos)
  rw [h1, h2]

theorem make_mem_node_of_from {g : GraphList} (hwf : WellFormed g) {e : Edge}
    (he : e ∈ g.make_edge_list) :
    e ∈ (g.getNode e.from').get_edge_list := by
  rcases List.mem_flatMap.mp he with ⟨nd, hnd, hemem⟩
  rcases getNode_of_mem hnd with ⟨i, hi, hget⟩
  have hidx : nd.index = i := by
    rw [← hget]
    exact hwf.1 i (List.mem_range.mpr hi)
  have hfrom : e.from' = i := by
    rcases List.mem_map.mp hemem with ⟨p, hp, rfl⟩
    rw [(hwf.2 nd hnd p hp).1, hidx]
  rw [hfrom, hget]
  exact hemem

theorem relaxNeighbor_costs_le (pos : ℕ) (st : DState) (e : Edge) (v : ℕ) :
    (relaxNeighbor pos st e).costs.getD v ⊤ ≤ st.costs.getD v ⊤ := by
  unfold relaxNeighbor
  dsimp only
  split
  · split
    · rename_i hguard hfire
      by_cases hlen : e.to' < st.costs.length
      · by_cases hv : e.to' = v
        · subst hv
          show (st.costs.set e.to' _).getD e.to' ⊤ ≤ _
          rw [getD_set_self hlen]
          exact le_of_lt hfire
        · show (st.costs.set e.to' _).getD v ⊤ ≤ _
          rw [getD_set_ne _ hv]
      · show (st.costs.set e.to' _).getD v ⊤ ≤ _
        rw [set_of_length_le (by omega)]
    · exact le_refl _
  · exact le_refl _

theorem foldl_relaxNeighbor_costs_le (pos : ℕ) (l : List Edge) (st : DState)
    (v : ℕ) : (l.foldl (relaxNeighbor pos) st).costs.getD v ⊤ ≤ st.costs.getD v ⊤ := by
  induction l generalizing st with
  | nil => exact le_refl _
  | cons e l ih =>
    rw [List.foldl_cons]
    exact le_trans (ih _) (relaxNeighbor_costs_le pos st e v)

theorem relaxNeighbor_noop {pos : ℕ} {st : DState} {e : Edge}
    (h : ¬ (st.costs.getD pos ⊤ + (e.weight : ℚ) < st.costs.getD e.to' ⊤)) :
    relaxNeighbor pos st e = st := by
  unfold relaxNeighbor
  by_cases hg : (st.queue.any fun s => decide (s.position = e.to')) = true
  · rw [if_pos hg, if_neg h]
  · rw [if_neg hg]

theorem foldl_relaxNeighbor_noop {pos : ℕ} {l : List Edge} {st : DState}
    (h : ∀ e ∈ l, ¬ (st.costs.getD pos ⊤ + (e.weight : ℚ) < st.costs.getD e.to' ⊤)) :
    l.foldl (relaxNeighbor pos) st = st := by
  induction l with
  | nil => rfl
  | cons e l ih =>
    rw [List.foldl_cons, relaxNeighbor_noop (h e (List.mem_cons_self _ _))]
    exact ih (fun e' he' => h e' (List.mem_cons_of_mem _ he'))

theorem relaxNeighbor_queue_len (pos : ℕ) (st : DState) (e : Edge) :
    (relaxNeighbor pos st e).queue.length ≤ st.queue.length + 1 := by
  unfold relaxNeighbor
  dsimp only
  split
  · split
    · simp
    · omega
  · omega

theorem foldl_relaxNeighbor_queue_len (pos : ℕ) (l : List Edge) (st : DState) :
    (l.foldl (relaxNeighbor pos) st).queue.length ≤ st.queue.length + l.length := by
  induction l generalizing st with
  | nil => simp
  | cons e l ih =>
    rw [List.foldl_cons]
    have h1 := ih (relaxNeighbor pos st e)
    have h2 := relaxNeighbor_queue_len pos st e
    simp only [List.length_cons]
    omega


end RustyGraphs

namespace RustyGraphs

/-- Invariant carried through the edge loop that follows a fresh pop of node
`pos` at cost `b = costs[pos]`; `F` records the nodes that were fresh before
the pop. -/
structure DFoldInv (g : GraphList) (start pos : ℕ) (b : Qi) (F : ℕ → Prop)
    (t : DState) : Prop where
  len : t.costs.length = g.num_nodes
  qpos : ∀ s ∈ t.queue, s.position < g.num_nodes
  sound : DSound g start t
  p3 : ∀ s ∈ t.queue, t.costs.getD s.position ⊤ ≤ s.cost
  dist : t.queue.Pairwise (fun a a' => a.position = a'.position → a.cost ≠ a'.cost)
  posb : t.costs.getD pos ⊤ = b
  eInv : ∀ e ∈ g.make_edge_list, e.from' ≠ pos →
    (t.costs.getD e.to' ⊤ ≤ t.costs.getD e.from' ⊤ + (e.weight : ℚ) ∨ fresh t e.from')
  nInv : ∀ x, x < g.num_nodes → fresh t x ∨
    ((∀ s ∈ t.queue, t.costs.getD x ⊤ ≤ s.cost) ∧ t.costs.getD x ⊤ ≤ b)
  freshSub : ∀ x, fresh t x → F x ∧ x ≠ pos

theorem relaxNeighbor_foldInv {g : GraphList} {start pos : ℕ} {b : Qi}
    {F : ℕ → Prop} {t : DState} {e : Edge} (hwf : WellFormed g)
    (hnn : ∀ e' ∈ g.make_edge_list, 0 ≤ e'.weight)
    (hpos : pos < g.num_nodes) (he : e ∈ (g.getNode pos).get_edge_list)
    (hJ : DFoldInv g start pos b F t) :
    DFoldInv g start pos b F (relaxNeighbor pos t e) ∧
      (relaxNeighbor pos t e).costs.getD e.to' ⊤ ≤ b + (e.weight : ℚ) := by
  rcases node_edge_facts hwf hpos he with ⟨hmem, hfrom, hvn⟩
  have hw0 : 0 ≤ e.weight := hnn e hmem
  have hbw : b ≤ b + (e.weight : Qi) := le_add_coe_of_nonneg hw0
  by_cases hg : (t.queue.any fun s => decide (s.position = e.to')) = true
  · by_cases hfire : t.costs.getD pos ⊤ + (e.weight : ℚ) < t.costs.getD e.to' ⊤
    · -- a relaxation fires
      have hEq : relaxNeighbor pos t e =
          { costs := t.costs.set e.to' (t.costs.getD pos ⊤ + (e.weight : ℚ)),
            queue := { cost := t.costs.getD pos ⊤ + (e.weight : ℚ),
                       position := e.to' } :: t.queue } := by
        unfold relaxNeighbor
        rw [if_pos hg, if_pos hfire]
      have hnewb : t.costs.getD pos ⊤ + ((e.weight : ℚ) : Qi) = b + (e.weight : ℚ) := by
        rw [hJ.posb]
      have hvpos : e.to' ≠ pos := by
        intro hc
        rw [hc, hJ.posb] at hfire
        exact absurd hfire (not_lt_of_le hbw)
      have hvlen : e.to' < t.costs.length := by rw [hJ.len]; exact hvn
      have hfv : fresh t e.to' := by
        rcases hJ.nInv e.to' hvn with hf | ⟨_, hle⟩
        · exact hf
        · exfalso
          rw [hJ.posb] at hfire
          exact absurd hfire (not_lt_of_le (le_trans hle hbw))
      have hcv : (relaxNeighbor pos t e).costs.getD e.to' ⊤ = b + (e.weight : ℚ) := by
        rw [hEq]
        show (t.costs.set e.to' _).getD e.to' ⊤ = _
        rw [getD_set_self hvlen, hnewb]
      have hcx : ∀ x, x ≠ e.to' →
          (relaxNeighbor pos t e).costs.getD x ⊤ = t.costs.getD x ⊤ := by
        intro x hx
        rw [hEq]
        show (t.costs.set e.to' _).getD x ⊤ = _
        rw [getD_set_ne _ (fun hc => hx hc.symm)]
      have hmono : ∀ x, (relaxNeighbor pos t e).costs.getD x ⊤ ≤ t.costs.getD x ⊤ :=
        relaxNeighbor_costs_le pos t e
      have hqueue : (relaxNeighbor pos t e).queue =
          { cost := t.costs.getD pos ⊤ + (e.weight : ℚ), position := e.to' } ::
            t.queue := by rw [hEq]
      have hfv' : fresh (relaxNeighbor pos t e) e.to' := by
        refine ⟨{ cost := t.costs.getD pos ⊤ + (e.weight : ℚ), position := e.to' },
          ?_, rfl, ?_⟩
        · rw [hqueue]; exact List.mem_cons_self _ _
        · show _ = (relaxNeighbor pos t e).costs.getD e.to' ⊤
          rw [hcv, hnewb]
      refine ⟨⟨?_, ?_, ?_, ?_, ?_, ?_, ?_, ?_, ?_⟩, ?_⟩
      · rw [hEq]
        show (t.costs.set _ _).length = _
        rw [List.length_set]
        exact hJ.len
      · intro s hs
        rw [hqueue] at hs
        rcases List.mem_cons.mp hs with rfl | hs
        · exact hvn
        · exact hJ.qpos s hs
      · exact relaxNeighbor_sound hwf hpos hJ.sound he
      · intro s hs
        rw [hqueue] at hs
        rcases List.mem_cons.mp hs with rfl | hs
        · show (relaxNeighbor pos t e).costs.getD e.to' ⊤ ≤ _
          rw [hcv, hnewb]
        · by_cases hsp : s.position = e.to'
          · rw [hsp, hcv, ← hnewb]
            have hp3 : t.costs.getD e.to' ⊤ ≤ s.cost := by
              have h0 := hJ.p3 s hs
              rw [hsp] at h0
              exact h0
            exact le_of_lt (lt_of_lt_of_le hfire hp3)
          · rw [hcx _ hsp]
            exact hJ.p3 s hs
      · rw [hqueue]
        refine List.pairwise_cons.mpr ⟨?_, hJ.dist⟩
        intro s hs hsp
        show ¬ (t.costs.getD pos ⊤ + ((e.weight : ℚ) : Qi) = s.cost)
        have h1 : t.costs.getD e.to' ⊤ ≤ s.cost := by
          have h0 := hJ.p3 s hs
          rw [← hsp] at h0
          exact h0
        intro hc
        rw [hc] at hfire
        exact absurd (lt_of_lt_of_le hfire h1) (lt_irrefl _)
      · rw [hcx pos (fun hc => hvpos hc.symm)]
        exact hJ.posb
      · intro a ha hane
        by_cases haf : a.from' = e.to'
        · right
          rw [haf]
          exact hfv'
        · rw [hcx _ haf]
          rcases hJ.eInv a ha hane with hsat | hfr
          · left
            refine le_trans (hmono a.to') ?_
            exact hsat
          · right
            rcases hfr with ⟨s, hs, hsp, hsc⟩
            refine ⟨s, ?_, hsp, ?_⟩
            · rw [hqueue]; exact List.mem_cons_of_mem _ hs
            · rw [hcx a.from' haf]
              exact hsc
      · intro x hxn
        by_cases hxv : x = e.to'
        · left
          rw [hxv]
          exact hfv'
        · rcases hJ.nInv x hxn with ⟨s, hs, hsp, hsc⟩ | ⟨hall, hxb⟩
          · left
            refine ⟨s, ?_, hsp, ?_⟩
            · rw [hqueue]; exact List.mem_cons_of_mem _ hs
            · rw [hcx _ hxv]
              exact hsc
          · right
            refine ⟨?_, ?_⟩
            · intro s hs
              rw [hqueue] at hs
              rcases List.mem_cons.mp hs with rfl | hs
              · show _ ≤ t.costs.getD pos ⊤ + ((e.weight : ℚ) : Qi)
                rw [hcx _ hxv, hnewb]
                exact le_trans hxb hbw
              · rw [hcx _ hxv]
                exact hall s hs
            · rw [hcx _ hxv]
              exact hxb
      · intro x hx
        rcases hx with ⟨s, hs, hsp, hsc⟩
        rw [hqueue] at hs
        rcases List.mem_cons.mp hs with rfl | hs
        · have hxv : x = e.to' := hsp.symm
          rw [hxv]
          exact hJ.freshSub e.to' hfv
        · by_cases hxv : x = e.to'
          · exfalso
            rw [hxv] at hsp hsc
            rw [hcv] at hsc
            have h1 : t.costs.getD e.to' ⊤ ≤ s.cost := by
              have h0 := hJ.p3 s hs
              rw [hsp] at h0
              exact h0
            rw [hsc] at h1
            rw [hnewb] at hfire
            exact absurd (lt_of_lt_of_le hfire h1) (lt_irrefl _)
          · rw [hcx _ hxv] at hsc
            exact hJ.freshSub x ⟨s, hs, hsp, hsc⟩
      · rw [hcv]
    · -- guard holds but no improvement
      have hEq : relaxNeighbor pos t e = t := relaxNeighbor_noop hfire
      rw [hEq]
      refine ⟨hJ, ?_⟩
      have h1 : t.costs.getD e.to' ⊤ ≤ t.costs.getD pos ⊤ + (e.weight : ℚ) :=
        le_of_not_lt hfire
      rw [hJ.posb] at h1
      exact h1
  · -- the neighbor no longer has a pending entry
    have hEq : relaxNeighbor pos t e = t := by
      unfold relaxNeighbor
      rw [if_neg hg]
    rw [hEq]
    refine ⟨hJ, ?_⟩
    have hnf : ¬ fresh t e.to' := by
      rintro ⟨s, hs, hsp, _⟩
      exact hg (List.any_eq_true.mpr ⟨s, hs, by simpa using hsp⟩)
    rcases hJ.nInv e.to' hvn with hf | ⟨_, hle⟩
    · exact absurd hf hnf
    · exact le_trans hle hbw


end RustyGraphs

namespace RustyGraphs

theorem foldl_relaxNeighbor_foldInv {g : GraphList} {start pos : ℕ} {b : Qi}
    {F : ℕ → Prop} (hwf : WellFormed g)
    (hnn : ∀ e' ∈ g.make_edge_list, 0 ≤ e'.weight) (hpos : pos < g.num_nodes) :
    ∀ (L : List Edge), (∀ e ∈ L, e ∈ (g.getNode pos).get_edge_list) →
      ∀ t, DFoldInv g start pos b F t →
        DFoldInv g start pos b F (L.foldl (relaxNeighbor pos) t) ∧
          ∀ e ∈ L, (L.foldl (relaxNeighbor pos) t).costs.getD e.to' ⊤ ≤
            b + (e.weight : ℚ) := by
  intro L
  induction L with
  | nil =>
    intro _ t hJ
    exact ⟨hJ, fun e he => absurd he (List.not_mem_nil e)⟩
  | cons e L' ih =>
    intro hL t hJ
    rcases relaxNeighbor_foldInv hwf hnn hpos (hL e (List.mem_cons_self _ _)) hJ
      with ⟨hJ1, hbd⟩
    rcases ih (fun e' he' => hL e' (List.mem_cons_of_mem _ he'))
      (relaxNeighbor pos t e) hJ1 with ⟨hJ2, hbds⟩
    rw [List.foldl_cons]
    refine ⟨hJ2, ?_⟩
    intro e' he'
    rcases List.mem_cons.mp he' with rfl | he'
    · exact le_trans (foldl_relaxNeighbor_costs_le pos L' _ e'.to') hbd
    · exact hbds e' he'

/-- The state invariant of the Dijkstra loop for non-negative weights. -/
structure DGInv (g : GraphList) (start : ℕ) (st : DState) : Prop where
  len : st.costs.length = g.num_nodes
  qpos : ∀ s ∈ st.queue, s.position < g.num_nodes
  sound : DSound g start st
  p3 : ∀ s ∈ st.queue, st.costs.getD s.position ⊤ ≤ s.cost
  dist : st.queue.Pairwise (fun a a' => a.position = a'.position → a.cost ≠ a'.cost)
  eInv : ∀ e ∈ g.make_edge_list,
    (st.costs.getD e.to' ⊤ ≤ st.costs.getD e.from' ⊤ + (e.weight : ℚ) ∨
      fresh st e.from')
  nInv : ∀ x, x < g.num_nodes → fresh st x ∨
    ∀ s ∈ st.queue, st.costs.getD x ⊤ ≤ s.cost

theorem stateR_symm :
    Symmetric (fun a a' : State => a.position = a'.position → a.cost ≠ a'.cost) :=
  fun _ _ h hp hc => h hp.symm hc.symm

theorem dstep_DGInv {g : GraphList} {start : ℕ} {st st' : DState}
    (hwf : WellFormed g) (hnn : ∀ e' ∈ g.make_edge_list, 0 ≤ e'.weight)
    (hinv : DGInv g start st) (hstep : dijkstraStep g st = some st') :
    DGInv g start st' ∧ dmeasure g st' + 1 ≤ dmeasure g st := by
  unfold dijkstraStep at hstep
  cases hp : popMax st.queue with
  | none => rw [hp] at hstep; exact Option.noConfusion hstep
  | some pr =>
    rw [hp] at hstep
    rcases pr with ⟨s, rest⟩
    have hst' : st' = ((g.getNode s.position).get_edge_list).foldl
        (relaxNeighbor s.position) { costs := st.costs, queue := rest } :=
      (Option.some.inj hstep).symm
    rcases popMax_spec st.queue s rest hp with ⟨hmem, hmin, hrest⟩
    have hposn : s.position < g.num_nodes := hinv.qpos s hmem
    have hrsub : rest ⊆ st.queue := by rw [hrest]; exact List.erase_subset _ _
    have hrlen : rest.length + 1 = st.queue.length := by
      rw [hrest]
      rw [List.length_erase_of_mem hmem]
      have : 0 < st.queue.length := List.length_pos_of_mem hmem
      omega
    have hperm : st.queue.Perm (s :: rest) := by
      rw [hrest]
      exact List.perm_cons_erase hmem
    have hpair : (s :: rest).Pairwise
        (fun a a' => a.position = a'.position → a.cost ≠ a'.cost) :=
      (hperm.pairwise_iff (fun h hp hc => h hp.symm hc.symm)).mp hinv.dist
    have hDs : ∀ t' ∈ rest, s.position = t'.position → s.cost ≠ t'.cost :=
      (List.pairwise_cons.mp hpair).1
    have hDrest : rest.Pairwise
        (fun a a' => a.position = a'.position → a.cost ≠ a'.cost) :=
      (List.pairwise_cons.mp hpair).2
    have hfreshpos_mem : fresh st s.position → s.position ∈
        (Finset.range g.num_nodes).filter (fun x => fresh st x) := by
      intro hf
      exact Finset.mem_filter.mpr ⟨Finset.mem_range.mpr hposn, hf⟩
    by_cases hfp : s.cost = st.costs.getD s.position ⊤
    · -- fresh pop
      have hb : st.costs.getD s.position ⊤ = s.cost := hfp.symm
      have hJ0 : DFoldInv g start s.position s.cost (fresh st)
          { costs := st.costs, queue := rest } := by
        refine ⟨hinv.len, fun s' hs' => hinv.qpos s' (hrsub hs'),
          hinv.sound, fun s' hs' => hinv.p3 s' (hrsub hs'), hDrest, hb,
          ?_, ?_, ?_⟩
        · intro e he hne
          rcases hinv.eInv e he with hsat | ⟨t', ht', htp, htc⟩
          · exact Or.inl hsat
          · right
            refine ⟨t', ?_, htp, htc⟩
            rw [hrest]
            refine (List.mem_erase_of_ne ?_).mpr ht'
            intro hc
            rw [hc] at htp
            exact hne (htp ▸ rfl)
        · intro x hxn
          by_cases hxp : x = s.position
          · right
            subst hxp
            refine ⟨fun s' hs' => ?_, by rw [hb]⟩
            rw [hb]
            exact (hmin s' (hrsub hs')).1
          · rcases hinv.nInv x hxn with ⟨t', ht', htp, htc⟩ | hall
            · left
              refine ⟨t', ?_, htp, htc⟩
              rw [hrest]
              refine (List.mem_erase_of_ne ?_).mpr ht'
              intro hc
              rw [hc] at htp
              exact hxp htp.symm
            · right
              refine ⟨fun s' hs' => hall s' (hrsub hs'), ?_⟩
              exact hall s hmem
        · intro x hx
          rcases hx with ⟨t', ht', htp, htc⟩
          have hxne : x ≠ s.position := by
            intro hc
            subst hc
            have h1 : s.cost ≠ t'.cost := hDs t' ht' htp.symm
            rw [htc, hb] at h1
            exact h1 rfl
          exact ⟨⟨t', hrsub ht', htp, htc⟩, hxne⟩
      rcases foldl_relaxNeighbor_foldInv hwf hnn hposn
        ((g.getNode s.position).get_edge_list) (fun e he => he) _ hJ0 with ⟨hJf, hbds⟩
      rw [← hst'] at hJf hbds
      constructor
      · refine ⟨hJf.len, hJf.qpos, hJf.sound, hJf.p3, hJf.dist, ?_, ?_⟩
        · intro e he
          by_cases hef : e.from' = s.position
          · left
            have heL : e ∈ (g.getNode s.position).get_edge_list := by
              rw [← hef]
              exact make_mem_node_of_from hwf he
            have h1 := hbds e heL
            rw [hef, hJf.posb]
            exact h1
          · exact hJf.eInv e he hef
        · intro x hxn
          rcases hJf.nInv x hxn with hf | ⟨hall, _⟩
          · exact Or.inl hf
          · exact Or.inr hall
      · -- the measure decreases
        have hql : st'.queue.length ≤ rest.length + outdeg g s.position := by
          rw [hst']
          exact foldl_relaxNeighbor_queue_len _ _ _
        have hfsub : (Finset.range g.num_nodes).filter (fun x => fresh st' x) ⊆
            ((Finset.range g.num_nodes).filter (fun x => fresh st x)).erase
              s.position := by
          intro x hx
          rcases Finset.mem_filter.mp hx with ⟨hxr, hxf⟩
          rcases hJf.freshSub x hxf with ⟨hxF, hxne⟩
          exact Finset.mem_erase.mpr ⟨hxne, Finset.mem_filter.mpr ⟨hxr, hxF⟩⟩
        have hsum : ∑ x ∈ (Finset.range g.num_nodes).filter (fun x => fresh st' x),
            outdeg g x ≤
            ∑ x ∈ ((Finset.range g.num_nodes).filter (fun x => fresh st x)).erase
              s.position, outdeg g x :=
          Finset.sum_le_sum_of_subset hfsub
        have hmemf : s.position ∈
            (Finset.range g.num_nodes).filter (fun x => fresh st x) :=
          hfreshpos_mem ⟨s, hmem, rfl, hfp⟩
        have hsplit : outdeg g s.position +
            ∑ x ∈ ((Finset.range g.num_nodes).filter (fun x => fresh st x)).erase
              s.position, outdeg g x =
            ∑ x ∈ (Finset.range g.num_nodes).filter (fun x => fresh st x),
              outdeg g x :=
          Finset.add_sum_erase _ _ hmemf
        unfold dmeasure
        omega
    · -- stale pop: every edge of the popped node is already satisfied
      have hlt : st.costs.getD s.position ⊤ < s.cost :=
        lt_of_le_of_ne (hinv.p3 s hmem) (fun hc => hfp hc.symm)
      have hnotfresh : ¬ fresh st s.position := by
        rintro ⟨t', ht', htp, htc⟩
        have h1 := (hmin t' ht').1
        rw [htc] at h1
        rw [← htp] at h1
        exact absurd (lt_of_le_of_lt h1 (htp ▸ hlt)) (lt_irrefl _)
      have hnoop : st' = { costs := st.costs, queue := rest } := by
        rw [hst']
        apply foldl_relaxNeighbor_noop
        intro e he hfire
        rcases node_edge_facts hwf hposn he with ⟨hmem', hfrom, _⟩
        rcases hinv.eInv e hmem' with hsat | hfr
        · rw [hfrom] at hsat
          exact absurd hfire (not_lt_of_le hsat)
        · rw [hfrom] at hfr
          exact hnotfresh hfr
      rw [hnoop]
      constructor
      · refine ⟨hinv.len, fun s' hs' => hinv.qpos s' (hrsub hs'), hinv.sound,
          fun s' hs' => hinv.p3 s' (hrsub hs'), hDrest, ?_, ?_⟩
        · intro e he
          rcases hinv.eInv e he with hsat | ⟨t', ht', htp, htc⟩
          · exact Or.inl hsat
          · right
            refine ⟨t', ?_, htp, htc⟩
            rw [hrest]
            refine (List.mem_erase_of_ne ?_).mpr ht'
            intro hc
            apply hnotfresh
            have hpe : s.position = e.from' := by rw [← hc]; exact htp
            refine ⟨t', ht', ?_, ?_⟩
            · rw [htp]; exact hpe.symm
            · rw [htc, hpe]
        · intro x hxn
          rcases hinv.nInv x hxn with ⟨t', ht', htp, htc⟩ | hall
          · left
            refine ⟨t', ?_, htp, htc⟩
            rw [hrest]
            refine (List.mem_erase_of_ne ?_).mpr ht'
            intro hc
            apply hnotfresh
            have hpe : s.position = x := by rw [← hc]; exact htp
            refine ⟨t', ht', ?_, ?_⟩
            · rw [htp]; exact hpe.symm
            · rw [htc, hpe]
          · exact Or.inr (fun s' hs' => hall s' (hrsub hs'))
      · have hfsub : (Finset.range g.num_nodes).filter
            (fun x => fresh { costs := st.costs, queue := rest } x) ⊆
            (Finset.range g.num_nodes).filter (fun x => fresh st x) := by
          intro x hx
          rcases Finset.mem_filter.mp hx with ⟨hxr, t', ht', htp, htc⟩
          exact Finset.mem_filter.mpr ⟨hxr, t', hrsub ht', htp, htc⟩
        have hsum := Finset.sum_le_sum_of_subset (f := outdeg g) hfsub
        have hqr : ({ costs := st.costs, queue := rest } : DState).queue.length =
            rest.length := rfl
        unfold dmeasure
        omega


end RustyGraphs

namespace RustyGraphs

theorem drun_DGInv {g : GraphList} {start : ℕ} (hwf : WellFormed g)
    (hnn : ∀ e' ∈ g.make_edge_list, 0 ≤ e'.weight) :
    ∀ (fuel : ℕ) (st : DState), DGInv g start st → dmeasure g st ≤ fuel →
      DGInv g start (dijkstraRun g fuel st) ∧
        (dijkstraRun g fuel st).queue = [] := by
  intro fuel
  induction fuel with
  | zero =>
    intro st hinv hm
    have hq : st.queue = [] := by
      unfold dmeasure at hm
      cases hql : st.queue with
      | nil => rfl
      | cons a l => rw [hql] at hm; simp at hm
    exact ⟨hinv, hq⟩
  | succ m ih =>
    intro st hinv hm
    cases hstep : dijkstraStep g st with
    | none =>
      have hrun : dijkstraRun g (m + 1) st = st := by
        show (match dijkstraStep g st with
          | none => st
          | some st2 => dijkstraRun g m st2) = st
        rw [hstep]
      have hq : st.queue = [] := by
        unfold dijkstraStep at hstep
        cases hql : st.queue with
        | nil => rfl
        | cons a l => rw [hql] at hstep; simp [popMax] at hstep
      rw [hrun]
      exact ⟨hinv, hq⟩
    | some st' =>
      have hrun : dijkstraRun g (m + 1) st = dijkstraRun g m st' := by
        show (match dijkstraStep g st with
          | none => st
          | some st2 => dijkstraRun g m st2) = dijkstraRun g m st'
        rw [hstep]
      rw [hrun]
      rcases dstep_DGInv hwf hnn hinv hstep with ⟨hinv', hm'⟩
      exact ih st' hinv' (by omega)


/-! ## The Dijkstra loop terminates with an empty queue: initial invariant
and measure bound. -/

theorem fresh_init {g : GraphList} {start : ℕ} (hstart : start < g.num_nodes) :
    ∀ x, x < g.num_nodes → fresh (dijkstraInit g start) x := by
  have hcd : (dijkstraInit g start).costs =
      (List.replicate g.num_nodes (⊤ : Qi)).set start 0 := rfl
  intro x hx
  by_cases hxs : x = start
  · subst hxs
    refine ⟨{ cost := 0, position := x }, List.mem_cons_self _ _, rfl, ?_⟩
    show (0 : Qi) = (dijkstraInit g x).costs.getD x ⊤
    rw [hcd, getD_set_self (by simpa using hx)]
  · refine ⟨{ cost := ⊤, position := x }, ?_, rfl, ?_⟩
    · refine List.mem_cons_of_mem _ (List.mem_map.mpr ⟨x, ?_, rfl⟩)
      exact List.mem_filter.mpr ⟨List.mem_range.mpr hx, by simpa using hxs⟩
    · show (⊤ : Qi) = (dijkstraInit g start).costs.getD x ⊤
      rw [hcd, getD_set_ne _ (fun hc => hxs hc.symm), getD_replicate hx]

theorem dinit_DGInv {g : GraphList} {start : ℕ} (hwf : WellFormed g)
    (hstart : start < g.num_nodes) : DGInv g start (dijkstraInit g start) := by
  have hqd : (dijkstraInit g start).queue =
      { cost := 0, position := start } ::
        ((List.range g.num_nodes).filter (fun i => i ≠ start)).map
          (fun i => { cost := (⊤ : Qi), position := i }) := rfl
  have hcd : (dijkstraInit g start).costs =
      (List.replicate g.num_nodes (⊤ : Qi)).set start 0 := rfl
  refine ⟨?_, ?_, dinit_sound g start, ?_, ?_, ?_, ?_⟩
  · rw [hcd, List.length_set, List.length_replicate]
  · intro s hs
    rw [hqd] at hs
    rcases List.mem_cons.mp hs with rfl | hs
    · exact hstart
    · rcases List.mem_map.mp hs with ⟨i, hi, rfl⟩
      exact List.mem_range.mp (List.mem_filter.mp hi).1
  · intro s hs
    rw [hqd] at hs
    rcases List.mem_cons.mp hs with rfl | hs
    · show (dijkstraInit g start).costs.getD start ⊤ ≤ (0 : Qi)
      rw [hcd, getD_set_self (by simpa using hstart)]
    · rcases List.mem_map.mp hs with ⟨i, hi, rfl⟩
      exact le_top
  · rw [hqd]
    constructor
    · intro s hs
      rcases List.mem_map.mp hs with ⟨i, hi, rfl⟩
      intro hp
      exfalso
      have hne : i ≠ start := by simpa using (List.mem_filter.mp hi).2
      exact hne hp.symm
    · have hnd2 : ((List.range g.num_nodes).filter
          (fun i => i ≠ start)).Pairwise (fun a b => a ≠ b) :=
        (List.nodup_range g.num_nodes).filter _
      exact hnd2.map _ (fun a b hab hp => absurd hp hab)
  · intro e he
    exact Or.inr (fresh_init hstart e.from' (wf_edge_mem_bounds hwf e he).1)
  · intro x hx
    exact Or.inl (fresh_init hstart x hx)

theorem length_filter_ne {l : List ℕ} {a : ℕ} (hnd : l.Nodup) (ha : a ∈ l) :
    (l.filter (fun i => i ≠ a)).length + 1 = l.length := by
  induction l with
  | nil => simp at ha
  | cons x xs ih =>
    rcases List.nodup_cons.mp hnd with ⟨hnx, hndxs⟩
    rcases List.mem_cons.mp ha with rfl | ha'
    · rw [List.filter_cons, if_neg (by simp)]
      have hself : xs.filter (fun i => i ≠ a) = xs := by
        refine List.filter_eq_self.mpr ?_
        intro b hb
        simp only [decide_eq_true_eq]
        intro hc
        exact hnx (hc ▸ hb)
      rw [hself]
      simp
    · have hxa : x ≠ a := fun hc => hnx (hc ▸ ha')
      rw [List.filter_cons, if_pos (by simpa using hxa)]
      have := ih hndxs ha'
      simp only [List.length_cons]
      omega

theorem dinit_queue_length {g : GraphList} {start : ℕ}
    (hstart : start < g.num_nodes) :
    (dijkstraInit g start).queue.length = g.num_nodes := by
  have hqd : (dijkstraInit g start).queue =
      { cost := 0, position := start } ::
        ((List.range g.num_nodes).filter (fun i => i ≠ start)).map
          (fun i => { cost := (⊤ : Qi), position := i }) := rfl
  rw [hqd, List.length_cons, List.length_map]
  have := length_filter_ne (List.nodup_range (n := g.num_nodes))
    (List.mem_range.mpr hstart)
  rw [List.length_range] at this
  omega

theorem sum_getD_map {α : Type} (f : α → ℕ) (d : α) :
    ∀ l : List α, (l.map f).sum = ∑ x ∈ Finset.range l.length, f (l.getD x d) := by
  intro l
  induction l with
  | nil => simp
  | cons a l ih =>
    rw [List.map_cons, List.sum_cons, List.length_cons, Finset.sum_range_succ']
    simp only [List.getD_cons_succ, List.getD_cons_zero]
    rw [ih]
    omega

theorem sum_outdeg (g : GraphList) :
    ∑ x ∈ Finset.range g.num_nodes, outdeg g x = g.make_edge_list.length := by
  show _ = (g.nodes.flatMap Node.get_edge_list).length
  rw [List.length_flatMap]
  rw [sum_getD_map (List.length ∘ Node.get_edge_list) default g.nodes]
  rfl

theorem dmeasure_init_le {g : GraphList} {start : ℕ}
    (hstart : start < g.num_nodes) :
    dmeasure g (dijkstraInit g start) ≤ dijkstraFuel g := by
  unfold dmeasure dijkstraFuel
  have hq := dinit_queue_length (g := g) hstart
  have hs : ∑ x ∈ (Finset.range g.num_nodes).filter
      (fun x => fresh (dijkstraInit g start) x), outdeg g x ≤
      ∑ x ∈ Finset.range g.num_nodes, outdeg g x :=
    Finset.sum_le_sum_of_subset (Finset.filter_subset _ _)
  rw [sum_outdeg] at hs
  omega

/-- With an empty final queue no node is fresh, so no edge of the graph
still improves on the Dijkstra distances. -/
theorem dijkstra_noImp {g : GraphList} {start : ℕ} (hwf : WellFormed g)
    (hstart : start < g.num_nodes)
    (hnn : ∀ e ∈ g.make_edge_list, 0 ≤ e.weight) :
    BFNoImp g (dijkstra g start) := by
  intro e he
  rcases drun_DGInv hwf hnn (dijkstraFuel g) (dijkstraInit g start)
      (dinit_DGInv hwf hstart) (dmeasure_init_le hstart) with ⟨hinv, hq⟩
  rcases hinv.eInv e he with h | hfr
  · exact h
  · exfalso
    rcases hfr with ⟨s, hs, _, _⟩
    rw [hq] at hs
    exact List.not_mem_nil s hs

theorem dijkstra_sound {g : GraphList} {start : ℕ} (hwf : WellFormed g)
    (hstart : start < g.num_nodes)
    (hnn : ∀ e ∈ g.make_edge_list, 0 ≤ e.weight) :
    ∀ v, (dijkstra g start).getD v ⊤ = ⊤ ∨
      ∃ es, IsWalk g start es v ∧
        (dijkstra g start).getD v ⊤ = ((walkWeight es : ℚ) : Qi) := by
  intro v
  exact (drun_DGInv hwf hnn (dijkstraFuel g) (dijkstraInit g start)
    (dinit_DGInv hwf hstart) (dmeasure_init_le hstart)).1.sound v

/-- On non-negative weights, the Dijkstra distances equal the Bellman-Ford
fixed point: both sides are sound (every finite entry is a walk weight) and
neither admits an improving edge, so the telescoping bound closes the
antisymmetry. -/
theorem dijkstra_eq_bfFinal {g : GraphList} {start : ℕ} (hwf : WellFormed g)
    (hstart : start < g.num_nodes)
    (hnn : ∀ e ∈ g.make_edge_list, 0 ≤ e.weight) :
    dijkstra g start = bfFinal g start := by
  have hnc : ¬ NegCycleReachable g start := no_negcycle_of_nonneg hnn
  have hni : BFNoImp g (dijkstra g start) := dijkstra_noImp hwf hstart hnn
  have hd0 : (dijkstra g start).getD start ⊤ = 0 := dijkstra_start_zero g start hstart
  refine list_eq_of_getD ?_ ?_
  · rw [dijkstra_length, length_bfFinal]
  · intro v
    refine le_antisymm ?_ ?_
    · rcases bfSound_bfFinal g start v with htop | ⟨es, hw, hval⟩
      · rw [htop]
        exact le_top
      · have htel := bf_telescope hni hw
        rw [hd0, zero_add] at htel
        rw [hval]
        exact htel
    · rcases dijkstra_sound hwf hstart hnn v with htop | ⟨es, hw, hval⟩
      · rw [htop]
        exact le_top
      · rcases walk_shorten hwf hstart es.length es v (le_refl _) hw with
          ⟨es', hw', hlen', hwt'⟩
        have hcomp := bf_completeness hwf hstart (g.num_nodes - 1) es' v hw' hlen'
        rw [hval]
        refine le_trans hcomp ?_
        exact_mod_cast hwt' hnc

/-- C2: for every well-formed graph whose edge weights are all non-negative
and every valid start index, `bellman_ford` returns `Some` of exactly the
distance vector computed by `dijkstra`. -/
theorem c2_dijkstra_bellman_ford_equiv (g : GraphList) (start : ℕ)
    (hwf : WellFormed g) (hstart : start < g.num_nodes)
    (hnn : ∀ e ∈ g.make_edge_list, 0 ≤ e.weight) :
    bellman_ford g start = some (dijkstra g start) := by
  rw [dijkstra_eq_bfFinal hwf hstart hnn]
  exact bellman_ford_eq_some_of_noImp
    (bf_noImp_of_no_negcycle hwf hstart (no_negcycle_of_nonneg hnn))

/-- C2 witness: the claim's concrete scenario, the directed graph with edges
(0,1,4), (0,2,1), (1,3,1), (2,1,2), (2,3,5); both algorithms from node 0
give [0, 3, 1, 4]. -/
theorem c2_witness :
    (WellFormed gBasic ∧ 0 < gBasic.num_nodes ∧
        ∀ e ∈ gBasic.make_edge_list, 0 ≤ e.weight) ∧
      bellman_ford gBasic 0 = some (dijkstra gBasic 0) ∧
      dijkstra gBasic 0 = [0, 3, 1, 4] :=
  ⟨⟨by decide, by decide, by with_unfolding_all decide⟩,
    c2_dijkstra_bellman_ford_equiv gBasic 0 (by decide) (by decide)
      (by with_unfolding_all decide),
    by with_unfolding_all decide⟩


/-! ## C9: checked variants of the algorithms

Every `Vec` index of the source (`seen[i]`, `last[i]`, `g.nodes[i]`,
`cost[i]`, `cost[i][j]`) panics in Rust when out of range, and
`floyd_warshall` additionally calls `get_edge(i, j).unwrap()`.  The checked
variants below model every such access in the error monad; the safety claim
is that on a well-formed graph with a valid start they all return `ok` of
the plain result. -/

def vGet {α : Type} (l : List α) (i : ℕ) : Except String α :=
  match l[i]? with
  | some a => Except.ok a
  | none => Except.error "index out of range"

def vSet {α : Type} (l : List α) (i : ℕ) (a : α) : Except String (List α) :=
  if i < l.length then Except.ok (l.set i a) else Except.error "index out of range"

/-- `m[i][j]`, checked. -/
def mgetC {α : Type} (m : List (List α)) (i j : ℕ) : Except String α := do
  let row ← vGet m i
  vGet row j

/-- `m[i][j] = v`, checked. -/
def msetC {α : Type} (m : List (List α)) (i j : ℕ) (v : α) :
    Except String (List (List α)) := do
  let row ← vGet m i
  let row' ← vSet row j v
  vSet m i row'

theorem getElem?_of_lt {α : Type} {l : List α} {i : ℕ} (d : α)
    (h : i < l.length) : l[i]? = some (l.getD i d) := by
  induction l generalizing i with
  | nil => simp at h
  | cons x xs ih =>
    cases i with
    | zero => rw [List.getElem?_cons_zero, List.getD_cons_zero]
    | succ m =>
      rw [List.getElem?_cons_succ, ih (by simpa using h), List.getD_cons_succ]

theorem vGet_ok {α : Type} {l : List α} {i : ℕ} (d : α) (h : i < l.length) :
    vGet l i = Except.ok (l.getD i d) := by
  unfold vGet
  rw [getElem?_of_lt d h]

theorem vSet_ok {α : Type} {l : List α} {i : ℕ} {a : α} (h : i < l.length) :
    vSet l i a = Except.ok (l.set i a) := by
  unfold vSet
  rw [if_pos h]

theorem ok_bind {α β : Type} (a : α) (k : α → Except String β) :
    (Except.ok a : Except String α) >>= k = k a := rfl

theorem pure_eq_ok {α : Type} (a : α) : (pure a : Except String α) = Except.ok a := rfl

theorem getD_mem {α : Type} {l : List α} {i : ℕ} (d : α) (h : i < l.length) :
    l.getD i d ∈ l :=
  List.getElem?_mem (getElem?_of_lt d h)

/-- A checked fold equals `ok` of the plain fold whenever each step does,
and the step preserves the invariant `P`. -/
theorem foldlM_eq_foldl {α β : Type} {f : β → α → Except String β}
    {g : β → α → β} (P : β → Prop) :
    ∀ (L : List α) (b : β), P b →
      (∀ b' a, P b' → a ∈ L → f b' a = Except.ok (g b' a) ∧ P (g b' a)) →
      L.foldlM f b = Except.ok (L.foldl g b) ∧ P (L.foldl g b) := by
  intro L
  induction L with
  | nil =>
    intro b hb _
    exact ⟨rfl, hb⟩
  | cons a L ih =>
    intro b hb hstep
    rcases hstep b a hb (List.mem_cons_self _ _) with ⟨hf, hp⟩
    rcases ih (g b a) hp
      (fun b' a' hb' ha' => hstep b' a' hb' (List.mem_cons_of_mem _ ha')) with ⟨h1, h2⟩
    rw [List.foldl_cons]
    refine ⟨?_, h2⟩
    rw [List.foldlM_cons, hf, ok_bind]
    exact h1

theorem mem_sortByKey {l : List (ℕ × Edge)} {p : ℕ × Edge}
    (h : p ∈ sortByKey l) : p ∈ l := by
  induction l with
  | nil => exact h
  | cons q rest ih =>
    rcases mem_insertByKey h with rfl | h'
    · exact List.mem_cons_self _ _
    · exact List.mem_cons_of_mem _ (ih h')

theorem mem_ordered_edge_list {nd : Node} {e : Edge}
    (h : e ∈ nd.get_ordered_edge_list) : e ∈ nd.get_edge_list := by
  unfold Node.get_ordered_edge_list at h
  rcases List.mem_map.mp h with ⟨p, hp, rfl⟩
  exact List.mem_map.mpr ⟨p, mem_sortByKey hp, rfl⟩

theorem set_row_inv {α : Type} (m : List (List α)) (n i j : ℕ) (v : α)
    (hlen : m.length = n) (hrows : ∀ r ∈ m, r.length = n) (hi : i < n) :
    (m.set i ((m.getD i []).set j v)).length = n ∧
      ∀ r ∈ m.set i ((m.getD i []).set j v), r.length = n := by
  constructor
  · rw [List.length_set]
    exact hlen
  · intro r hr
    rcases List.mem_or_eq_of_mem_set hr with hr' | rfl
    · exact hrows r hr'
    · rw [List.length_set]
      exact hrows _ (getD_mem [] (by omega))

theorem mgetC_ok {α : Type} {m : List (List α)} {n i j : ℕ} (d : α)
    (hlen : m.length = n) (hrows : ∀ r ∈ m, r.length = n)
    (hi : i < n) (hj : j < n) :
    mgetC m i j = Except.ok ((m.getD i []).getD j d) := by
  unfold mgetC
  rw [vGet_ok [] (by omega), ok_bind,
    vGet_ok d (by rw [hrows _ (getD_mem [] (by omega))]; exact hj)]

theorem msetC_ok {α : Type} {m : List (List α)} {n i j : ℕ} {v : α}
    (hlen : m.length = n) (hrows : ∀ r ∈ m, r.length = n)
    (hi : i < n) (hj : j < n) :
    msetC m i j v = Except.ok (m.set i ((m.getD i []).set j v)) := by
  unfold msetC
  rw [vGet_ok [] (by omega), ok_bind,
    vSet_ok (by rw [hrows _ (getD_mem [] (by omega))]; exact hj), ok_bind,
    vSet_ok (by omega)]


/-- `bfs` with every index access checked. -/
def bfsVisitC (next : ℕ) (st : BState) (e : Edge) : Except String BState := do
  let sn ← vGet st.seen e.to'
  if !sn then do
    let seen' ← vSet st.seen e.to' true
    let last' ← vSet st.last e.to' (Int.ofNat next)
    pure { seen := seen', last := last', pending := st.pending ++ [e.to'] }
  else pure st

def bfsAuxC (g : GraphList) : ℕ → BState → Except String (List Int)
  | 0, st => Except.ok st.last
  | fuel + 1, st =>
      match st.pending with
      | [] => Except.ok st.last
      | next :: rest => do
          let nd ← vGet g.nodes next
          let st' ← nd.get_edge_list.foldlM (bfsVisitC next) { st with pending := rest }
          bfsAuxC g fuel st'

def bfsC (g : GraphList) (start : ℕ) : Except String (List Int) := do
  let seen0 ← vSet (List.replicate g.num_nodes false) start true
  bfsAuxC g (g.num_nodes + g.make_edge_list.length + 1)
    { seen := seen0, last := List.replicate g.num_nodes (-1), pending := [start] }

/-- BFS loop invariant: vectors have length `n`, every queued index is in
range. -/
def BInv (n : ℕ) (st : BState) : Prop :=
  st.seen.length = n ∧ st.last.length = n ∧ ∀ p ∈ st.pending, p < n

theorem bfsVisitC_eq {g : GraphList} (hwf : WellFormed g) {next : ℕ}
    (hnext : next < g.num_nodes) {st : BState} (hP : BInv g.num_nodes st)
    {e : Edge} (he : e ∈ (g.getNode next).get_edge_list) :
    bfsVisitC next st e = Except.ok (bfsVisit next st e) ∧
      BInv g.num_nodes (bfsVisit next st e) := by
  rcases hP with ⟨hseen, hlast, hpend⟩
  have hto : e.to' < g.num_nodes := (node_edge_facts hwf hnext he).2.2
  have h1 : vGet st.seen e.to' = Except.ok (st.seen.getD e.to' false) :=
    vGet_ok false (by omega)
  by_cases hb : (!(st.seen.getD e.to' false)) = true
  · have hEq : bfsVisit next st e =
        { seen := st.seen.set e.to' true,
          last := st.last.set e.to' (Int.ofNat next),
          pending := st.pending ++ [e.to'] } := by
      unfold bfsVisit
      rw [if_pos hb]
    rw [hEq]
    have h2 : vSet st.seen e.to' true = Except.ok (st.seen.set e.to' true) :=
      vSet_ok (by omega)
    have h3 : vSet st.last e.to' (Int.ofNat next) =
        Except.ok (st.last.set e.to' (Int.ofNat next)) := vSet_ok (by omega)
    constructor
    · simp only [bfsVisitC, h1, ok_bind, if_pos hb, h2, h3, pure_eq_ok]
    · refine ⟨?_, ?_, ?_⟩
      · rw [List.length_set]
        exact hseen
      · rw [List.length_set]
        exact hlast
      · intro p hp
        rcases List.mem_append.mp hp with hp' | hp'
        · exact hpend p hp'
        · rw [List.mem_singleton] at hp'
          rw [hp']
          exact hto
  · have hEq : bfsVisit next st e = st := by
      unfold bfsVisit
      rw [if_neg hb]
    rw [hEq]
    constructor
    · simp only [bfsVisitC, h1, ok_bind, if_neg hb, pure_eq_ok]
    · exact ⟨hseen, hlast, hpend⟩

theorem bfsAuxC_eq {g : GraphList} (hwf : WellFormed g) :
    ∀ fuel st, BInv g.num_nodes st →
      bfsAuxC g fuel st = Except.ok (bfsAux g fuel st) := by
  intro fuel
  induction fuel with
  | zero => intro st _; rfl
  | succ m ih =>
    intro st hP
    cases hpend : st.pending with
    | nil => simp only [bfsAuxC, bfsAux, hpend]
    | cons next rest =>
      have hnext : next < g.num_nodes :=
        hP.2.2 next (by rw [hpend]; exact List.mem_cons_self _ _)
      have h1 : vGet g.nodes next = Except.ok (g.getNode next) :=
        vGet_ok default hnext
      have hPrest : BInv g.num_nodes { st with pending := rest } :=
        ⟨hP.1, hP.2.1,
          fun p hp => hP.2.2 p (by rw [hpend]; exact List.mem_cons_of_mem _ hp)⟩
      rcases foldlM_eq_foldl (BInv g.num_nodes) ((g.getNode next).get_edge_list)
          ({ st with pending := rest }) hPrest
          (fun b' a hb' ha => bfsVisitC_eq hwf hnext hb' ha) with ⟨hfold, hP'⟩
      simp only [bfsAuxC, bfsAux, hpend, h1, ok_bind, hfold]
      exact ih _ hP'

theorem bfsC_eq {g : GraphList} {start : ℕ} (hwf : WellFormed g)
    (hstart : start < g.num_nodes) : bfsC g start = Except.ok (bfs g start) := by
  have h0 : vSet (List.replicate g.num_nodes false) start true =
      Except.ok ((List.replicate g.num_nodes false).set start true) :=
    vSet_ok (by rw [List.length_replicate]; exact hstart)
  have hP : BInv g.num_nodes
      { seen := (List.replicate g.num_nodes false).set start true,
        last := List.replicate g.num_nodes (-1), pending := [start] } := by
    refine ⟨?_, ?_, ?_⟩
    · rw [List.length_set, List.length_replicate]
    · rw [List.length_replicate]
    · intro p hp
      rw [List.mem_singleton] at hp
      rw [hp]
      exact hstart
  simp only [bfsC, bfs, h0, ok_bind]
  exact bfsAuxC_eq hwf _ _ hP


/-- `dfs_recursive` with every index access checked. -/
def dfs_recursiveC (g : GraphList) : ℕ → ℕ → List Bool → Except String (List Bool)
  | 0, _, seen => Except.ok seen
  | fuel + 1, ind, seen => do
      let seen1 ← vSet seen ind true
      let nd ← vGet g.nodes ind
      nd.get_edge_list.foldlM
        (fun sn e => do
          let b ← vGet sn e.to'
          if !b then dfs_recursiveC g fuel e.to' sn else pure sn)
        seen1

def dfsC (g : GraphList) (start : ℕ) : Except String (List Bool) :=
  dfs_recursiveC g (g.num_nodes + 1) start (List.replicate g.num_nodes false)

theorem dfs_recursiveC_eq {g : GraphList} (hwf : WellFormed g) :
    ∀ fuel ind seen, ind < g.num_nodes → seen.length = g.num_nodes →
      dfs_recursiveC g fuel ind seen = Except.ok (dfs_recursive g fuel ind seen) ∧
        (dfs_recursive g fuel ind seen).length = g.num_nodes := by
  intro fuel
  induction fuel with
  | zero =>
    intro ind seen _ hl
    exact ⟨rfl, hl⟩
  | succ m ih =>
    intro ind seen hind hlen
    have h0 : vSet seen ind true = Except.ok (seen.set ind true) :=
      vSet_ok (by omega)
    have h1 : vGet g.nodes ind = Except.ok (g.getNode ind) :=
      vGet_ok default hind
    have hstep : ∀ (sn : List Bool) (e : Edge), sn.length = g.num_nodes →
        e ∈ (g.getNode ind).get_edge_list →
        (do
          let b ← vGet sn e.to'
          if !b then dfs_recursiveC g m e.to' sn else pure sn) =
          Except.ok (if !(sn.getD e.to' false) then dfs_recursive g m e.to' sn
            else sn) ∧
          (if !(sn.getD e.to' false) then dfs_recursive g m e.to' sn
            else sn).length = g.num_nodes := by
      intro sn e hsn he
      have hto : e.to' < g.num_nodes := (node_edge_facts hwf hind he).2.2
      have h2 : vGet sn e.to' = Except.ok (sn.getD e.to' false) :=
        vGet_ok false (by omega)
      by_cases hb : (!(sn.getD e.to' false)) = true
      · rcases ih e.to' sn hto hsn with ⟨hrec, hreclen⟩
        constructor
        · simp only [h2, ok_bind, if_pos hb, hrec]
        · rw [if_pos hb]
          exact hreclen
      · constructor
        · simp only [h2, ok_bind, if_neg hb, pure_eq_ok]
        · rw [if_neg hb]
          exact hsn
    rcases foldlM_eq_foldl (fun sn : List Bool => sn.length = g.num_nodes)
        ((g.getNode ind).get_edge_list) (seen.set ind true)
        (show (seen.set ind true).length = g.num_nodes by
          rw [List.length_set]; exact hlen)
        hstep with ⟨hfold, hlen'⟩
    constructor
    · simp only [dfs_recursiveC, dfs_recursive, h0, ok_bind, h1, hfold]
    · simp only [dfs_recursive]
      exact hlen'

theorem dfsC_eq {g : GraphList} {start : ℕ} (hwf : WellFormed g)
    (hstart : start < g.num_nodes) : dfsC g start = Except.ok (dfs g start) :=
  (dfs_recursiveC_eq hwf (g.num_nodes + 1) start (List.replicate g.num_nodes false)
    hstart (by rw [List.length_replicate])).1

/-- `dfs_stack` with every index access checked. -/
def dfsPushC (ind : ℕ) (st : SState) (e : Edge) : Except String SState := do
  let b ← vGet st.seen e.to'
  if !b then do
    let last' ← vSet st.last e.to' (Int.ofNat ind)
    pure { st with last := last', to_explore := e.to' :: st.to_explore }
  else pure st

def dfsStackAuxC (g : GraphList) : ℕ → SState → Except String (List Int)
  | 0, st => Except.ok st.last
  | fuel + 1, st =>
      match st.to_explore with
      | [] => Except.ok st.last
      | ind :: rest => do
          let b ← vGet st.seen ind
          if b then dfsStackAuxC g fuel { st with to_explore := rest }
          else do
            let nd ← vGet g.nodes ind
            let seen1 ← vSet st.seen ind true
            let st' ← nd.get_ordered_edge_list.reverse.foldlM (dfsPushC ind)
              { seen := seen1, last := st.last, to_explore := rest }
            dfsStackAuxC g fuel st'

def dfs_stackC (g : GraphList) (start : ℕ) : Except String (List Int) :=
  dfsStackAuxC g (g.num_nodes + g.make_edge_list.length + 1)
    { seen := List.replicate g.num_nodes false,
      last := List.replicate g.num_nodes (-1),
      to_explore := [start] }

/-- Stack-DFS loop invariant. -/
def SInv (n : ℕ) (st : SState) : Prop :=
  st.seen.length = n ∧ st.last.length = n ∧ ∀ p ∈ st.to_explore, p < n

theorem dfsPushC_eq {g : GraphList} (hwf : WellFormed g) {ind : ℕ}
    (hind : ind < g.num_nodes) {st : SState} (hP : SInv g.num_nodes st)
    {e : Edge} (he : e ∈ (g.getNode ind).get_ordered_edge_list.reverse) :
    dfsPushC ind st e = Except.ok (dfsPush ind st e) ∧
      SInv g.num_nodes (dfsPush ind st e) := by
  rcases hP with ⟨hseen, hlast, hexp⟩
  have hto : e.to' < g.num_nodes :=
    (node_edge_facts hwf hind (mem_ordered_edge_list (List.mem_reverse.mp he))).2.2
  have h1 : vGet st.seen e.to' = Except.ok (st.seen.getD e.to' false) :=
    vGet_ok false (by omega)
  by_cases hb : (!(st.seen.getD e.to' false)) = true
  · have hEq : dfsPush ind st e =
        { st with last := st.last.set e.to' (Int.ofNat ind),
                  to_explore := e.to' :: st.to_explore } := by
      unfold dfsPush
      rw [if_pos hb]
    rw [hEq]
    have h2 : vSet st.last e.to' (Int.ofNat ind) =
        Except.ok (st.last.set e.to' (Int.ofNat ind)) := vSet_ok (by omega)
    constructor
    · simp only [dfsPushC, h1, ok_bind, if_pos hb, h2, pure_eq_ok]
    · refine ⟨hseen, ?_, ?_⟩
      · rw [List.length_set]
        exact hlast
      · intro p hp
        rcases List.mem_cons.mp hp with rfl | hp'
        · exact hto
        · exact hexp p hp'
  · have hEq : dfsPush ind st e = st := by
      unfold dfsPush
      rw [if_neg hb]
    rw [hEq]
    constructor
    · simp only [dfsPushC, h1, ok_bind, if_neg hb, pure_eq_ok]
    · exact ⟨hseen, hlast, hexp⟩

theorem dfsStackAuxC_eq {g : GraphList} (hwf : WellFormed g) :
    ∀ fuel st, SInv g.num_nodes st →
      dfsStackAuxC g fuel st = Except.ok (dfsStackAux g fuel st) := by
  intro fuel
  induction fuel with
  | zero => intro st _; rfl
  | succ m ih =>
    intro st hP
    cases hexp : st.to_explore with
    | nil => simp only [dfsStackAuxC, dfsStackAux, hexp]
    | cons ind rest =>
      have hind : ind < g.num_nodes :=
        hP.2.2 ind (by rw [hexp]; exact List.mem_cons_self _ _)
      have h1 : vGet st.seen ind = Except.ok (st.seen.getD ind false) :=
        vGet_ok false (by rw [hP.1]; exact hind)
      by_cases hb : (st.seen.getD ind false) = true
      · have hPrest : SInv g.num_nodes { st with to_explore := rest } :=
          ⟨hP.1, hP.2.1,
            fun p hp => hP.2.2 p (by rw [hexp]; exact List.mem_cons_of_mem _ hp)⟩
        simp only [dfsStackAuxC, dfsStackAux, hexp, h1, ok_bind, if_pos hb]
        exact ih _ hPrest
      · have h2 : vGet g.nodes ind = Except.ok (g.getNode ind) :=
          vGet_ok default hind
        have h3 : vSet st.seen ind true = Except.ok (st.seen.set ind true) :=
          vSet_ok (by rw [hP.1]; exact hind)
        have hPnext : SInv g.num_nodes
            { seen := st.seen.set ind true, last := st.last, to_explore := rest } := by
          refine ⟨?_, hP.2.1, ?_⟩
          · rw [List.length_set]
            exact hP.1
          · intro p hp
            exact hP.2.2 p (by rw [hexp]; exact List.mem_cons_of_mem _ hp)
        rcases foldlM_eq_foldl (SInv g.num_nodes)
            ((g.getNode ind).get_ordered_edge_list.reverse)
            ({ seen := st.seen.set ind true, last := st.last, to_explore := rest })
            hPnext (fun b' a hb' ha => dfsPushC_eq hwf hind hb' ha)
          with ⟨hfold, hP'⟩
        simp only [dfsStackAuxC, dfsStackAux, hexp, h1, ok_bind, if_neg hb, h2, h3,
          hfold]
        exact ih _ hP'

theorem dfs_stackC_eq {g : GraphList} {start : ℕ} (hwf : WellFormed g)
    (hstart : start < g.num_nodes) :
    dfs_stackC g start = Except.ok (dfs_stack g start) := by
  have hP : SInv g.num_nodes
      { seen := List.replicate g.num_nodes false,
        last := List.replicate g.num_nodes (-1), to_explore := [start] } := by
    refine ⟨?_, ?_, ?_⟩
    · rw [List.length_replicate]
    · rw [List.length_replicate]
    · intro p hp
      rw [List.mem_singleton] at hp
      rw [hp]
      exact hstart
  exact dfsStackAuxC_eq hwf _ _ hP


/-- `dijkstra` with every index access checked. -/
def relaxNeighborC (position : ℕ) (st : DState) (e : Edge) : Except String DState :=
  if st.queue.any (fun s => s.position = e.to') then do
    let cp ← vGet st.costs position
    let cn ← vGet st.costs e.to'
    if cp + (e.weight : ℚ) < cn then do
      let costs' ← vSet st.costs e.to' (cp + (e.weight : ℚ))
      pure { costs := costs',
             queue := { cost := cp + (e.weight : ℚ), position := e.to' } :: st.queue }
    else pure st
  else pure st

def dijkstraRunC (g : GraphList) : ℕ → DState → Except String DState
  | 0, st => Except.ok st
  | fuel + 1, st =>
      match popMax st.queue with
      | none => Except.ok st
      | some (s, rest) => do
          let nd ← vGet g.nodes s.position
          let st' ← nd.get_edge_list.foldlM (relaxNeighborC s.position)
            { costs := st.costs, queue := rest }
          dijkstraRunC g fuel st'

def dijkstraC (g : GraphList) (start : ℕ) : Except String (List Qi) := do
  let costs0 ← vSet (List.replicate g.num_nodes (⊤ : Qi)) start 0
  let final ← dijkstraRunC g (dijkstraFuel g)
    { costs := costs0,
      queue := { cost := 0, position := start } ::
        ((List.range g.num_nodes).filter (fun i => i ≠ start)).map
          (fun i => { cost := (⊤ : Qi), position := i }) }
  pure final.costs

/-- Dijkstra loop invariant for the safety claim: the cost vector has length
`n` and every pending position is in range. -/
def QInv (n : ℕ) (st : DState) : Prop :=
  st.costs.length = n ∧ ∀ s ∈ st.queue, s.position < n

theorem relaxNeighborC_eq {g : GraphList} (hwf : WellFormed g) {pos : ℕ}
    (hpos : pos < g.num_nodes) {st : DState} (hP : QInv g.num_nodes st)
    {e : Edge} (he : e ∈ (g.getNode pos).get_edge_list) :
    relaxNeighborC pos st e = Except.ok (relaxNeighbor pos st e) ∧
      QInv g.num_nodes (relaxNeighbor pos st e) := by
  rcases hP with ⟨hlen, hq⟩
  have hto : e.to' < g.num_nodes := (node_edge_facts hwf hpos he).2.2
  have h1 : vGet st.costs pos = Except.ok (st.costs.getD pos ⊤) :=
    vGet_ok ⊤ (by omega)
  have h2 : vGet st.costs e.to' = Except.ok (st.costs.getD e.to' ⊤) :=
    vGet_ok ⊤ (by omega)
  by_cases hg : (st.queue.any fun s => decide (s.position = e.to')) = true
  · by_cases hfire : st.costs.getD pos ⊤ + ((e.weight : ℚ) : Qi) <
        st.costs.getD e.to' ⊤
    · have hEq : relaxNeighbor pos st e =
          { costs := st.costs.set e.to' (st.costs.getD pos ⊤ + (e.weight : ℚ)),
            queue := { cost := st.costs.getD pos ⊤ + (e.weight : ℚ),
                       position := e.to' } :: st.queue } := by
        unfold relaxNeighbor
        rw [if_pos hg, if_pos hfire]
      rw [hEq]
      have h3 : vSet st.costs e.to' (st.costs.getD pos ⊤ + ((e.weight : ℚ) : Qi)) =
          Except.ok (st.costs.set e.to'
            (st.costs.getD pos ⊤ + ((e.weight : ℚ) : Qi))) := vSet_ok (by omega)
      constructor
      · simp only [relaxNeighborC, if_pos hg, h1, ok_bind, h2, if_pos hfire, h3,
          pure_eq_ok]
      · refine ⟨?_, ?_⟩
        · rw [List.length_set]
          exact hlen
        · intro s hs
          rcases List.mem_cons.mp hs with rfl | hs'
          · exact hto
          · exact hq s hs'
    · have hEq : relaxNeighbor pos st e = st := by
        unfold relaxNeighbor
        rw [if_pos hg, if_neg hfire]
      rw [hEq]
      constructor
      · simp only [relaxNeighborC, if_pos hg, h1, ok_bind, h2, if_neg hfire,
          pure_eq_ok]
      · exact ⟨hlen, hq⟩
  · have hEq : relaxNeighbor pos st e = st := by
      unfold relaxNeighbor
      rw [if_neg hg]
    rw [hEq]
    constructor
    · simp only [relaxNeighborC, if_neg hg, pure_eq_ok]
    · exact ⟨hlen, hq⟩

theorem dijkstraRunC_eq {g : GraphList} (hwf : WellFormed g) :
    ∀ fuel st, QInv g.num_nodes st →
      dijkstraRunC g fuel st = Except.ok (dijkstraRun g fuel st) := by
  intro fuel
  induction fuel with
  | zero => intro st _; rfl
  | succ m ih =>
    intro st hP
    cases hpop : popMax st.queue with
    | none =>
      have hstep : dijkstraStep g st = none := by
        unfold dijkstraStep
        rw [hpop]
      simp only [dijkstraRunC, dijkstraRun, hpop, hstep]
    | some pr =>
      rcases pr with ⟨s, rest⟩
      rcases popMax_spec st.queue s rest hpop with ⟨hmem, _, hrest⟩
      have hspos : s.position < g.num_nodes := hP.2 s hmem
      have hrsub : rest ⊆ st.queue := by
        rw [hrest]
        exact List.erase_subset _ _
      have hPrest : QInv g.num_nodes { costs := st.costs, queue := rest } :=
        ⟨hP.1, fun s' hs' => hP.2 s' (hrsub hs')⟩
      have h1 : vGet g.nodes s.position = Except.ok (g.getNode s.position) :=
        vGet_ok default hspos
      rcases foldlM_eq_foldl (QInv g.num_nodes)
          ((g.getNode s.position).get_edge_list)
          ({ costs := st.costs, queue := rest }) hPrest
          (fun b' a hb' ha => relaxNeighborC_eq hwf hspos hb' ha)
        with ⟨hfold, hP'⟩
      have hstep : dijkstraStep g st =
          some ((g.getNode s.position).get_edge_list.foldl
            (relaxNeighbor s.position) { costs := st.costs, queue := rest }) := by
        unfold dijkstraStep
        rw [hpop]
      simp only [dijkstraRunC, dijkstraRun, hpop, hstep, h1, ok_bind, hfold]
      exact ih _ hP'

theorem dijkstraC_eq {g : GraphList} {start : ℕ} (hwf : WellFormed g)
    (hstart : start < g.num_nodes) :
    dijkstraC g start = Except.ok (dijkstra g start) := by
  have h0 : vSet (List.replicate g.num_nodes (⊤ : Qi)) start 0 =
      Except.ok ((List.replicate g.num_nodes (⊤ : Qi)).set start 0) :=
    vSet_ok (by rw [List.length_replicate]; exact hstart)
  have hP : QInv g.num_nodes (dijkstraInit g start) := by
    refine ⟨?_, ?_⟩
    · show ((List.replicate g.num_nodes (⊤ : Qi)).set start 0).length = g.num_nodes
      rw [List.length_set, List.length_replicate]
    · intro s hs
      rcases List.mem_cons.mp hs with rfl | hs'
      · exact hstart
      · rcases List.mem_map.mp hs' with ⟨i, hi, rfl⟩
        exact List.mem_range.mp (List.mem_filter.mp hi).1
  have hrun : dijkstraRunC g (dijkstraFuel g) (dijkstraInit g start) =
      Except.ok (dijkstraRun g (dijkstraFuel g) (dijkstraInit g start)) :=
    dijkstraRunC_eq hwf _ _ hP
  simp only [dijkstraC, dijkstra, dijkstraInit, h0, ok_bind] at hrun ⊢
  rw [hrun, ok_bind]
  rfl

/-- `bellman_ford` with every index access checked. -/
def relaxEdgeC (cost : List Qi) (e : Edge) : Except String (List Qi) := do
  let cf ← vGet cost e.from'
  let ct ← vGet cost e.to'
  if cf + (e.weight : ℚ) < ct then vSet cost e.to' (cf + (e.weight : ℚ))
  else pure cost

def bfRoundsC (all_edges : List Edge) : ℕ → List Qi → Except String (List Qi)
  | 0, cost => Except.ok cost
  | k + 1, cost => do
      let cost' ← all_edges.foldlM relaxEdgeC cost
      bfRoundsC all_edges k cost'

def bfCheckC (cost : List Qi) : List Edge → Except String Bool
  | [] => Except.ok false
  | e :: es => do
      let ct ← vGet cost e.to'
      let cf ← vGet cost e.from'
      if cf + (e.weight : ℚ) < ct then pure true else bfCheckC cost es

def bellman_fordC (g : GraphList) (start : ℕ) :
    Except String (Option (List Qi)) := do
  let cost0 ← vSet (List.replicate g.num_nodes (⊤ : Qi)) start 0
  let cost ← bfRoundsC g.make_edge_list (g.num_nodes - 1) cost0
  let bad ← bfCheckC cost g.make_edge_list
  if bad then pure none else pure (some cost)

theorem relaxEdgeC_eq {n : ℕ} {cost : List Qi} (hlen : cost.length = n)
    {e : Edge} (hf : e.from' < n) (ht : e.to' < n) :
    relaxEdgeC cost e = Except.ok (relaxEdge cost e) ∧
      (relaxEdge cost e).length = n := by
  have h1 : vGet cost e.from' = Except.ok (cost.getD e.from' ⊤) :=
    vGet_ok ⊤ (by omega)
  have h2 : vGet cost e.to' = Except.ok (cost.getD e.to' ⊤) :=
    vGet_ok ⊤ (by omega)
  by_cases hc : cost.getD e.from' ⊤ + ((e.weight : ℚ) : Qi) < cost.getD e.to' ⊤
  · have hEq : relaxEdge cost e =
        cost.set e.to' (cost.getD e.from' ⊤ + (e.weight : ℚ)) := by
      unfold relaxEdge
      rw [if_pos hc]
    rw [hEq]
    have h3 : vSet cost e.to' (cost.getD e.from' ⊤ + ((e.weight : ℚ) : Qi)) =
        Except.ok (cost.set e.to' (cost.getD e.from' ⊤ + ((e.weight : ℚ) : Qi))) :=
      vSet_ok (by omega)
    constructor
    · simp only [relaxEdgeC, h1, ok_bind, h2, if_pos hc, h3]
    · rw [List.length_set]
      exact hlen
  · have hEq : relaxEdge cost e = cost := by
      unfold relaxEdge
      rw [if_neg hc]
    rw [hEq]
    constructor
    · simp only [relaxEdgeC, h1, ok_bind, h2, if_neg hc, pure_eq_ok]
    · exact hlen

theorem bfRoundsC_eq {g : GraphList} (hwf : WellFormed g) :
    ∀ k cost, cost.length = g.num_nodes →
      bfRoundsC g.make_edge_list k cost =
        Except.ok ((relaxRound g.make_edge_list)^[k] cost) := by
  intro k
  induction k with
  | zero => intro cost _; rfl
  | succ m ih =>
    intro cost hlen
    rcases foldlM_eq_foldl (fun c : List Qi => c.length = g.num_nodes)
        g.make_edge_list cost hlen
        (fun c e hc he =>
          relaxEdgeC_eq hc (wf_edge_mem_bounds hwf e he).1
            (wf_edge_mem_bounds hwf e he).2)
      with ⟨hfold, hlen'⟩
    have hiter : (relaxRound g.make_edge_list)^[m + 1] cost =
        (relaxRound g.make_edge_list)^[m] (relaxRound g.make_edge_list cost) :=
      Function.iterate_succ_apply _ _ _
    rw [hiter]
    simp only [bfRoundsC, hfold, ok_bind]
    exact ih _ hlen'

theorem bfCheckC_eq {g : GraphList} (hwf : WellFormed g) {cost : List Qi}
    (hlen : cost.length = g.num_nodes) :
    ∀ es : List Edge, (∀ e ∈ es, e ∈ g.make_edge_list) →
      bfCheckC cost es = Except.ok (es.any (fun e =>
        cost.getD e.from' ⊤ + (e.weight : ℚ) < cost.getD e.to' ⊤)) := by
  intro es
  induction es with
  | nil => intro _; rfl
  | cons e es ih =>
    intro hb
    rcases wf_edge_mem_bounds hwf e (hb e (List.mem_cons_self _ _)) with ⟨hf, ht⟩
    have h1 : vGet cost e.to' = Except.ok (cost.getD e.to' ⊤) :=
      vGet_ok ⊤ (by omega)
    have h2 : vGet cost e.from' = Except.ok (cost.getD e.from' ⊤) :=
      vGet_ok ⊤ (by omega)
    have ihh := ih (fun e' he' => hb e' (List.mem_cons_of_mem _ he'))
    by_cases hc : cost.getD e.from' ⊤ + ((e.weight : ℚ) : Qi) < cost.getD e.to' ⊤
    · simp only [bfCheckC, h1, ok_bind, h2, if_pos hc, List.any_cons,
        decide_eq_true hc, Bool.true_or, pure_eq_ok]
    · simp only [bfCheckC, h1, ok_bind, h2, if_neg hc, List.any_cons,
        decide_eq_false hc, Bool.false_or]
      exact ihh

theorem bellman_fordC_eq {g : GraphList} {start : ℕ} (hwf : WellFormed g)
    (hstart : start < g.num_nodes) :
    bellman_fordC g start = Except.ok (bellman_ford g start) := by
  have h0 : vSet (List.replicate g.num_nodes (⊤ : Qi)) start 0 =
      Except.ok ((List.replicate g.num_nodes (⊤ : Qi)).set start 0) :=
    vSet_ok (by rw [List.length_replicate]; exact hstart)
  have hrounds := bfRoundsC_eq hwf (g.num_nodes - 1)
    ((List.replicate g.num_nodes (⊤ : Qi)).set start 0)
    (by rw [List.length_set, List.length_replicate])
  have hcheck := bfCheckC_eq hwf
    (show ((relaxRound g.make_edge_list)^[g.num_nodes - 1]
        ((List.replicate g.num_nodes (⊤ : Qi)).set start 0)).length = g.num_nodes
      from length_iterate_relaxRound g start (g.num_nodes - 1))
    g.make_edge_list (fun e he => he)
  by_cases hany : (g.make_edge_list.any (fun e =>
      ((relaxRound g.make_edge_list)^[g.num_nodes - 1]
        ((List.replicate g.num_nodes (⊤ : Qi)).set start 0)).getD e.from' ⊤ +
        (e.weight : ℚ) <
      ((relaxRound g.make_edge_list)^[g.num_nodes - 1]
        ((List.replicate g.num_nodes (⊤ : Qi)).set start 0)).getD e.to' ⊤)) = true
  · simp only [bellman_fordC, bellman_ford, h0, ok_bind, hrounds, hcheck, hany,
      if_pos, if_true, pure_eq_ok]
  · simp only [bellman_fordC, bellman_ford, h0, ok_bind, hrounds, hcheck,
      if_neg hany, pure_eq_ok]


/-- `floyd_warshall` with every matrix access checked and the
`get_edge(i, j).unwrap()` panic modelled as an error. -/
def fwInitEntryC (g : GraphList) (mats : List (List Qi) × List (List Int))
    (i j : ℕ) : Except String (List (List Qi) × List (List Int)) :=
  if i = j then do
    let c ← msetC mats.1 i j 0
    pure (c, mats.2)
  else
    match g.get_edge i j with
    | .ok (some e) => do
        let c ← msetC mats.1 i j ((e.weight : ℚ) : Qi)
        let l ← msetC mats.2 i j (Int.ofNat i)
        pure (c, l)
    | .ok none => pure mats
    | .error s => Except.error s

def fwUpdateC (mats : List (List Qi) × List (List Int)) (k i j : ℕ) :
    Except String (List (List Qi) × List (List Int)) := do
  let cij ← mgetC mats.1 i j
  let cik ← mgetC mats.1 i k
  let ckj ← mgetC mats.1 k j
  if cik + ckj < cij then do
    let c ← msetC mats.1 i j (cik + ckj)
    let p ← mgetC mats.2 k j
    let l ← msetC mats.2 i j p
    pure (c, l)
  else pure mats

def floyd_warshallC (g : GraphList) : Except String (List (List Int)) := do
  let n := g.num_nodes
  let init ← (List.range n).foldlM
    (fun mats i => (List.range n).foldlM (fun ms j => fwInitEntryC g ms i j) mats)
    (List.replicate n (List.replicate n (⊤ : Qi)),
     List.replicate n (List.replicate n (-1 : Int)))
  let final ← (List.range n).foldlM
    (fun mats k => (List.range n).foldlM
      (fun ms i => (List.range n).foldlM (fun ms' j => fwUpdateC ms' k i j) ms)
      mats)
    init
  pure final.2

/-- Both matrices are `n × n`. -/
def MatsInv (n : ℕ) (mats : List (List Qi) × List (List Int)) : Prop :=
  mats.1.length = n ∧ (∀ r ∈ mats.1, r.length = n) ∧
    mats.2.length = n ∧ (∀ r ∈ mats.2, r.length = n)

theorem fwInitEntryC_eq {g : GraphList} {n : ℕ} (hn : n = g.num_nodes)
    {mats : List (List Qi) × List (List Int)} (hP : MatsInv n mats)
    {i j : ℕ} (hi : i < n) (hj : j < n) :
    fwInitEntryC g mats i j = Except.ok (fwInitEntry g mats i j) ∧
      MatsInv n (fwInitEntry g mats i j) := by
  rcases hP with ⟨h1, h2, h3, h4⟩
  have hvalid : g.get_edge i j = Except.ok ((g.getNode i).get_edge j) := by
    unfold GraphList.get_edge
    have hv : g.valid_indices i j = true :=
      (valid_indices_iff g i j).mpr ⟨by omega, by omega⟩
    rw [hv]
    rfl
  by_cases hij : i = j
  · have s1 : msetC mats.1 i j (0 : Qi) = Except.ok (mset mats.1 i j 0) :=
      msetC_ok h1 h2 hi hj
    constructor
    · simp only [fwInitEntryC, fwInitEntry, if_pos hij, s1, ok_bind, pure_eq_ok]
    · simp only [fwInitEntry, if_pos hij]
      rcases set_row_inv mats.1 n i j 0 h1 h2 hi with ⟨a1, a2⟩
      exact ⟨a1, a2, h3, h4⟩
  · cases hoe : (g.getNode i).get_edge j with
    | none =>
      have h : g.get_edge i j = Except.ok none := by rw [hvalid, hoe]
      constructor
      · simp only [fwInitEntryC, fwInitEntry, if_neg hij, h, pure_eq_ok]
      · simp only [fwInitEntry, if_neg hij, h]
        exact ⟨h1, h2, h3, h4⟩
    | some e =>
      have h : g.get_edge i j = Except.ok (some e) := by rw [hvalid, hoe]
      have s1 : msetC mats.1 i j ((e.weight : ℚ) : Qi) =
          Except.ok (mset mats.1 i j ((e.weight : ℚ) : Qi)) :=
        msetC_ok h1 h2 hi hj
      have s2 : msetC mats.2 i j (Int.ofNat i) =
          Except.ok (lset mats.2 i j (Int.ofNat i)) :=
        msetC_ok h3 h4 hi hj
      constructor
      · simp only [fwInitEntryC, fwInitEntry, if_neg hij, h, s1, ok_bind, s2,
          pure_eq_ok]
      · simp only [fwInitEntry, if_neg hij, h, mset, lset]
        rcases set_row_inv mats.1 n i j ((e.weight : ℚ) : Qi) h1 h2 hi with ⟨a1, a2⟩
        rcases set_row_inv mats.2 n i j (Int.ofNat i) h3 h4 hi with ⟨b1, b2⟩
        exact ⟨a1, a2, b1, b2⟩

theorem fwUpdateC_eq {n : ℕ} {mats : List (List Qi) × List (List Int)}
    (hP : MatsInv n mats) {k i j : ℕ} (hk : k < n) (hi : i < n) (hj : j < n) :
    fwUpdateC mats k i j = Except.ok (fwUpdate mats k i j) ∧
      MatsInv n (fwUpdate mats k i j) := by
  rcases hP with ⟨h1, h2, h3, h4⟩
  have g1 : mgetC mats.1 i j = Except.ok (mget mats.1 i j) :=
    mgetC_ok ⊤ h1 h2 hi hj
  have g2 : mgetC mats.1 i k = Except.ok (mget mats.1 i k) :=
    mgetC_ok ⊤ h1 h2 hi hk
  have g3 : mgetC mats.1 k j = Except.ok (mget mats.1 k j) :=
    mgetC_ok ⊤ h1 h2 hk hj
  by_cases hc : mget mats.1 i k + mget mats.1 k j < mget mats.1 i j
  · have s1 : msetC mats.1 i j (mget mats.1 i k + mget mats.1 k j) =
        Except.ok (mset mats.1 i j (mget mats.1 i k + mget mats.1 k j)) :=
      msetC_ok h1 h2 hi hj
    have g4 : mgetC mats.2 k j = Except.ok (lget mats.2 k j) :=
      mgetC_ok (-1) h3 h4 hk hj
    have s2 : msetC mats.2 i j (lget mats.2 k j) =
        Except.ok (lset mats.2 i j (lget mats.2 k j)) :=
      msetC_ok h3 h4 hi hj
    constructor
    · simp only [fwUpdateC, fwUpdate, g1, ok_bind, g2, g3, if_pos hc, s1, g4, s2,
        pure_eq_ok]
    · simp only [fwUpdate, if_pos hc, mset, lset]
      rcases set_row_inv mats.1 n i j (mget mats.1 i k + mget mats.1 k j)
        h1 h2 hi with ⟨a1, a2⟩
      rcases set_row_inv mats.2 n i j (lget mats.2 k j) h3 h4 hi with ⟨b1, b2⟩
      exact ⟨a1, a2, b1, b2⟩
  · constructor
    · simp only [fwUpdateC, fwUpdate, g1, ok_bind, g2, g3, if_neg hc, pure_eq_ok]
    · simp only [fwUpdate, if_neg hc]
      exact ⟨h1, h2, h3, h4⟩

theorem floyd_warshallC_eq {g : GraphList} :
    floyd_warshallC g = Except.ok (floyd_warshall g) := by
  have hP0 : MatsInv g.num_nodes
      (List.replicate g.num_nodes (List.replicate g.num_nodes (⊤ : Qi)),
       List.replicate g.num_nodes (List.replicate g.num_nodes (-1 : Int))) := by
    refine ⟨by rw [List.length_replicate], ?_, by rw [List.length_replicate], ?_⟩
    · intro r hr
      rw [List.eq_of_mem_replicate hr, List.length_replicate]
    · intro r hr
      rw [List.eq_of_mem_replicate hr, List.length_replicate]
  rcases foldlM_eq_foldl (MatsInv g.num_nodes) (List.range g.num_nodes) _ hP0
      (fun mats i hm hi =>
        foldlM_eq_foldl (MatsInv g.num_nodes) (List.range g.num_nodes) mats hm
          (fun ms j hms hj =>
            fwInitEntryC_eq rfl hms (List.mem_range.mp hi) (List.mem_range.mp hj)))
    with ⟨hinit, hPinit⟩
  rcases foldlM_eq_foldl (MatsInv g.num_nodes) (List.range g.num_nodes) _ hPinit
      (fun mats k hm hk =>
        foldlM_eq_foldl (MatsInv g.num_nodes) (List.range g.num_nodes) mats hm
          (fun ms i hms hi =>
            foldlM_eq_foldl (MatsInv g.num_nodes) (List.range g.num_nodes) ms hms
              (fun ms' j hms' hj =>
                fwUpdateC_eq hms' (List.mem_range.mp hk) (List.mem_range.mp hi)
                  (List.mem_range.mp hj))))
    with ⟨hfinal, _⟩
  simp only [floyd_warshallC, floyd_warshall, hinit, ok_bind, hfinal, pure_eq_ok]

/-- `dfs_all` with every index access checked. -/
def dfs_allC (g : GraphList) : Except String (List Bool) :=
  (List.range g.num_nodes).foldlM
    (fun seen i => do
      let b ← vGet seen i
      if !b then dfs_recursiveC g (g.num_nodes + 1) i seen else pure seen)
    (List.replicate g.num_nodes false)

/-- `dfs_recursive_connected_componentes` with every index access checked. -/
def dfs_recursive_connected_componentesC (g : GraphList) :
    ℕ → ℕ → List Int → Int → Except String (List Int)
  | 0, _, component, _ => Except.ok component
  | fuel + 1, ind, component, curr_comp => do
      let component1 ← vSet component ind curr_comp
      let nd ← vGet g.nodes ind
      nd.get_edge_list.foldlM
        (fun comp e => do
          let c ← vGet comp e.to'
          if c = -1 then
            dfs_recursive_connected_componentesC g fuel e.to' comp curr_comp
          else pure comp)
        component1

/-- `dfs_connected_componentes` with every index access checked. -/
def dfs_connected_componentesC (g : GraphList) : Except String (List Int) := do
  let acc ← (List.range g.num_nodes).foldlM
    (fun (acc : List Int × Int) ind => do
      let c ← vGet acc.1 ind
      if c = -1 then do
        let comp ← dfs_recursive_connected_componentesC g (g.num_nodes + 1)
          ind acc.1 acc.2
        pure (comp, acc.2 + 1)
      else pure acc)
    (List.replicate g.num_nodes (-1), 0)
  pure acc.1

theorem dfs_allC_eq {g : GraphList} (hwf : WellFormed g) :
    dfs_allC g = Except.ok (dfs_all g) := by
  have hstep : ∀ (seen : List Bool) (i : ℕ), seen.length = g.num_nodes →
      i ∈ List.range g.num_nodes →
      (do
        let b ← vGet seen i
        if !b then dfs_recursiveC g (g.num_nodes + 1) i seen else pure seen) =
        Except.ok (if !(seen.getD i false) then
          dfs_recursive g (g.num_nodes + 1) i seen else seen) ∧
        (if !(seen.getD i false) then dfs_recursive g (g.num_nodes + 1) i seen
          else seen).length = g.num_nodes := by
    intro seen i hlen hi
    have hin : i < g.num_nodes := List.mem_range.mp hi
    have h1 : vGet seen i = Except.ok (seen.getD i false) :=
      vGet_ok false (by omega)
    by_cases hb : (!(seen.getD i false)) = true
    · rcases dfs_recursiveC_eq hwf (g.num_nodes + 1) i seen hin hlen
        with ⟨hrec, hreclen⟩
      constructor
      · simp only [h1, ok_bind, if_pos hb, hrec]
      · rw [if_pos hb]
        exact hreclen
    · constructor
      · simp only [h1, ok_bind, if_neg hb, pure_eq_ok]
      · rw [if_neg hb]
        exact hlen
  unfold dfs_allC dfs_all
  exact (foldlM_eq_foldl (fun sn : List Bool => sn.length = g.num_nodes)
    (List.range g.num_nodes) (List.replicate g.num_nodes false)
    (show (List.replicate g.num_nodes false).length = g.num_nodes by
      rw [List.length_replicate]) hstep).1

theorem dfs_recursive_ccC_eq {g : GraphList} (hwf : WellFormed g) :
    ∀ fuel ind component curr_comp, ind < g.num_nodes →
      component.length = g.num_nodes →
      dfs_recursive_connected_componentesC g fuel ind component curr_comp =
        Except.ok
          (dfs_recursive_connected_componentes g fuel ind component curr_comp) ∧
        (dfs_recursive_connected_componentes g fuel ind component
          curr_comp).length = g.num_nodes := by
  intro fuel
  induction fuel with
  | zero =>
    intro ind component curr_comp _ hl
    exact ⟨rfl, hl⟩
  | succ m ih =>
    intro ind component curr_comp hind hlen
    have h0 : vSet component ind curr_comp =
        Except.ok (component.set ind curr_comp) := vSet_ok (by omega)
    have h1 : vGet g.nodes ind = Except.ok (g.getNode ind) :=
      vGet_ok default hind
    have hstep : ∀ (comp : List Int) (e : Edge), comp.length = g.num_nodes →
        e ∈ (g.getNode ind).get_edge_list →
        (do
          let c ← vGet comp e.to'
          if c = -1 then
            dfs_recursive_connected_componentesC g m e.to' comp curr_comp
          else pure comp) =
          Except.ok (if comp.getD e.to' 0 = -1 then
            dfs_recursive_connected_componentes g m e.to' comp curr_comp
            else comp) ∧
          (if comp.getD e.to' 0 = -1 then
            dfs_recursive_connected_componentes g m e.to' comp curr_comp
            else comp).length = g.num_nodes := by
      intro comp e hcl he
      have hto : e.to' < g.num_nodes := (node_edge_facts hwf hind he).2.2
      have h2 : vGet comp e.to' = Except.ok (comp.getD e.to' 0) :=
        vGet_ok 0 (by omega)
      by_cases hb : comp.getD e.to' 0 = -1
      · rcases ih e.to' comp curr_comp hto hcl with ⟨hrec, hreclen⟩
        constructor
        · simp only [h2, ok_bind, if_pos hb, hrec]
        · rw [if_pos hb]
          exact hreclen
      · constructor
        · simp only [h2, ok_bind, if_neg hb, pure_eq_ok]
        · rw [if_neg hb]
          exact hcl
    rcases foldlM_eq_foldl (fun c : List Int => c.length = g.num_nodes)
        ((g.getNode ind).get_edge_list) (component.set ind curr_comp)
        (show (component.set ind curr_comp).length = g.num_nodes by
          rw [List.length_set]; exact hlen)
        hstep with ⟨hfold, hlen'⟩
    constructor
    · simp only [dfs_recursive_connected_componentesC,
        dfs_recursive_connected_componentes, h0, ok_bind, h1, hfold]
    · simp only [dfs_recursive_connected_componentes]
      exact hlen'

theorem dfs_connected_componentesC_eq {g : GraphList} (hwf : WellFormed g) :
    dfs_connected_componentesC g =
      Except.ok (dfs_connected_componentes g) := by
  have hstep : ∀ (acc : List Int × Int) (ind : ℕ), acc.1.length = g.num_nodes →
      ind ∈ List.range g.num_nodes →
      (do
        let c ← vGet acc.1 ind
        if c = -1 then do
          let comp ← dfs_recursive_connected_componentesC g (g.num_nodes + 1)
            ind acc.1 acc.2
          pure (comp, acc.2 + 1)
        else pure acc) =
        Except.ok (if acc.1.getD ind 0 = -1 then
          (dfs_recursive_connected_componentes g (g.num_nodes + 1) ind acc.1
            acc.2, acc.2 + 1)
          else acc) ∧
        (if acc.1.getD ind 0 = -1 then
          (dfs_recursive_connected_componentes g (g.num_nodes + 1) ind acc.1
            acc.2, acc.2 + 1)
          else acc).1.length = g.num_nodes := by
    intro acc ind hlen hi
    have hin : ind < g.num_nodes := List.mem_range.mp hi
    have h1 : vGet acc.1 ind = Except.ok (acc.1.getD ind 0) :=
      vGet_ok 0 (by omega)
    by_cases hb : acc.1.getD ind 0 = -1
    · rcases dfs_recursive_ccC_eq hwf (g.num_nodes + 1) ind acc.1 acc.2 hin hlen
        with ⟨hrec, hreclen⟩
      constructor
      · simp only [h1, ok_bind, if_pos hb, hrec, pure_eq_ok]
      · rw [if_pos hb]
        exact hreclen
    · constructor
      · simp only [h1, ok_bind, if_neg hb, pure_eq_ok]
      · rw [if_neg hb]
        exact hlen
  rcases foldlM_eq_foldl
      (fun acc : List Int × Int => acc.1.length = g.num_nodes)
      (List.range g.num_nodes) ((List.replicate g.num_nodes (-1 : Int), 0))
      (show (List.replicate g.num_nodes (-1 : Int)).length = g.num_nodes by
        rw [List.length_replicate]) hstep with ⟨hfold, _⟩
  simp only [dfs_connected_componentesC, dfs_connected_componentes, hfold,
    ok_bind]
  rfl

/-- C9: on a well-formed graph (every stored edge's endpoints lie in
`[0, num_nodes)`, each node's index equals its position) and a valid start
index, none of the algorithm entry points — `bfs`, the dfs variants
(recursive `dfs`, iterative `dfs_stack`, `dfs_all` and the
connected-components traversal), `dijkstra`, `bellman_ford`,
`floyd_warshall` — performs an out-of-range index access: every checked
variant, in which each `Vec` index and `floyd_warshall`'s internal
`get_edge(i, j).unwrap()` raise an error when out of range, returns `ok` of
the plain result (so in particular the `get_edge` error branch is never
reached for `i, j < n`). -/
theorem c9_no_out_of_range_access (g : GraphList) (start : ℕ)
    (hwf : WellFormed g) (hstart : start < g.num_nodes) :
    bfsC g start = Except.ok (bfs g start) ∧
    dfsC g start = Except.ok (dfs g start) ∧
    dfs_stackC g start = Except.ok (dfs_stack g start) ∧
    dfs_allC g = Except.ok (dfs_all g) ∧
    dfs_connected_componentesC g = Except.ok (dfs_connected_componentes g) ∧
    dijkstraC g start = Except.ok (dijkstra g start) ∧
    bellman_fordC g start = Except.ok (bellman_ford g start) ∧
    floyd_warshallC g = Except.ok (floyd_warshall g) :=
  ⟨bfsC_eq hwf hstart, dfsC_eq hwf hstart, dfs_stackC_eq hwf hstart,
    dfs_allC_eq hwf, dfs_connected_componentesC_eq hwf,
    dijkstraC_eq hwf hstart, bellman_fordC_eq hwf hstart, floyd_warshallC_eq⟩

/-- C9 witness: the five-edge scenario graph with start 0. -/
theorem c9_witness :
    (WellFormed gBasic ∧ 0 < gBasic.num_nodes) ∧
      (bfsC gBasic 0 = Except.ok (bfs gBasic 0) ∧
       dfsC gBasic 0 = Except.ok (dfs gBasic 0) ∧
       dfs_stackC gBasic 0 = Except.ok (dfs_stack gBasic 0) ∧
       dfs_allC gBasic = Except.ok (dfs_all gBasic) ∧
       dfs_connected_componentesC gBasic =
         Except.ok (dfs_connected_componentes gBasic) ∧
       dijkstraC gBasic 0 = Except.ok (dijkstra gBasic 0) ∧
       bellman_fordC gBasic 0 = Except.ok (bellman_ford gBasic 0) ∧
       floyd_warshallC gBasic = Except.ok (floyd_warshall gBasic)) :=
  ⟨⟨by decide, by decide⟩,
    c9_no_out_of_range_access gBasic 0 (by decide) (by decide)⟩

end RustyGraphs
